import Mathlib

/-!
# mcp-robot: request dispatch and tool registry

A shallow embedding of the Go packages `server`, `tools`, `io`, `handler` and
`spec` of `makarski/mcp-robot`, and theorems about the registry
(`server.WithTool`), the `tools/list` pagination handler
(`server.listToolsHandler`), the dispatcher (`server.resolveHandler`), the
argument validator (`ToolDefinition.ValidateArguments`), the tool handler
(`ToolFunc.MCPHandler`) and the encoding of tool results (`writeResult`). The
HTTP transport (`HTTPServer.entrypoint`) is that of the root package
`mcprobot`, embedded with the server and the dispatcher of that package in the
namespace `mcprobot`.

Conventions of the embedding

* Go `int` is the 64-bit two's complement integer: values are `Int`, and the
  result of `+` and `*` is passed through `wrapInt`.
* A Go `map[string]T` is an association list with first-match lookup
  (`mapGet`); `m[k] = v` is `mapSet`. A `nil` map and an empty map read alike,
  so both are `[]`, except where the source tests a map against `nil`
  (`ToolSchema.Properties`), which is an `Option`.
* A value of Go type `any` that came out of `encoding/json` is a `Value`. A
  value of type `any` that a tool function puts into its result is a `GoValue`,
  which may also be a NaN or infinite `float64` or of a type that
  `encoding/json` does not support. Type assertions and `%T` see either through
  its `DynType`.
* A Go function that may panic returns `GoResult`; a Go `error` result that is
  either `nil` or a `*spec.ProtocolError` is an `Option ProtocolError`.
* The stream handed to a handler accepts every write, so what a handler does
  is the list of response envelopes it writes, in order.
* A tool function is a total function from the argument map to its two
  results. `json.Marshal` fails on a structured result that holds a NaN or
  infinite number or a value of an unsupported type; the text of a finite
  `float64` is left to a parameter `fmtFloat`, and reading such a text back to
  a parameter `parseFloat`.
-/

namespace McpRobot

/-! ## Go runtime -/

/-- Outcome of running Go code that may panic. -/
inductive GoResult (α : Type) where
  | ret (a : α)
  | panic
  deriving Repr

/-- Largest Go `int` (64-bit). -/
def maxInt : Int := 2 ^ 63 - 1

/-- Smallest Go `int` (64-bit). -/
def minInt : Int := -(2 ^ 63)

/-- Two's complement wrap-around of an exact integer result into Go `int`. -/
def wrapInt (x : Int) : Int := (x + 2 ^ 63) % 2 ^ 64 - 2 ^ 63

/-- Value of Go type `any` as produced by `encoding/json`:
`nil`, `bool`, `float64`, `string`, `[]any`, `map[string]any`. -/
inductive Value where
  | null
  | bool (b : Bool)
  | number (f : ℚ)
  | str (s : String)
  | array (xs : List Value)
  | object (kvs : List (String × Value))

/-- Read `m[k]` of a Go map: `some v` when the key is present. -/
def mapGet {β : Type} (m : List (String × β)) (k : String) : Option β :=
  List.lookup k m

/-- Assignment `m[k] = v` of a Go map. -/
def mapSet {β : Type} (m : List (String × β)) (k : String) (v : β) : List (String × β) :=
  if (mapGet m k).isSome then m.map (fun p => if p.1 == k then (k, v) else p)
  else m ++ [(k, v)]

/-- Builtin `len(m)` of a Go map. -/
def mapLen {β : Type} (m : List (String × β)) : Int := (m.length : Int)

/-- Verb `%T` of `fmt` on a decoded JSON value. -/
def fmtType : Value → String
  | .null => "<nil>"
  | .bool _ => "bool"
  | .number _ => "float64"
  | .str _ => "string"
  | .array _ => "[]interface \x7b\x7d"
  | .object _ => "map[string]interface \x7b\x7d"

/-- Dynamic type of a value held in a Go `any`, as far as the type assertions
and the `reflect.Kind` tests of this program tell values apart: untyped `nil`,
`bool`, `float64`, `string`, `[]any`, `map[string]any`, and any other type,
which is neither a slice nor an array, given by its name. -/
inductive DynType where
  | nil
  | bool
  | float64
  | string
  | slice
  | map
  | other (goType : String)
  deriving DecidableEq, Repr

/-- Verb `%T` of `fmt`: the name of the dynamic type. -/
def DynType.name : DynType → String
  | .nil => "<nil>"
  | .bool => "bool"
  | .float64 => "float64"
  | .string => "string"
  | .slice => "[]interface \x7b\x7d"
  | .map => "map[string]interface \x7b\x7d"
  | .other goType => goType

/-- Dynamic type of a decoded JSON value. -/
def Value.dynType : Value → DynType
  | .null => .nil
  | .bool _ => .bool
  | .number _ => .float64
  | .str _ => .string
  | .array _ => .slice
  | .object _ => .map

instance : Coe Value DynType := ⟨Value.dynType⟩

/-- The values of a `float64` that are not finite numbers. -/
inductive NonFinite where
  | nan
  | posInf
  | negInf
  deriving DecidableEq, Repr

/-- Text of `strconv.FormatFloat(f, \x27g\x27, -1, 64)` for such a value. -/
def NonFinite.text : NonFinite → String
  | .nan => "NaN"
  | .posInf => "+Inf"
  | .negInf => "-Inf"

/-- Value of Go type `any` that a tool function can store in its result: a
value of one of the types that `encoding/json` produces, or a `float64` that is
NaN or infinite, or a value of a type that `encoding/json` does not support (a
channel, a function, a complex number), given by the name of its type. Values
of the other Go types (integers, structs, typed slices and maps) are not
modelled. -/
inductive GoValue where
  | null
  | bool (b : Bool)
  | number (f : ℚ)
  | nonFinite (f : NonFinite)
  | str (s : String)
  | array (xs : List GoValue)
  | object (kvs : List (String × GoValue))
  | unsupported (goType : String)

/-- Dynamic type of a Go value. -/
def GoValue.dynType : GoValue → DynType
  | .null => .nil
  | .bool _ => .bool
  | .number _ => .float64
  | .nonFinite _ => .float64
  | .str _ => .string
  | .array _ => .slice
  | .object _ => .map
  | .unsupported goType => .other goType

instance : Coe GoValue DynType := ⟨GoValue.dynType⟩

/-- Verb `%d` of `fmt` on a Go `int`. -/
def fmtInt (n : Int) : String :=
  if n < 0 then "-" ++ Nat.repr n.natAbs else Nat.repr n.natAbs

/-! ## Package spec -/

def JsonRPC : String := "2.0"
def ProtocolVersion : String := "2025-03-26"
def MethodInitialize : String := "initialize"
def MethodNotificationsInitialized : String := "notifications/initialized"
def MethodToolsList : String := "tools/list"
def MethodToolsCall : String := "tools/call"

/-- Modelled from the spec: the constant `spec.MethodPing`, which
`server.resolveHandler` uses and whose declaration is not among the sources;
the routing table of the specification names the method `"ping"`. -/
def MethodPing : String := "ping"

def ErrorCodeInvalidRequest : Int := -32600
def ErrorCodeMethodNotFound : Int := -32601
def ErrorCodeInvalidParams : Int := -32602
def ErrorCodeInternalError : Int := -32603
def ErrorCodeToolNotFound : Int := -32000
def ErrorCodeToolExecutionFailed : Int := -32001
def ErrorCodeParseError : Int := -32700

structure ProtocolError where
  Code : Int
  Message : String
  deriving DecidableEq, Repr

def NewProtocolError (code : Int) (message : String) : ProtocolError :=
  { Code := code, Message := message }

structure Request where
  Jsonrpc : String
  ID : Int
  Method : String
  Params : List (String × Value)

structure CapabilityParam where
  Subscribe : Bool
  ListChanged : Bool
  deriving DecidableEq, Repr

structure Info where
  Name : String
  Version : String
  deriving DecidableEq, Repr

/-- Wire error object `spec.Error`. -/
structure Error where
  Code : Int
  Message : String
  deriving DecidableEq, Repr

/-! ## Package tools: definitions and schemas -/

/-- Schema tree `tools.ToolSchema`. `Properties` is `none` for a nil map; a
map value and `ArrayItems` are pointers, `none` when nil. -/
inductive ToolSchema where
  | mk (Type_ : String) (Description : String)
      (Properties : Option (List (String × Option ToolSchema)))
      (Required : List String) (ArrayItems : Option ToolSchema)

namespace ToolSchema

/-- Field `Type`. -/
def Type_ : ToolSchema → String
  | mk t _ _ _ _ => t

def Description : ToolSchema → String
  | mk _ d _ _ _ => d

def Properties : ToolSchema → Option (List (String × Option ToolSchema))
  | mk _ _ p _ _ => p

def Required : ToolSchema → List String
  | mk _ _ _ r _ => r

def ArrayItems : ToolSchema → Option ToolSchema
  | mk _ _ _ _ a => a

/-- Zero value of the struct. -/
def zero : ToolSchema := mk "" "" none [] none

end ToolSchema

structure ToolAnnotations where
  Title : String
  ReadOnlyHint : Option Bool
  DestructiveHint : Option Bool
  IdempotentHint : Option Bool
  OpenWorldHint : Option Bool
  deriving DecidableEq, Repr

structure ToolDefinition where
  Name : String
  Title : String
  Description : String
  InputSchema : ToolSchema
  OutputSchema : ToolSchema
  Annotations : ToolAnnotations
  ResultsPerPage : Int

/-- Zero value of the struct. -/
def ToolDefinition.zero : ToolDefinition :=
  { Name := "", Title := "", Description := "", InputSchema := ToolSchema.zero,
    OutputSchema := ToolSchema.zero,
    Annotations := { Title := "", ReadOnlyHint := none, DestructiveHint := none,
                     IdempotentHint := none, OpenWorldHint := none },
    ResultsPerPage := 0 }

/-! ## Package resources -/

def ResourceItemType : String := "resource"
def ResourceLinkType : String := "resource_link"

structure resource where
  URI : String
  Name : String
  Title : String
  Description : String
  MimeType : String
  Size : Int
  deriving DecidableEq, Repr

structure ResourceText extends resource where
  Text : String
  deriving DecidableEq, Repr

structure ResourceBinary extends resource where
  Blob : List UInt8
  deriving DecidableEq, Repr

structure ResourceLink extends resource where
  Type_ : String
  deriving DecidableEq, Repr

def NewResourceText (uri name title description mimeType text : String) : ResourceText :=
  { URI := uri, Name := name, Title := title, Description := description,
    MimeType := mimeType, Size := 0, Text := text }

def NewResourceBinary (uri name title description mimeType : String) (blob : List UInt8) :
    ResourceBinary :=
  { URI := uri, Name := name, Title := title, Description := description,
    MimeType := mimeType, Size := (blob.length : Int), Blob := blob }

def NewResourceLink (uri name description mimeType : String) : ResourceLink :=
  { Type_ := ResourceLinkType, URI := uri, Name := name, Title := "",
    Description := description, MimeType := mimeType, Size := 0 }

/-! ## Package tools: result types -/

structure ToolResultMedia where
  Type_ : String
  Data : String
  MimeType : String
  deriving DecidableEq, Repr

structure ToolResultText where
  Type_ : String
  Text : String
  deriving DecidableEq, Repr

/-- Type `ToolResultStructured`, a `map[string]any`; `none` is the nil map. -/
abbrev ToolResultStructured := Option (List (String × GoValue))

structure ToolResultEmbeddedResource (R : Type) where
  Type_ : String
  Resource : R
  deriving DecidableEq, Repr

structure toolResultUnionItem where
  text : Option ToolResultText
  media : Option ToolResultMedia
  embeddedTextResource : Option (ToolResultEmbeddedResource ResourceText)
  embeddedBinaryResource : Option (ToolResultEmbeddedResource ResourceBinary)
  resourceLink : Option ResourceLink
  deriving DecidableEq, Repr

structure ToolResultUnion where
  items : List toolResultUnionItem
  deriving DecidableEq, Repr

/-- Type set of the constraint `tools.ToolResult`: one constructor for each
member type. -/
inductive ToolResult where
  | text (v : ToolResultText)
  | media (v : ToolResultMedia)
  | texts (v : List ToolResultText)
  | medias (v : List ToolResultMedia)
  | structured (v : ToolResultStructured)
  | resourceLink (v : ResourceLink)
  | embeddedText (v : ToolResultEmbeddedResource ResourceText)
  | embeddedBinary (v : ToolResultEmbeddedResource ResourceBinary)
  | embeddedTexts (v : List (ToolResultEmbeddedResource ResourceText))
  | embeddedBinaries (v : List (ToolResultEmbeddedResource ResourceBinary))
  | union (v : ToolResultUnion)

/-- Element of the `[]any` stored under `content`. -/
inductive ContentItem where
  | null
  | text (v : ToolResultText)
  | media (v : ToolResultMedia)
  | embeddedText (v : ToolResultEmbeddedResource ResourceText)
  | embeddedBinary (v : ToolResultEmbeddedResource ResourceBinary)
  | resourceLink (v : ResourceLink)
  | json (v : Value)

/-- Argument `result any` of `writeResult`: a member of the `ToolResult`
constraint, a `[]any`, or a value of any other type, given by its `%T` name. -/
inductive AnyResult where
  | tool (r : ToolResult)
  | anySlice (items : List ContentItem)
  | other (typeName : String)

/-- Error value returned by a tool function: a non-nil `*spec.ProtocolError`,
or any other error, given by the text of its `Error()` method. -/
inductive ToolError where
  | protocol (e : ProtocolError)
  | other (text : String)

/-- Type `tools.ToolFunc[TR]`: both results of the call. -/
abbrev ToolFunc := List (String × Value) → ToolResult × Option ToolError

/-! ## Responses -/

/-- Value stored under a key of a result map (`map[string]any`) by the core. -/
inductive ResultValue where
  | json (v : Value)
  | tools (ds : List ToolDefinition)
  | capabilities (m : List (String × CapabilityParam))
  | info (i : Info)
  | content (items : List ContentItem)
  | structured (m : ToolResultStructured)

/-- Envelope `spec.Response[int]`; `Result` is `none` for a nil map and `Error`
is `none` for a nil pointer. -/
structure Response where
  Jsonrpc : String
  ID : Int
  Result : Option (List (String × ResultValue))
  Error : Option Error

/-- What a handler did: the envelopes it wrote, unless it panicked. -/
abbrev Served := GoResult (List Response)

/-- Interface `handler.MCPHandler`: its one method `ServeRPC`, as a function of
the request. -/
abbrev MCPHandler := Request → Served

/-- Interface `tools.ToolHandler`. -/
structure ToolHandler where
  MCPHandler : ToolDefinition → McpRobot.MCPHandler

/-! ## Package io: the response writer -/

structure ResponseWriter where
  id : Int

def NewResponseWriter (id : Int) : ResponseWriter := { id := id }

/-- Envelope encoded by `ResponseWriter.WriteResult`; the argument is `none`
for a nil map, which the envelope then carries as its `Result`. -/
def ResponseWriter.WriteResult (rw : ResponseWriter)
    (result : Option (List (String × ResultValue))) : Response :=
  { Jsonrpc := JsonRPC, ID := rw.id, Result := result, Error := none }

/-- Envelope encoded by `ResponseWriter.WriteError`. -/
def ResponseWriter.WriteError (rw : ResponseWriter) (code : Int) (message : String) : Response :=
  { Jsonrpc := JsonRPC, ID := rw.id, Result := none,
    Error := some { Code := code, Message := message } }

/-! ## Package server: the registry -/

structure serverTool where
  handler : MCPHandler
  toolDefinition : ToolDefinition

structure server where
  toolsPerPage : Int
  tools : List (String × serverTool)
  toolNames : List String
  info : Info

def newServer (name version : String) : server :=
  { toolsPerPage := -1, tools := [], toolNames := [],
    info := { Name := name, Version := version } }

def server.WithTool (s : server) (definition : ToolDefinition) (toolHandler : ToolHandler) :
    server :=
  if (mapGet s.tools definition.Name).isSome then s
  else
    let handler := toolHandler.MCPHandler definition
    { s with tools := mapSet s.tools definition.Name ⟨handler, definition⟩,
             toolNames := s.toolNames ++ [definition.Name] }

def server.ToolsPerPage (s : server) (toolsPerPage : Int) : server :=
  { s with toolsPerPage := toolsPerPage }

/-! ## Go standard library: strconv.Atoi and slicing -/

/-- Value of an ASCII decimal digit. -/
def digitVal (c : Char) : Option Nat :=
  if '0' ≤ c ∧ c ≤ '9' then some (c.toNat - 48) else none

/-- Base-10 accumulation of a digit string; `none` at the first non-digit. -/
def parseDigits : List Char → Nat → Option Nat
  | [], acc => some acc
  | c :: cs, acc =>
    match digitVal c with
    | none => none
    | some d => parseDigits cs (acc * 10 + d)

/-- Function `strconv.Atoi` of the Go standard library: an optional sign
followed by one or more decimal digits, whose value fits a 64-bit `int`;
`none` stands for a syntax or range error. -/
def Atoi (s : String) : Option Int :=
  match s.toList with
  | [] => none
  | c :: cs =>
    let body := if c = '-' ∨ c = '+' then cs else c :: cs
    match body with
    | [] => none
    | _ :: _ =>
      match parseDigits body 0 with
      | none => none
      | some n =>
        let v : Int := if c = '-' then -(n : Int) else (n : Int)
        if minInt ≤ v ∧ v ≤ maxInt then some v else none

/-- Slice expression `xs[lo:hi]` of Go: it panics unless `0 ≤ lo ≤ hi ≤ cap(xs)`.
The capacity is taken to be the length: in every state built by `newServer`,
`WithTool` and `ToolsPerPage` the upper bound the list handler uses is at most
`len(toolNames)`, so elements between length and capacity are never reached. -/
def goSlice {α : Type} (xs : List α) (lo hi : Int) : GoResult (List α) :=
  if 0 ≤ lo ∧ lo ≤ hi ∧ hi ≤ (xs.length : Int) then
    .ret ((xs.drop lo.toNat).take (hi.toNat - lo.toNat))
  else .panic

/-! ## Package tools: argument validation and the builder -/

/-- Function `validateArgumentType`. The function inspects `arg` only
through type assertions, `reflect.Kind` and the verb `%T`, so the model takes
the dynamic type of `arg`. -/
def validateArgumentType (name : String) (arg : DynType) (expectedType : String) :
    Option ProtocolError :=
  if expectedType = "string" then
    match arg with
    | .string => none
    | _ => some (NewProtocolError ErrorCodeInvalidParams
        ("argument \x27" ++ name ++ "\x27 must be a string"))
  else if expectedType = "number" then
    match arg with
    | .float64 => none
    | _ => some (NewProtocolError ErrorCodeInvalidParams
        ("argument \x27" ++ name ++ "\x27 must be a number"))
  else if expectedType = "boolean" then
    match arg with
    | .bool => none
    | _ => some (NewProtocolError ErrorCodeInvalidParams
        ("argument \x27" ++ name ++ "\x27 must be a boolean"))
  else if expectedType = "array" then
    match arg with
    | .slice => none
    | _ => some (NewProtocolError ErrorCodeInvalidParams
        ("argument \x27" ++ name ++ "\x27 must be an array, got " ++ arg.name))
  else
    match arg with
    | .map => some (NewProtocolError ErrorCodeInvalidParams
        ("object arguments are not supported. argument \x27" ++ name ++ "\x27 is an object. "))
    | _ => none

/-- First loop of `ValidateArguments`: the required names, in order. -/
def ValidateArguments.required (args : List (String × Value)) : List String → Option ProtocolError
  | [] => none
  | field :: rest =>
    if (mapGet args field).isSome then ValidateArguments.required args rest
    else some (NewProtocolError ErrorCodeInvalidParams ("missing required argument: " ++ field))

/-- Second loop of `ValidateArguments`: `for argName, arg := range args`, run
over the entries in the order the Go runtime happens to iterate them.
Reading `schema.Type` through a nil `*ToolSchema` panics. -/
def ValidateArguments.range (properties : List (String × Option ToolSchema)) :
    List (String × Value) → GoResult (Option ProtocolError)
  | [] => .ret none
  | (argName, arg) :: rest =>
    match mapGet properties argName with
    | none => .ret (some (NewProtocolError ErrorCodeInvalidParams
        ("unexpected argument: " ++ argName)))
    | some none => .panic
    | some (some schema) =>
      match validateArgumentType argName arg schema.Type_ with
      | some err => .ret (some err)
      | none => ValidateArguments.range properties rest

/-- Method `ToolDefinition.ValidateArguments`; `args` lists the entries of the
argument map in iteration order. -/
def ToolDefinition.ValidateArguments (d : ToolDefinition) (args : List (String × Value)) :
    GoResult (Option ProtocolError) :=
  match ValidateArguments.required args d.InputSchema.Required with
  | some err => .ret (some err)
  | none =>
    match d.InputSchema.Properties with
    | none => .ret none
    | some properties => ValidateArguments.range properties args

structure ToolBuilder where
  definition : ToolDefinition

def NewTool (name : String) : ToolBuilder :=
  { definition :=
      { ToolDefinition.zero with
        Name := name
        InputSchema := ToolSchema.mk "object" "" (some []) [] none } }

def ToolBuilder.Build (b : ToolBuilder) : ToolDefinition := b.definition

/-! ## Go standard library: encoding/base64 and encoding/json -/

def base64Alphabet : List Char :=
  "ABCDEFGHIJKLMNOPQRSTUVWXYZabcdefghijklmnopqrstuvwxyz0123456789+/".toList

def base64Char (n : Nat) : Char := base64Alphabet.getD n 'A'

/-- Function `base64.StdEncoding.EncodeToString`: three bytes give four
characters, the last group is padded with `=`. -/
def base64Encode : List UInt8 → List Char
  | [] => []
  | [a] =>
    let n := a.toNat * 65536
    [base64Char (n / 262144), base64Char (n / 4096 % 64), '=', '=']
  | [a, b] =>
    let n := a.toNat * 65536 + b.toNat * 256
    [base64Char (n / 262144), base64Char (n / 4096 % 64), base64Char (n / 64 % 64), '=']
  | a :: b :: c :: rest =>
    let n := a.toNat * 65536 + b.toNat * 256 + c.toNat
    base64Char (n / 262144) :: base64Char (n / 4096 % 64) :: base64Char (n / 64 % 64)
      :: base64Char (n % 64) :: base64Encode rest

def hexDigit (n : Nat) : Char :=
  if n < 10 then Char.ofNat (48 + n) else Char.ofNat (87 + n)

/-- Escaping of one character inside a JSON string by `encoding/json` with
HTML escaping on, as `json.Marshal` does: quote and backslash get a backslash,
backspace, form feed, newline, carriage return and tab their short escape,
other control characters and `<`, `>`, `&` the form `\u00XX`, and the line and
paragraph separators U+2028 and U+2029 the forms `\u2028` and `\u2029`. -/
def jsonEscape (c : Char) : List Char :=
  if c.toNat = 34 ∨ c.toNat = 92 then [Char.ofNat 92, c]
  else if c.toNat = 8 then [Char.ofNat 92, 'b']
  else if c.toNat = 12 then [Char.ofNat 92, 'f']
  else if c.toNat = 10 then [Char.ofNat 92, 'n']
  else if c.toNat = 13 then [Char.ofNat 92, 'r']
  else if c.toNat = 9 then [Char.ofNat 92, 't']
  else if c.toNat < 32 ∨ c = '<' ∨ c = '>' ∨ c = '&' then
    [Char.ofNat 92, 'u', '0', '0', hexDigit (c.toNat / 16), hexDigit (c.toNat % 16)]
  else if c.toNat = 8232 then [Char.ofNat 92, 'u', '2', '0', '2', '8']
  else if c.toNat = 8233 then [Char.ofNat 92, 'u', '2', '0', '2', '9']
  else [c]

/-- JSON string literal for a Go string. -/
def jsonString (s : String) : List Char :=
  Char.ofNat 34 :: (s.toList.flatMap jsonEscape ++ [Char.ofNat 34])

/-- Insertion of a map entry by key, in the byte order of the keys. -/
def insertField {β : Type} (p : String × β) : List (String × β) → List (String × β)
  | [] => [p]
  | q :: rest => if p.1.toList ≤ q.1.toList then p :: q :: rest else q :: insertField p rest

/-- Map entries sorted by key, the order in which `encoding/json` emits them. -/
def sortFields {β : Type} : List (String × β) → List (String × β)
  | [] => []
  | p :: rest => insertField p (sortFields rest)

/-- Comma-separated concatenation. -/
def joinComma : List (List Char) → List Char
  | [] => []
  | [x] => x
  | x :: y :: rest => x ++ ',' :: joinComma (y :: rest)

/-- The rendered entries of a map in the order given, up to the first one whose
value `encoding/json` refuses: that error, or all the texts. -/
def collectFields :
    List (String × Except String (List Char)) → Except String (List (String × List Char))
  | [] => .ok []
  | (_, .error e) :: _ => .error e
  | (k, .ok t) :: rest =>
    match collectFields rest with
    | .error e => .error e
    | .ok fields => .ok ((k, t) :: fields)

mutual
/-- Function `json.Marshal` on a Go value: the text, or the message of the
error. A NaN or infinite `float64` gives an `UnsupportedValueError` and a
channel, function or complex number an `UnsupportedTypeError`; inside a slice
the first element that fails decides, inside a map the first entry in key
order. The text of a finite `float64` is given by `fmtFloat`, the
shortest-digits formatting of `strconv`, which is not modelled. -/
def jsonMarshal (fmtFloat : ℚ → String) : GoValue → Except String (List Char)
  | .null => .ok "null".toList
  | .bool b => .ok (if b then "true".toList else "false".toList)
  | .number f => .ok (fmtFloat f).toList
  | .nonFinite f => .error ("json: unsupported value: " ++ f.text)
  | .str s => .ok (jsonString s)
  | .array xs =>
    match jsonMarshalList fmtFloat xs with
    | .error e => .error e
    | .ok parts => .ok ('[' :: (joinComma parts ++ [']']))
  | .object kvs =>
    match collectFields (sortFields (jsonMarshalFields fmtFloat kvs)) with
    | .error e => .error e
    | .ok fields =>
      .ok (Char.ofNat 123 ::
        (joinComma (fields.map (fun p => jsonString p.1 ++ ':' :: p.2)) ++ [Char.ofNat 125]))
  | .unsupported goType => .error ("json: unsupported type: " ++ goType)
termination_by structural v => v
/-- Elements of a slice, each rendered, up to the first that fails. -/
def jsonMarshalList (fmtFloat : ℚ → String) : List GoValue → Except String (List (List Char))
  | [] => .ok []
  | x :: rest =>
    match jsonMarshal fmtFloat x with
    | .error e => .error e
    | .ok t =>
      match jsonMarshalList fmtFloat rest with
      | .error e => .error e
      | .ok ts => .ok (t :: ts)
termination_by structural xs => xs
/-- Entries of a map, each value rendered. -/
def jsonMarshalFields (fmtFloat : ℚ → String) :
    List (String × GoValue) → List (String × Except String (List Char))
  | [] => []
  | (k, v) :: rest => (k, jsonMarshal fmtFloat v) :: jsonMarshalFields fmtFloat rest
termination_by structural kvs => kvs
end

/-- Call `json.Marshal(v)` on a `ToolResultStructured`: a nil map gives `null`. -/
def jsonMarshalStructured (fmtFloat : ℚ → String) (v : ToolResultStructured) :
    Except String String :=
  match v with
  | none => .ok "null"
  | some kvs =>
    match jsonMarshal fmtFloat (.object kvs) with
    | .error e => .error e
    | .ok txt => .ok (String.mk txt)

/-! ## Go standard library: json.Unmarshal into an `any` -/

/-- Value of a hexadecimal digit. -/
def hexVal (c : Char) : Option Nat :=
  if '0' ≤ c ∧ c ≤ '9' then some (c.toNat - 48)
  else if 'a' ≤ c ∧ c ≤ 'f' then some (c.toNat - 87)
  else if 'A' ≤ c ∧ c ≤ 'F' then some (c.toNat - 55)
  else none

/-- Code unit written as four hexadecimal digits. -/
def hex4 (a b c d : Char) : Option Nat :=
  match hexVal a, hexVal b, hexVal c, hexVal d with
  | some x, some y, some z, some w => some (x * 4096 + y * 256 + z * 16 + w)
  | _, _, _, _ => none

/-- Character named by a one-letter escape of a JSON string. -/
def unescape (c : Char) : Option Char :=
  if c = Char.ofNat 34 then some (Char.ofNat 34)
  else if c = Char.ofNat 92 then some (Char.ofNat 92)
  else if c = '/' then some '/'
  else if c = 'b' then some (Char.ofNat 8)
  else if c = 'f' then some (Char.ofNat 12)
  else if c = 'n' then some (Char.ofNat 10)
  else if c = 'r' then some (Char.ofNat 13)
  else if c = 't' then some (Char.ofNat 9)
  else none

/-- A JSON string literal after its opening quote: the characters it denotes
and the input after the closing quote. A control character inside the literal
is an error. An escape `\uXXXX` denotes the character with that code; the
escapes of a surrogate pair, which `json.Marshal` never writes, are not
modelled and give no result. -/
def parseStringBody : List Char → Option (List Char × List Char)
  | [] => none
  | c :: rest =>
    if c = Char.ofNat 34 then some ([], rest)
    else if c = Char.ofNat 92 then
      match rest with
      | [] => none
      | e :: rest1 =>
        if e = 'u' then
          match rest1 with
          | a :: b :: c1 :: d :: rest2 =>
            match hex4 a b c1 d with
            | none => none
            | some n =>
              if 55296 ≤ n ∧ n ≤ 57343 then none
              else
                match parseStringBody rest2 with
                | none => none
                | some (s, r) => some (Char.ofNat n :: s, r)
          | _ => none
        else
          match unescape e with
          | none => none
          | some ch =>
            match parseStringBody rest1 with
            | none => none
            | some (s, r) => some (ch :: s, r)
    else if c.toNat < 32 then none
    else
      match parseStringBody rest with
      | none => none
      | some (s, r) => some (c :: s, r)

/-- Characters that can occur in a JSON number literal. -/
def isNumberChar (c : Char) : Bool :=
  c.isDigit || c = '-' || c = '+' || c = '.' || c = 'e' || c = 'E'

/-- A JSON number literal at the head of the input: the longest run of number
characters, whose value `parseFloat` gives. `parseFloat` stands for the number
grammar of the decoder followed by `strconv.ParseFloat`, which are not
modelled; it gives no result for a text that is not a number. -/
def parseNumber (parseFloat : List Char → Option ℚ) (input : List Char) :
    Option (ℚ × List Char) :=
  match parseFloat (input.takeWhile isNumberChar) with
  | none => none
  | some f => some (f, input.dropWhile isNumberChar)

/-- Map built by the decoder from the members of an object in the order of the
text: each member is stored with `m[key] = value`. -/
def fromEntries (kvs : List (String × GoValue)) : List (String × GoValue) :=
  kvs.foldl (fun m p => mapSet m p.1 p.2) []

/-- The value `v` when the input starts with the characters of `word`, and
the input after them. -/
def parseWord (word : List Char) (v : GoValue) (input : List Char) :
    Option (GoValue × List Char) :=
  if word.isPrefixOf input then some (v, input.drop word.length) else none

mutual
/-- Decoder of `encoding/json` for a target of type `any`, on a text without
insignificant white space (the form that `json.Marshal` writes): the value at
the head of the input and the rest of the input. The first argument bounds the
number of nested calls; a text of `n` characters needs at most `n`. -/
def parseValue (parseFloat : List Char → Option ℚ) :
    Nat → List Char → Option (GoValue × List Char)
  | 0, _ => none
  | fuel + 1, input =>
    match input with
    | [] => none
    | c :: rest =>
      if c = 'n' then parseWord ['u', 'l', 'l'] .null rest
      else if c = 't' then parseWord ['r', 'u', 'e'] (.bool true) rest
      else if c = 'f' then parseWord ['a', 'l', 's', 'e'] (.bool false) rest
      else if c = Char.ofNat 34 then
        (parseStringBody rest).map (fun p => (GoValue.str (String.mk p.1), p.2))
      else if c = '[' then
        if rest.head? = some ']' then some (.array [], rest.tail)
        else (parseElements parseFloat fuel rest).map (fun p => (GoValue.array p.1, p.2))
      else if c = Char.ofNat 123 then
        if rest.head? = some (Char.ofNat 125) then some (.object [], rest.tail)
        else
          (parseMembers parseFloat fuel rest).map
            (fun p => (GoValue.object (fromEntries p.1), p.2))
      else if c = '-' ∨ c.isDigit = true then
        (parseNumber parseFloat input).map (fun p => (GoValue.number p.1, p.2))
      else none
/-- Elements of an array after the opening bracket, up to the closing one. -/
def parseElements (parseFloat : List Char → Option ℚ) :
    Nat → List Char → Option (List GoValue × List Char)
  | 0, _ => none
  | fuel + 1, input =>
    match parseValue parseFloat fuel input with
    | none => none
    | some (v, rest) =>
      if rest.head? = some ',' then
        (parseElements parseFloat fuel rest.tail).map (fun p => (v :: p.1, p.2))
      else if rest.head? = some ']' then some ([v], rest.tail)
      else none
/-- Members of an object after the opening brace, up to the closing one. -/
def parseMembers (parseFloat : List Char → Option ℚ) :
    Nat → List Char → Option (List (String × GoValue) × List Char)
  | 0, _ => none
  | fuel + 1, input =>
    if input.head? = some (Char.ofNat 34) then
      match parseStringBody input.tail with
      | none => none
      | some (k, rest) =>
        if rest.head? = some ':' then
          match parseValue parseFloat fuel rest.tail with
          | none => none
          | some (v, rest1) =>
            if rest1.head? = some ',' then
              (parseMembers parseFloat fuel rest1.tail).map
                (fun p => ((String.mk k, v) :: p.1, p.2))
            else if rest1.head? = some (Char.ofNat 125) then
              some ([(String.mk k, v)], rest1.tail)
            else none
        else none
    else none
end

/-- Call `json.Unmarshal(text, &v)` with `v` of type `any`: the value, when the
whole text is one JSON value. -/
def jsonUnmarshal (parseFloat : List Char → Option ℚ) (text : List Char) : Option GoValue :=
  match parseValue parseFloat text.length text with
  | some (v, []) => some v
  | _ => none

/-! ## Package tools: results and the tool handler -/

def NewToolResultText (text : String) : ToolResultText := { Type_ := "text", Text := text }

def NewToolResultImage (b : List UInt8) (mimeType : String) : ToolResultMedia :=
  { Type_ := "image", Data := String.mk (base64Encode b), MimeType := mimeType }

def NewToolResultAudio (b : List UInt8) (mimeType : String) : ToolResultMedia :=
  { Type_ := "audio", Data := String.mk (base64Encode b), MimeType := mimeType }

def NewToolResultResourceLink (uri name description mimeType : String) : ResourceLink :=
  NewResourceLink uri name description mimeType

def NewToolResultEmbeddedTextResource (uri name description mimeType text : String) :
    ToolResultEmbeddedResource ResourceText :=
  { Type_ := ResourceItemType, Resource := NewResourceText uri name "" description mimeType text }

def NewToolResultEmbeddedBinaryResource (uri name description mimeType : String)
    (b : List UInt8) : ToolResultEmbeddedResource ResourceBinary :=
  { Type_ := ResourceItemType, Resource := NewResourceBinary uri name "" description mimeType b }

/-- Zero value of `toolResultUnionItem`: every pointer nil. -/
def toolResultUnionItem.zero : toolResultUnionItem :=
  { text := none, media := none, embeddedTextResource := none,
    embeddedBinaryResource := none, resourceLink := none }

def NewToolResultUnion : ToolResultUnion := { items := [] }

def ToolResultUnion.AddText (u : ToolResultUnion) (text : String) : ToolResultUnion :=
  { items := u.items ++ [{ toolResultUnionItem.zero with text := some (NewToolResultText text) }] }

def ToolResultUnion.AddImage (u : ToolResultUnion) (b : List UInt8) (mimeType : String) :
    ToolResultUnion :=
  { items := u.items ++
      [{ toolResultUnionItem.zero with media := some (NewToolResultImage b mimeType) }] }

def ToolResultUnion.AddAudio (u : ToolResultUnion) (b : List UInt8) (mimeType : String) :
    ToolResultUnion :=
  { items := u.items ++
      [{ toolResultUnionItem.zero with media := some (NewToolResultAudio b mimeType) }] }

def ToolResultUnion.AddEmbeddedTextResource (u : ToolResultUnion)
    (uri name description mimeType text : String) : ToolResultUnion :=
  { items := u.items ++
      [{ toolResultUnionItem.zero with
         embeddedTextResource :=
           some (NewToolResultEmbeddedTextResource uri name description mimeType text) }] }

def ToolResultUnion.AddEmbeddedBinaryResource (u : ToolResultUnion)
    (uri name description mimeType : String) (b : List UInt8) : ToolResultUnion :=
  { items := u.items ++
      [{ toolResultUnionItem.zero with
         embeddedBinaryResource :=
           some (NewToolResultEmbeddedBinaryResource uri name description mimeType b) }] }

def ToolResultUnion.AddResourceLink (u : ToolResultUnion)
    (uri name description mimeType : String) : ToolResultUnion :=
  { items := u.items ++
      [{ toolResultUnionItem.zero with
         resourceLink := some (NewResourceLink uri name description mimeType) }] }

/-- Body of the loop of `toArray` for one item: the first non-nil pointer,
dereferenced; the slot stays nil when every pointer is nil. -/
def toolResultUnionItem.toAny (item : toolResultUnionItem) : ContentItem :=
  match item.text with
  | some v => .text v
  | none =>
    match item.media with
    | some v => .media v
    | none =>
      match item.embeddedTextResource with
      | some v => .embeddedText v
      | none =>
        match item.embeddedBinaryResource with
        | some v => .embeddedBinary v
        | none =>
          match item.resourceLink with
          | some v => .resourceLink v
          | none => .null

def ToolResultUnion.toArray (u : ToolResultUnion) : List ContentItem :=
  u.items.map toolResultUnionItem.toAny

/-- Verb `%T` of `fmt` on the member types of `ToolResult` that `writeResult`
reports. -/
def fmtTypeEmbedded (binary : Bool) : String :=
  "[]tools.ToolResultEmbeddedResource[github.com/makarski/mcp-robot/resources."
    ++ (if binary then "ResourceBinary]" else "ResourceText]")

/-- Lines 239 to 248 of `writeResult`: the result map, written as an envelope. -/
def writeResult.complete (rw : ResponseWriter) (resultArray : List ContentItem)
    (structuredResult : Option ToolResultStructured) : Response :=
  let completeResult : List (String × ResultValue) :=
    [("content", .content resultArray), ("isError", .json (.bool false))]
  let completeResult :=
    match structuredResult with
    | some v => mapSet completeResult "structuredContent" (.structured v)
    | none => completeResult
  rw.WriteResult (some completeResult)

/-- Function `writeResult`: the envelope it writes, or the text of the error
it returns. -/
def writeResult (fmtFloat : ℚ → String) (rw : ResponseWriter) (result : AnyResult) :
    Except String Response :=
  match result with
  | .tool (.structured v) =>
    match jsonMarshalStructured fmtFloat v with
    | .error err => .error ("failed to marshal structured tool result: " ++ err)
    | .ok txt => .ok (writeResult.complete rw [.text (NewToolResultText txt)] (some v))
  | .anySlice v => .ok (writeResult.complete rw v none)
  | .tool (.media v) => .ok (writeResult.complete rw [.media v] none)
  | .tool (.text v) => .ok (writeResult.complete rw [.text v] none)
  | .tool (.resourceLink v) => .ok (writeResult.complete rw [.resourceLink v] none)
  | .tool (.embeddedBinary v) => .ok (writeResult.complete rw [.embeddedBinary v] none)
  | .tool (.embeddedText v) => .ok (writeResult.complete rw [.embeddedText v] none)
  | .tool (.medias v) => .ok (writeResult.complete rw (v.map .media) none)
  | .tool (.texts v) => .ok (writeResult.complete rw (v.map .text) none)
  | .tool (.union v) => .ok (writeResult.complete rw v.toArray none)
  | .tool (.embeddedTexts _) =>
    .error ("invalid tool result type: " ++ fmtTypeEmbedded false)
  | .tool (.embeddedBinaries _) =>
    .error ("invalid tool result type: " ++ fmtTypeEmbedded true)
  | .other typeName => .error ("invalid tool result type: " ++ typeName)

/-- Function `writeError` of package tools: a success envelope that carries
the message as one text item and `isError: true`. -/
def writeError (rw : ResponseWriter) (message : String) : Response :=
  rw.WriteResult
    (some [("content", .content [.text (NewToolResultText message)]),
           ("isError", .json (.bool true))])

/-- Loop `for name, spec := range schema.Properties` of `validateOutput`, over
the entries in iteration order. -/
def validateOutput.range (v : List (String × GoValue)) :
    List (String × Option ToolSchema) → GoResult (Option ProtocolError)
  | [] => .ret none
  | (name, spec) :: rest =>
    match mapGet v name with
    | none => validateOutput.range v rest
    | some val =>
      match spec with
      | none => .panic
      | some sp =>
        match validateArgumentType name val sp.Type_ with
        | some err => .ret (some err)
        | none => validateOutput.range v rest

def validateOutput (definition : ToolDefinition) (result : ToolResult) :
    GoResult (Option ProtocolError) :=
  let schema := definition.OutputSchema
  if schema.Type_ = "" then .ret none
  else
    match result with
    | .structured v =>
      let entries := v.getD []
      let properties := schema.Properties.getD []
      if schema.Required.length = 0 ∧ properties.length = 0 then .ret none
      else
        let missingFields := schema.Required.filter (fun f => (mapGet entries f).isNone)
        if missingFields.length > 0 then
          .ret (some (NewProtocolError ErrorCodeInvalidParams
            ("missing required output fields: " ++ String.intercalate "," missingFields)))
        else validateOutput.range entries properties
    | _ => .ret none

/-- Format `"failed to write response for reqID: %v: %s"` of `MCPHandler`. -/
def errfmt (id : Int) (err : String) : String :=
  "failed to write response for reqID: " ++ fmtInt id ++ ": " ++ err

/-- Method `ToolFunc.MCPHandler`: the handler bound to a definition. -/
def ToolFunc.MCPHandler (fmtFloat : ℚ → String) (f : ToolFunc) (definition : ToolDefinition) :
    MCPHandler := fun req =>
  let rw := NewResponseWriter req.ID
  let args : List (String × Value) :=
    match mapGet req.Params "arguments" with
    | some (.object m) => m
    | _ => []
  match f args with
  | (_, some (.protocol e)) => .ret [rw.WriteError e.Code e.Message]
  | (_, some (.other text)) => .ret [writeError rw (errfmt req.ID text)]
  | (result, none) =>
    match validateOutput definition result with
    | .panic => .panic
    | .ret (some err) => .ret [writeError rw (errfmt req.ID err.Message)]
    | .ret none =>
      match writeResult fmtFloat rw (.tool result) with
      | .error err => .ret [writeError rw (errfmt req.ID err)]
      | .ok response => .ret [response]

/-- A `ToolFunc` as a `tools.ToolHandler`. -/
def ToolFunc.toHandler (fmtFloat : ℚ → String) (f : ToolFunc) : ToolHandler :=
  { MCPHandler := ToolFunc.MCPHandler fmtFloat f }

/-! ## Package server: handlers and dispatch -/

def server.okEmptyResponse (_s : server) (rpcReq : Request) : Served :=
  .ret [{ Jsonrpc := JsonRPC, ID := rpcReq.ID, Result := some [], Error := none }]

def server.capabilities (s : server) : List (String × CapabilityParam) :=
  if mapLen s.tools > 0 then
    mapSet [] "tools" { Subscribe := false, ListChanged := true }
  else []

def server.initializeHandler (s : server) (rpcReq : Request) : Served :=
  let capabilities := s.capabilities
  .ret [{ Jsonrpc := JsonRPC, ID := rpcReq.ID,
          Result := some [("protocolVersion", .json (.str ProtocolVersion)),
                          ("capabilities", .capabilities capabilities),
                          ("serverInfo", .info s.info)],
          Error := none }]

/-- Expression `s.tools[tool].toolDefinition`: the zero definition when the key
is absent. -/
def server.definitionOf (s : server) (tool : String) : ToolDefinition :=
  match mapGet s.tools tool with
  | some t => t.toolDefinition
  | none => ToolDefinition.zero

/-- Lines 134 to 170 of `listToolsHandler`: the page computation, once the
cursor has given `startPage`. -/
def server.listToolsPage (s : server) (rw : ResponseWriter) (startPage : Int) : Served :=
  let end0 := mapLen s.tools
  let paged : Int × Int × Int :=
    if s.toolsPerPage > 0 then
      let offset := wrapInt (startPage * s.toolsPerPage)
      if wrapInt (offset + s.toolsPerPage) < end0 then
        (offset, wrapInt (offset + s.toolsPerPage), wrapInt (startPage + 1))
      else (offset, end0, 0)
    else (0, end0, 0)
  let offset := paged.1
  let end_ := paged.2.1
  let nextPage := paged.2.2
  if offset ≥ (s.toolNames.length : Int) then
    .ret [rw.WriteError ErrorCodeInvalidParams
      ("invalid \x27cursor\x27 parameter: " ++ fmtInt startPage ++ " is out of range")]
  else
    match goSlice s.toolNames offset end_ with
    | .panic => .panic
    | .ret names =>
      let toolsList := names.map s.definitionOf
      let listResult : List (String × ResultValue) := [("tools", .tools toolsList)]
      let listResult :=
        if nextPage > 0 then mapSet listResult "nextCursor" (.json (.str (fmtInt nextPage)))
        else listResult
      .ret [rw.WriteResult (some listResult)]

def server.listToolsHandler (s : server) (rpcReq : Request) : Served :=
  let rw := NewResponseWriter rpcReq.ID
  if s.toolNames.length = 0 then
    .ret [rw.WriteResult (some [("tools", .tools [])])]
  else
    match mapGet rpcReq.Params "cursor" with
    | none => s.listToolsPage rw 0
    | some cursor =>
      match cursor with
      | .str cursorStr =>
        match Atoi cursorStr with
        | none => .ret [rw.WriteError ErrorCodeInvalidParams
            ("cant convert \x27cursor\x27 parameter to int: " ++ cursorStr)]
        | some cursorInt => s.listToolsPage rw cursorInt
      | _ => .ret [rw.WriteError ErrorCodeInvalidParams
          ("invalid \x27cursor\x27 parameter type: expected int or string, got "
            ++ fmtType cursor)]

def server.resolveHandler (s : server) (rpcReq : Request) :
    GoResult (Except ProtocolError MCPHandler) :=
  if rpcReq.Method = MethodNotificationsInitialized ∨ rpcReq.Method = MethodPing then
    .ret (.ok s.okEmptyResponse)
  else if rpcReq.Method = MethodInitialize then
    .ret (.ok s.initializeHandler)
  else if rpcReq.Method = MethodToolsList then
    .ret (.ok s.listToolsHandler)
  else if rpcReq.Method = MethodToolsCall then
    match mapGet rpcReq.Params "name" with
    | none => .ret (.error (NewProtocolError ErrorCodeInvalidParams
        "missing or invalid \x27name\x27 parameter"))
    | some toolName =>
      match toolName with
      | .str toolNameStr =>
        match mapGet s.tools toolNameStr with
        | none => .ret (.error (NewProtocolError ErrorCodeInvalidParams
            ("tool not found: " ++ toolNameStr)))
        | some tool =>
          match mapGet rpcReq.Params "arguments" with
          | none =>
            if tool.toolDefinition.InputSchema.Required.length > 0 then
              .ret (.error (NewProtocolError ErrorCodeInvalidParams
                ("missing required \x27arguments\x27 parameter for tool: " ++ toolNameStr)))
            else .ret (.ok tool.handler)
          | some args =>
            match args with
            | .object argsMap =>
              match tool.toolDefinition.ValidateArguments argsMap with
              | .panic => .panic
              | .ret (some err) => .ret (.error err)
              | .ret none => .ret (.ok tool.handler)
            | _ => .ret (.error (NewProtocolError ErrorCodeInvalidParams
                ("invalid \x27arguments\x27 parameter type: expected object, got "
                  ++ fmtType args)))
      | _ => .ret (.error (NewProtocolError ErrorCodeInvalidParams
          ("invalid \x27name\x27 parameter type: expected string, got " ++ fmtType toolName)))
  else
    .ret (.error (NewProtocolError ErrorCodeMethodNotFound
      ("method not found: " ++ rpcReq.Method)))

/-- Body of the loop of `StdioServer.ListenAndServe` for one decoded request:
resolve the handler and run it, or write the resolution error. -/
def server.serve (s : server) (rpcReq : Request) : Served :=
  let rw := NewResponseWriter rpcReq.ID
  match s.resolveHandler rpcReq with
  | .panic => .panic
  | .ret (.error pe) =>
    .ret [rw.WriteError pe.Code ("Failed to resolve handler: " ++ pe.Message)]
  | .ret (.ok handler) => handler rpcReq

/-! ## Package tools: the schema builder -/

/-- Method `SchemaBuilder.initSchema`, as its effect on the schema that the
builder points to. -/
def SchemaBuilder.initSchema (sc : ToolSchema) : ToolSchema :=
  match sc.Properties with
  | none => ToolSchema.mk "object" sc.Description (some []) [] sc.ArrayItems
  | some _ => sc

/-- Method `SchemaBuilder.withPropertyType`, as its effect on the schema that
the builder points to. Storing into a nil properties map panics. -/
def SchemaBuilder.withPropertyType (sc : ToolSchema) (name description propertyType : String)
    (required : Bool) : GoResult ToolSchema :=
  match sc.Properties with
  | none => .panic
  | some props =>
    .ret (ToolSchema.mk sc.Type_ sc.Description
      (some (mapSet props name (some (ToolSchema.mk propertyType description none [] none))))
      (if required then sc.Required ++ [name] else sc.Required) sc.ArrayItems)

def SchemaBuilder.WithString (sc : ToolSchema) (name description : String) (required : Bool) :
    GoResult ToolSchema :=
  SchemaBuilder.withPropertyType sc name description "string" required

def SchemaBuilder.WithNumber (sc : ToolSchema) (name description : String) (required : Bool) :
    GoResult ToolSchema :=
  SchemaBuilder.withPropertyType sc name description "number" required

def SchemaBuilder.WithBoolean (sc : ToolSchema) (name description : String) (required : Bool) :
    GoResult ToolSchema :=
  SchemaBuilder.withPropertyType sc name description "boolean" required

/-- Method `SchemaBuilder.WithArray`, as its effect on the schema of the
builder: the name joins `Required` when `required` is set. -/
def SchemaBuilder.WithArray (sc : ToolSchema) (name : String) (required : Bool) : ToolSchema :=
  ToolSchema.mk sc.Type_ sc.Description sc.Properties
    (if required then sc.Required ++ [name] else sc.Required) sc.ArrayItems

/-- Node `innerArrayItem` made by `ArrayBuilder.Of`, on which the builder it
returns works. -/
def ArrayBuilder.innerArrayItem (propertyType description : String) : ToolSchema :=
  ToolSchema.mk propertyType description (some []) [] none

/-- Method `ArrayBuilder.Of`, as its effect on the schema of the parent
builder: the property `name` becomes the array node `itemsNode`, which points to
the item node. `item` is the item node as the calls on the nested builder leave
it. Storing into a nil properties map panics. -/
def ArrayBuilder.Of (parent : ToolSchema) (name description : String) (item : ToolSchema) :
    GoResult ToolSchema :=
  match parent.Properties with
  | none => .panic
  | some props =>
    .ret (ToolSchema.mk parent.Type_ parent.Description
      (some (mapSet props name (some (ToolSchema.mk "array" description none [] (some item)))))
      parent.Required parent.ArrayItems)

/-- Method `SchemaBuilder.WithObject`, as its effect on the schema of the
builder. -/
def SchemaBuilder.WithObject (sc : ToolSchema) (name : String) (required : Bool) : ToolSchema :=
  ToolSchema.mk sc.Type_ sc.Description sc.Properties
    (if required then sc.Required ++ [name] else sc.Required) sc.ArrayItems

/-- Node `nestedSchemaField` made by `ObjectBuilder.Props`. -/
def ObjectBuilder.nestedSchemaField (description : String) : ToolSchema :=
  ToolSchema.mk "object" description (some []) [] none

/-- Method `ObjectBuilder.Props`, as its effect on the schema of the parent
builder; `nested` is the nested node as the calls on the nested builder leave
it. -/
def ObjectBuilder.Props (parent : ToolSchema) (name : String) (nested : ToolSchema) :
    GoResult ToolSchema :=
  match parent.Properties with
  | none => .panic
  | some props =>
    .ret (ToolSchema.mk parent.Type_ parent.Description
      (some (mapSet props name (some nested))) parent.Required parent.ArrayItems)

/-- One link of a chain of calls on a `SchemaBuilder`. `WithArray` is followed
by `Of` and `WithObject` by `Props`, the only methods of the builders they
return; the links after such a pair are calls on the nested builder. -/
inductive SchemaCall where
  | withString (name description : String) (required : Bool)
  | withNumber (name description : String) (required : Bool)
  | withBoolean (name description : String) (required : Bool)
  | withArrayOf (name description : String) (required : Bool)
      (propertyType itemDescription : String)
  | withObjectProps (name description : String) (required : Bool)

/-- A chain of calls on a `SchemaBuilder`, up to `Done`, as its effect on the
schema the builder points to. -/
def SchemaBuilder.run : List SchemaCall → ToolSchema → GoResult ToolSchema
  | [], sc => .ret sc
  | .withString n d r :: rest, sc =>
    match SchemaBuilder.WithString sc n d r with
    | .panic => .panic
    | .ret sc1 => SchemaBuilder.run rest sc1
  | .withNumber n d r :: rest, sc =>
    match SchemaBuilder.WithNumber sc n d r with
    | .panic => .panic
    | .ret sc1 => SchemaBuilder.run rest sc1
  | .withBoolean n d r :: rest, sc =>
    match SchemaBuilder.WithBoolean sc n d r with
    | .panic => .panic
    | .ret sc1 => SchemaBuilder.run rest sc1
  | .withArrayOf n d r t d' :: rest, sc =>
    match SchemaBuilder.run rest (ArrayBuilder.innerArrayItem t d') with
    | .panic => .panic
    | .ret item => ArrayBuilder.Of (SchemaBuilder.WithArray sc n r) n d item
  | .withObjectProps n d r :: rest, sc =>
    match SchemaBuilder.run rest (ObjectBuilder.nestedSchemaField d) with
    | .panic => .panic
    | .ret nested => ObjectBuilder.Props (SchemaBuilder.WithObject sc n r) n nested

/-- One link of a chain of calls on a `ToolBuilder`: a setter, or `Input()` or
`Output()` with the chain on the schema builder up to `Done()`. -/
inductive ToolCall where
  | description (description : String)
  | title (title : String)
  | markReadOnly (b : Bool)
  | markAsDestructive (b : Bool)
  | markAsIdempotent (b : Bool)
  | markAsCallingOpenWorld (b : Bool)
  | input (calls : List SchemaCall)
  | output (calls : List SchemaCall)

/-- The link on a builder. -/
def ToolCall.apply (b : ToolBuilder) : ToolCall → GoResult ToolBuilder
  | .description d => .ret { definition := { b.definition with Description := d } }
  | .title t =>
    .ret { definition :=
      { b.definition with Annotations := { b.definition.Annotations with Title := t } } }
  | .markReadOnly v =>
    .ret { definition :=
      { b.definition with Annotations := { b.definition.Annotations with ReadOnlyHint := some v } } }
  | .markAsDestructive v =>
    .ret { definition :=
      { b.definition with
        Annotations := { b.definition.Annotations with DestructiveHint := some v } } }
  | .markAsIdempotent v =>
    .ret { definition :=
      { b.definition with
        Annotations := { b.definition.Annotations with IdempotentHint := some v } } }
  | .markAsCallingOpenWorld v =>
    .ret { definition :=
      { b.definition with
        Annotations := { b.definition.Annotations with OpenWorldHint := some v } } }
  | .input calls =>
    match SchemaBuilder.run calls (SchemaBuilder.initSchema b.definition.InputSchema) with
    | .panic => .panic
    | .ret sc => .ret { definition := { b.definition with InputSchema := sc } }
  | .output calls =>
    match SchemaBuilder.run calls (SchemaBuilder.initSchema b.definition.OutputSchema) with
    | .panic => .panic
    | .ret sc => .ret { definition := { b.definition with OutputSchema := sc } }

/-- The links of a chain on a builder, in order. -/
def ToolBuilder.run : List ToolCall → ToolBuilder → GoResult ToolBuilder
  | [], b => .ret b
  | c :: rest, b =>
    match ToolCall.apply b c with
    | .panic => .panic
    | .ret b1 => ToolBuilder.run rest b1

/-- Chain `NewTool(name)` ... `Build()`. -/
def buildTool (name : String) (calls : List ToolCall) : GoResult ToolDefinition :=
  match ToolBuilder.run calls (NewTool name) with
  | .panic => .panic
  | .ret b => .ret b.Build

/-! ## Go standard library: json.Decoder on a stream -/

/-- One document of the input stream, by what `Decoder.Decode` makes of it. -/
inductive Document where
  /-- A JSON value that decodes into a `Request`. -/
  | request (rpcReq : Request)
  /-- A complete JSON value that does not fit the `Request` struct: `Decode`
  returns an `UnmarshalTypeError` with this text, and goes on with the stream. -/
  | mismatch (err : String)
  /-- Text that is not JSON: `Decode` returns a `SyntaxError` with this text
  and stores it in the decoder, so that every later call returns it again. -/
  | malformed (err : String)

/-- State of a `json.Decoder`: the stored error (`dec.err`) and the documents
not yet read. -/
structure Decoder where
  err : Option String
  input : List Document

/-- Call `json.NewDecoder(os.Stdin)`. -/
def NewDecoder (input : List Document) : Decoder := { err := none, input := input }

/-- Method `Decoder.Decode`: the request or the text of the error, and the
decoder afterwards. A stored error is returned at once; the end of the stream
is the error `EOF`, which is stored as well. -/
def Decoder.Decode (dec : Decoder) : Except String Request × Decoder :=
  match dec.err with
  | some e => (.error e, dec)
  | none =>
    match dec.input with
    | [] => (.error "EOF", { dec with err := some "EOF" })
    | .request rpcReq :: rest => (.ok rpcReq, { dec with input := rest })
    | .mismatch e :: rest => (.error e, { dec with input := rest })
    | .malformed e :: rest => (.error e, { err := some e, input := rest })

/-! ## Package server: the stream transport -/

/-- Where a run of `ListenAndServe` stands. -/
inductive LoopStatus where
  /-- Still in the loop. -/
  | running
  /-- Returned `nil`. -/
  | returned
  /-- Ended by a panic. -/
  | panicked
  deriving DecidableEq, Repr

/-- What a run of `ListenAndServe` has written, and where it stands. -/
structure Run where
  written : List Response
  status : LoopStatus

/-- Method `StdioServer.ListenAndServe`, run for at most `fuel` iterations of
its loop. -/
def StdioServer.ListenAndServe (s : server) : Nat → Decoder → Run
  | 0, _ => { written := [], status := .running }
  | fuel + 1, decoder =>
    match decoder.Decode with
    | (.error err, decoder) =>
      if err = "EOF" then { written := [], status := .returned }
      else
        let rw := NewResponseWriter 0
        let rest := StdioServer.ListenAndServe s fuel decoder
        { rest with
          written := rw.WriteError ErrorCodeParseError ("Failed to decode request: " ++ err)
            :: rest.written }
    | (.ok rpcReq, decoder) =>
      match s.serve rpcReq with
      | .panic => { written := [], status := .panicked }
      | .ret written =>
        let rest := StdioServer.ListenAndServe s fuel decoder
        { rest with written := written ++ rest.written }

/-! ## Package mcprobot: the root package and its HTTP transport

The file `http.go` belongs to the root package `mcprobot`, which has its own
`server`, its own dispatcher `resolveHandler` and its own tool definitions
(files `server.go` and `tools.go` at the root of the sources). The request
type, the protocol error, the error codes and the method names of the root
package (files `mcp.go` and `error.go`) have the fields and values of those of
package spec and are shared with it here; the root package has no method name
for `ping`. -/

namespace mcprobot

/-- Type `ToolDefinition` of the root package; `InputSchema` is a
`map[string]any` and `Annotations` a pointer. The values inside `InputSchema`
are of the types that `encoding/json` produces, which are the types the builder
of the root package stores there (strings and maps). -/
structure ToolDefinition where
  Name : String
  Description : String
  InputSchema : List (String × Value)
  Required : List String
  Annotations : Option ToolAnnotations

/-- Function `validateArgumentType` of the root package; as in package tools,
the model takes the dynamic type of `arg`. -/
def validateArgumentType (name : String) (arg : DynType) (expectedType : String) :
    Option ProtocolError :=
  if expectedType = "string" then
    match arg with
    | .string => none
    | _ => some (NewProtocolError ErrorCodeInvalidParams
        ("argument \x27" ++ name ++ "\x27 must be a string"))
  else if expectedType = "number" then
    match arg with
    | .float64 => none
    | _ => some (NewProtocolError ErrorCodeInvalidParams
        ("argument \x27" ++ name ++ "\x27 must be a number"))
  else if expectedType = "boolean" then
    match arg with
    | .bool => none
    | _ => some (NewProtocolError ErrorCodeInvalidParams
        ("argument \x27" ++ name ++ "\x27 must be a boolean"))
  else if expectedType = "array" then
    match arg with
    | .slice => none
    | _ => some (NewProtocolError ErrorCodeInvalidParams
        ("argument \x27" ++ name ++ "\x27 must be an array"))
  else
    match arg with
    | .map => some (NewProtocolError ErrorCodeInvalidParams
        ("object arguments are not supported. argument \x27" ++ name ++ "\x27 is an object. "))
    | _ => none

/-- First loop of `validateArguments`: the required names, in order. -/
def validateArguments.required (args : List (String × Value)) :
    List String → Option ProtocolError
  | [] => none
  | field :: rest =>
    if (mapGet args field).isSome then validateArguments.required args rest
    else some (NewProtocolError ErrorCodeInvalidParams ("missing required argument: " ++ field))

/-- Second loop of `validateArguments`, over the entries of the arguments in
iteration order. -/
def validateArguments.range (schemaProps : List (String × Value)) :
    List (String × Value) → Option ProtocolError
  | [] => none
  | (argName, arg) :: rest =>
    match mapGet schemaProps argName with
    | none => some (NewProtocolError ErrorCodeInvalidParams ("unexpected argument: " ++ argName))
    | some schema =>
      match schema with
      | .object schemaMap =>
        match mapGet schemaMap "type" with
        | some (.str expectedType) =>
          match validateArgumentType argName arg expectedType with
          | some err => some err
          | none => validateArguments.range schemaProps rest
        | some other =>
          some (NewProtocolError ErrorCodeInvalidParams
            ("invalid schema for argument: " ++ argName ++ ". " ++ fmtType other))
        | none =>
          some (NewProtocolError ErrorCodeInvalidParams
            ("invalid schema for argument: " ++ argName ++ ". " ++ fmtType .null))
      | _ =>
        some (NewProtocolError ErrorCodeInvalidParams
          ("invalid schema for argument: " ++ argName ++ ". " ++ fmtType schema))

/-- Method `ToolDefinition.validateArguments` of the root package. -/
def ToolDefinition.validateArguments (d : ToolDefinition) (args : List (String × Value)) :
    Option ProtocolError :=
  match validateArguments.required args d.Required with
  | some err => some err
  | none =>
    match mapGet d.InputSchema "properties" with
    | some (.object schemaProps) => validateArguments.range schemaProps args
    | _ => none

/-- Value stored under a key of a result map by the handlers of the root
package. -/
inductive ResultValue where
  | str (s : String)
  | capabilities (m : List (String × CapabilityParam))
  | info (i : Info)
  | tools (ds : List ToolDefinition)

/-- Envelope `Response[int]` of the root package; its `result` field is
written also when the map is nil. -/
structure Response where
  Jsonrpc : String
  ID : Int
  Result : Option (List (String × ResultValue))
  ServerInfo : Option Info
  Instructions : String
  Error : Option Error

/-- One write to the `RPCResponseWriter` of a handler: an envelope as
`json.NewEncoder(w).Encode` writes it, or other bytes. -/
inductive Written where
  | envelope (r : Response)
  | bytes (b : String)

/-- Interface `MCPHandler` of the root package: what `ServeRPC` writes for a
request, in order, unless it panics. -/
abbrev MCPHandler := Request → GoResult (List Written)

structure serverTool where
  handler : MCPHandler
  toolDefinition : ToolDefinition

structure server where
  tools : List (String × serverTool)
  info : Info

def newServer (name version : String) : server :=
  { tools := [], info := { Name := name, Version := version } }

def server.WithTool (s : server) (definition : ToolDefinition) (handler : MCPHandler) : server :=
  { s with tools := mapSet s.tools definition.Name ⟨handler, definition⟩ }

def server.capabilities (s : server) : List (String × CapabilityParam) :=
  if mapLen s.tools > 0 then
    mapSet [] "tools" { Subscribe := false, ListChanged := true }
  else []

def server.initializeHandler (s : server) : MCPHandler := fun rpcReq =>
  let capabilities := s.capabilities
  .ret [.envelope
    { Jsonrpc := JsonRPC, ID := rpcReq.ID,
      Result := some [("protocolVersion", .str ProtocolVersion),
                      ("capabilities", .capabilities capabilities),
                      ("serverInfo", .info s.info)],
      ServerInfo := none, Instructions := "", Error := none }]

/-- Method `listToolsHandler` of the root package: the definitions in the
iteration order of the map. -/
def server.listToolsHandler (s : server) : MCPHandler := fun rpcReq =>
  let toolsList := s.tools.map (fun p => p.2.toolDefinition)
  .ret [.envelope
    { Jsonrpc := JsonRPC, ID := rpcReq.ID,
      Result := some [("tools", .tools toolsList)],
      ServerInfo := none, Instructions := "", Error := none }]

/-- Method `resolveHandler` of the root package. -/
def server.resolveHandler (s : server) (rpcReq : Request) : Except ProtocolError MCPHandler :=
  if rpcReq.Method = MethodInitialize then .ok s.initializeHandler
  else if rpcReq.Method = MethodToolsList then .ok s.listToolsHandler
  else if rpcReq.Method = MethodToolsCall then
    match mapGet rpcReq.Params "name" with
    | none => .error (NewProtocolError ErrorCodeInvalidParams
        "missing or invalid \x27name\x27 parameter")
    | some toolName =>
      match toolName with
      | .str toolNameStr =>
        match mapGet s.tools toolNameStr with
        | none => .error (NewProtocolError ErrorCodeInvalidParams
            ("tool not found: " ++ toolNameStr))
        | some tool =>
          match mapGet rpcReq.Params "arguments" with
          | none =>
            if tool.toolDefinition.Required.length > 0 then
              .error (NewProtocolError ErrorCodeInvalidParams
                ("missing required \x27arguments\x27 parameter for tool: " ++ toolNameStr))
            else .ok tool.handler
          | some args =>
            match args with
            | .object argsMap =>
              match tool.toolDefinition.validateArguments argsMap with
              | some err => .error err
              | none => .ok tool.handler
            | _ => .error (NewProtocolError ErrorCodeInvalidParams
                ("invalid \x27arguments\x27 parameter type: expected object, got "
                  ++ fmtType args))
      | _ => .error (NewProtocolError ErrorCodeInvalidParams
          ("invalid \x27name\x27 parameter type: expected string, got " ++ fmtType toolName))
  else
    .error (NewProtocolError ErrorCodeMethodNotFound ("method not found: " ++ rpcReq.Method))

/-- Body of an HTTP reply: a text, or what a handler wrote. -/
inductive HTTPBody where
  | text (s : String)
  | written (ws : List Written)

/-- What `HTTPServer.entrypoint` sends: status code, content type and body. The
other headers are left out. -/
structure HTTPReply where
  status : Int
  contentType : String
  body : HTTPBody

/-- Function `http.Error` of the Go standard library: the status code and a
plain-text body, the message followed by a newline. -/
def httpError (message : String) (code : Int) : HTTPReply :=
  { status := code, contentType := "text/plain; charset=utf-8", body := .text (message ++ "\n") }

/-- Method `HTTPServer.entrypoint`. The argument is the outcome of decoding
the request body into a request. After a handler is resolved, the status is the
200 that `net/http` sends when the handler function writes or returns. -/
def HTTPServer.entrypoint (s : server) (decoded : Except String Request) : GoResult HTTPReply :=
  match decoded with
  | .error _ => .ret (httpError "Invalid request body" 400)
  | .ok rpcReq =>
    match s.resolveHandler rpcReq with
    | .error err => .ret (httpError ("Failed to resolve handler: " ++ err.Message) 404)
    | .ok handler =>
      match handler rpcReq with
      | .panic => .panic
      | .ret written =>
        .ret { status := 200, contentType := "application/json", body := .written written }

end mcprobot

/-! ## Locks and accesses to the registry -/

/-- One step of a function of package server that matters to the lock
discipline: an operation on `s.mu`, or a read or write of a field of the
server that `WithTool` or `ToolsPerPage` mutate. -/
inductive Access where
  | lock
  | unlock
  | rlock
  | runlock
  | read (field : String)
  | write (field : String)
  deriving DecidableEq, Repr

/-- Steps of `WithTool`, for a name that is not yet registered. -/
def server.WithTool.accesses : List Access :=
  [.lock, .read "tools", .write "tools", .read "toolNames", .write "toolNames", .unlock]

/-- Steps of `ToolsPerPage`. -/
def server.ToolsPerPage.accesses : List Access :=
  [.lock, .write "toolsPerPage", .unlock]

/-- Steps of `capabilities`: `len(s.tools)`, with no operation on `s.mu`. -/
def server.capabilities.accesses : List Access :=
  [.read "tools"]

/-- Steps of `initializeHandler`: the call of `capabilities`. -/
def server.initializeHandler.accesses : List Access :=
  server.capabilities.accesses

/-- Steps of `listToolsHandler` on its longest path; the deferred `RUnlock`
comes last. -/
def server.listToolsHandler.accesses : List Access :=
  [.rlock, .read "toolNames", .read "tools", .read "toolsPerPage", .read "toolNames",
   .read "tools", .runlock]

/-- Steps of the `tools/call` case of `resolveHandler`. -/
def server.resolveHandler.accesses : List Access :=
  [.rlock, .read "tools", .runlock]

/-- Lock held while a sequence of steps runs: 0 none, 1 the read lock, 2 the
write lock. Checks that every read happens under a lock and every write under
the write lock. -/
def guardedFrom : Nat → List Access → Bool
  | _, [] => true
  | _, .lock :: rest => guardedFrom 2 rest
  | _, .rlock :: rest => guardedFrom 1 rest
  | _, .unlock :: rest => guardedFrom 0 rest
  | _, .runlock :: rest => guardedFrom 0 rest
  | held, .read _ :: rest => decide (held ≥ 1) && guardedFrom held rest
  | held, .write _ :: rest => decide (held = 2) && guardedFrom held rest

/-- Every access of the sequence is made under the lock it needs. -/
def guarded (steps : List Access) : Bool := guardedFrom 0 steps

/-! ## Reachable registry states -/

/-- Full catalog in registration order: the definition of every listed name. -/
def server.catalog (s : server) : List ToolDefinition := s.toolNames.map s.definitionOf

/-- States of the unexported `server` struct that a program can build: from
`newServer` by `WithTool` and `ToolsPerPage`, the latter with a Go `int`. -/
inductive Reachable : server → Prop where
  | new (name version : String) : Reachable (newServer name version)
  | withTool {s : server} (d : ToolDefinition) (h : ToolHandler) :
      Reachable s → Reachable (s.WithTool d h)
  | toolsPerPage {s : server} (n : Int) :
      minInt ≤ n → n ≤ maxInt → Reachable s → Reachable (s.ToolsPerPage n)

/-- Invariant of reachable states used by the list handler: the name list is
the key sequence of the map, and the page size is a Go `int`. -/
structure server.Inv (s : server) : Prop where
  names : s.toolNames = s.tools.map Prod.fst
  perPage : minInt ≤ s.toolsPerPage ∧ s.toolsPerPage ≤ maxInt

/-! ## Sequences of calls on the server builder -/

/-- One call on the server builder: `WithTool` or `ToolsPerPage`. -/
inductive RegistryCall where
  | withTool (definition : ToolDefinition) (toolHandler : ToolHandler)
  | toolsPerPage (n : Int)

/-- The call on a state. -/
def RegistryCall.apply (s : server) : RegistryCall → server
  | .withTool d h => s.WithTool d h
  | .toolsPerPage n => s.ToolsPerPage n

/-- State built by `NewServerBuilder(name, version)` followed by the calls, in
order. -/
def buildServer (name version : String) (calls : List RegistryCall) : server :=
  calls.foldl RegistryCall.apply (newServer name version)

/-- Name registered by a call, if it is a `WithTool`. -/
def RegistryCall.toolName : RegistryCall → Option String
  | .withTool d _ => some d.Name
  | .toolsPerPage _ => none

/-- One step of `firstOccurrences`. -/
def keepFirst (acc : List String) (n : String) : List String :=
  if n ∈ acc then acc else acc ++ [n]

/-- The names of a sequence in the order of their first occurrence. -/
def firstOccurrences (names : List String) : List String :=
  names.foldl keepFirst []

/-- Registry invariant carried by every call. -/
structure server.Registry (s : server) : Prop where
  nodup : s.toolNames.Nodup
  keys : s.toolNames = s.tools.map Prod.fst
  named : ∀ p ∈ s.tools, p.2.toolDefinition.Name = p.1

/-! ## Definitions used to state the properties -/

/-- Every entry of the properties map points to a schema: no map value is a
nil `*ToolSchema`. The builder only stores non-nil pointers. -/
def ToolSchema.propertiesNonNil (sc : ToolSchema) : Bool :=
  match sc.Properties with
  | none => true
  | some props => props.all (fun p => p.2.isSome)

/-- Type-check table of the specification: is a value accepted for a declared
type? -/
def typeTable (t : String) (v : Value) : Bool :=
  if t = "string" then
    match v with
    | .str _ => true
    | _ => false
  else if t = "number" then
    match v with
    | .number _ => true
    | _ => false
  else if t = "boolean" then
    match v with
    | .bool _ => true
    | _ => false
  else if t = "array" then
    match v with
    | .array _ => true
    | _ => false
  else
    match v with
    | .object _ => false
    | _ => true

/-- Message pattern `argument '<name>' must be a <type>`. -/
def mustBeMessage (name t : String) : String :=
  "argument \x27" ++ name ++ "\x27 must be a " ++ t

/-- Message of a rejection, by declared type: the pattern `mustBeMessage` for
`string`, `number` and `boolean`, and the two other texts of the source for
`array` and for every other declared type. -/
def rejectionMessage (name : String) (v : Value) (t : String) : String :=
  if t = "string" ∨ t = "number" ∨ t = "boolean" then mustBeMessage name t
  else if t = "array" then "argument \x27" ++ name ++ "\x27 must be an array, got " ++ fmtType v
  else "object arguments are not supported. argument \x27" ++ name ++ "\x27 is an object. "

/-- Condition under which a `tools/call` request passes the argument gate of
`resolveHandler` for the tool entry `t`: no `arguments` and no required name,
or an object on which `ValidateArguments` returns no error. -/
def argumentsAccepted (t : serverTool) (rpcReq : Request) : Prop :=
  (mapGet rpcReq.Params "arguments" = none ∧ t.toolDefinition.InputSchema.Required = [])
    ∨ ∃ m, mapGet rpcReq.Params "arguments" = some (Value.object m)
        ∧ t.toolDefinition.ValidateArguments m = .ret none

/-- A properties map is nil or has no entry. -/
def propsEmpty : Option (List (String × Option ToolSchema)) → Bool
  | none => true
  | some [] => true
  | some (_ :: _) => false

mutual
/-- Schema Tree invariant at every node of the tree: properties or required
are non-empty only if the type is `object`, and array items are present only
if the type is `array`. -/
def ToolSchema.wellFormed : ToolSchema → Bool
  | .mk t _ props req items =>
    (decide (t = "object") || (decide (req = []) && propsEmpty props))
      && (decide (t = "array") || items.isNone)
      && wellFormedProps props && wellFormedOpt items
termination_by structural sc => sc
/-- The invariant in every schema of a properties map. -/
def wellFormedProps : Option (List (String × Option ToolSchema)) → Bool
  | none => true
  | some entries => wellFormedEntries entries
termination_by structural p => p
/-- The invariant in every schema of the entries of a properties map. -/
def wellFormedEntries : List (String × Option ToolSchema) → Bool
  | [] => true
  | e :: rest => wellFormedEntry e && wellFormedEntries rest
termination_by structural es => es
/-- The invariant in the schema of one entry. -/
def wellFormedEntry : String × Option ToolSchema → Bool
  | (_, sc) => wellFormedOpt sc
termination_by structural e => e
/-- The invariant in the schema behind a pointer, if it is not nil. -/
def wellFormedOpt : Option ToolSchema → Bool
  | none => true
  | some sc => ToolSchema.wellFormed sc
termination_by structural o => o
end

/-- In a chain on a schema builder, calls follow an `Of` only when the type
given to `Of` is `object`. -/
def objectItemsOnly : List SchemaCall → Bool
  | [] => true
  | .withArrayOf _ _ _ t _ :: rest =>
    (decide (t = "object") || rest.isEmpty) && objectItemsOnly rest
  | _ :: rest => objectItemsOnly rest

/-- The chains on schema builders inside a link satisfy `objectItemsOnly`. -/
def ToolCall.objectItemsOnly : ToolCall → Bool
  | .input calls => McpRobot.objectItemsOnly calls
  | .output calls => McpRobot.objectItemsOnly calls
  | _ => true

mutual
/-- The same Go value with the entries of every map listed in key order. A Go
map has no order of its own; the association list of the model has one, and
this is the one in which `encoding/json` writes the entries. -/
def GoValue.canon : GoValue → GoValue
  | .array xs => .array (canonList xs)
  | .object kvs => .object (sortFields (canonFields kvs))
  | v => v
termination_by structural v => v
/-- The elements of a slice, each in that form. -/
def canonList : List GoValue → List GoValue
  | [] => []
  | x :: rest => GoValue.canon x :: canonList rest
termination_by structural xs => xs
/-- The entries of a map, each value in that form. -/
def canonFields : List (String × GoValue) → List (String × GoValue)
  | [] => []
  | (k, v) :: rest => (k, GoValue.canon v) :: canonFields rest
termination_by structural kvs => kvs
end

mutual
/-- Every map inside the value has distinct keys, as every Go map has. -/
def GoValue.keysDistinct : GoValue → Bool
  | .array xs => keysDistinctList xs
  | .object kvs => decide ((kvs.map Prod.fst).Nodup) && keysDistinctFields kvs
  | _ => true
termination_by structural v => v
/-- The property in every element of a slice. -/
def keysDistinctList : List GoValue → Bool
  | [] => true
  | x :: rest => GoValue.keysDistinct x && keysDistinctList rest
termination_by structural xs => xs
/-- The property in every value of a map. -/
def keysDistinctFields : List (String × GoValue) → Bool
  | [] => true
  | (_, v) :: rest => GoValue.keysDistinct v && keysDistinctFields rest
termination_by structural kvs => kvs
end

mutual
/-- No value inside is a NaN or infinite `float64` or of a type that
`encoding/json` does not support. -/
def GoValue.encodable : GoValue → Bool
  | .nonFinite _ => false
  | .unsupported _ => false
  | .array xs => encodableList xs
  | .object kvs => encodableFields kvs
  | _ => true
termination_by structural v => v
/-- The property in every element of a slice. -/
def encodableList : List GoValue → Bool
  | [] => true
  | x :: rest => GoValue.encodable x && encodableList rest
termination_by structural xs => xs
/-- The property in every value of a map. -/
def encodableFields : List (String × GoValue) → Bool
  | [] => true
  | (_, v) :: rest => GoValue.encodable v && encodableFields rest
termination_by structural kvs => kvs
end

/-- The text that `fmtFloat` gives for `f` is a number literal that `parseFloat`
reads back as `f`: it consists of number characters and starts with a digit or
a minus sign. `strconv` formats a `float64` with the fewest digits that
`strconv.ParseFloat` reads back as the same `float64`. -/
def floatReadBack (fmtFloat : ℚ → String) (parseFloat : List Char → Option ℚ) (f : ℚ) : Bool :=
  (fmtFloat f).toList.all isNumberChar
    && (match (fmtFloat f).toList with
        | [] => false
        | c :: _ => decide (c = '-') || c.isDigit)
    && decide (parseFloat (fmtFloat f).toList = some f)

mutual
/-- Every finite number inside the value satisfies `floatReadBack`. -/
def GoValue.floatsReadBack (fmtFloat : ℚ → String) (parseFloat : List Char → Option ℚ) :
    GoValue → Bool
  | .number f => floatReadBack fmtFloat parseFloat f
  | .array xs => floatsReadBackList fmtFloat parseFloat xs
  | .object kvs => floatsReadBackFields fmtFloat parseFloat kvs
  | _ => true
termination_by structural v => v
/-- The property in every element of a slice. -/
def floatsReadBackList (fmtFloat : ℚ → String) (parseFloat : List Char → Option ℚ) :
    List GoValue → Bool
  | [] => true
  | x :: rest =>
    GoValue.floatsReadBack fmtFloat parseFloat x && floatsReadBackList fmtFloat parseFloat rest
termination_by structural xs => xs
/-- The property in every value of a map. -/
def floatsReadBackFields (fmtFloat : ℚ → String) (parseFloat : List Char → Option ℚ) :
    List (String × GoValue) → Bool
  | [] => true
  | (_, v) :: rest =>
    GoValue.floatsReadBack fmtFloat parseFloat v
      && floatsReadBackFields fmtFloat parseFloat rest
termination_by structural kvs => kvs
end

/-- The decoder reads the text that `json.Marshal` writes for `v` back as `v`,
whatever follows the text, as long as a number is not followed by a number
character: the text is not empty and does not start with a closing bracket,
and with at least as much fuel as the text has characters the decoder returns
the canonical form of `v` and leaves what follows the text. -/
def GoValue.readsBack (fmtFloat : ℚ → String) (parseFloat : List Char → Option ℚ)
    (v : GoValue) : Prop :=
  ∀ txt, jsonMarshal fmtFloat v = .ok txt →
    (∃ c t, txt = c :: t ∧ c ≠ ']') ∧
    ∀ fuel, txt.length ≤ fuel → ∀ rest, (∀ c ∈ rest.head?, isNumberChar c = false) →
      parseValue parseFloat fuel (txt ++ rest) = some (v.canon, rest)

/-- Defect of one argument entry against the input schema, with the error that
the argument loop of `ValidateArguments` returns when it reaches the entry: an
unexpected key, or a value that fails the type check of its property. An entry
has no defect when the schema has no properties map. -/
def ToolDefinition.defect (d : ToolDefinition) (p : String × Value) : Option ProtocolError :=
  match d.InputSchema.Properties with
  | none => none
  | some properties =>
    match mapGet properties p.1 with
    | none => some (NewProtocolError ErrorCodeInvalidParams ("unexpected argument: " ++ p.1))
    | some none => none
    | some (some schema) => validateArgumentType p.1 p.2 schema.Type_

/-- Number of pages of the catalog for the page size of the registry: the
number of tools divided by the page size, rounded up. -/
def server.pageCount (s : server) : Nat :=
  (s.toolNames.length + s.toolsPerPage.toNat - 1) / s.toolsPerPage.toNat

/-- Page `k` of the catalog: at most `toolsPerPage` definitions from position
`k * toolsPerPage` of the registration order. -/
def server.page (s : server) (k : Nat) : List ToolDefinition :=
  (s.catalog.drop (k * s.toolsPerPage.toNat)).take s.toolsPerPage.toNat

/-- The request asks for cursor `k`: `params.cursor` is a string that `Atoi`
parses to `k`, or it is absent and `k` is 0. -/
def cursorIs (rpcReq : Request) (k : Nat) : Prop :=
  (mapGet rpcReq.Params "cursor" = none ∧ k = 0)
    ∨ ∃ cs, mapGet rpcReq.Params "cursor" = some (Value.str cs) ∧ Atoi cs = some (k : Int)

/-- Exactly one of `result` and `error` is populated: one is non-nil and the
other is nil. -/
def Response.exactlyOne (r : Response) : Bool :=
  (r.Result.isSome && r.Error.isNone) || (r.Result.isNone && r.Error.isSome)

/-- Every tool handler of the registry was made by `ToolFunc.MCPHandler`. -/
def server.toolFuncs (s : server) : Prop :=
  ∀ p ∈ s.tools, ∃ fmtFloat f d, p.2.handler = ToolFunc.MCPHandler fmtFloat f d

/-- Envelope of the writer for `id`: version `2.0`, that id, and exactly one of
result and error. -/
def Response.answers (id : Int) (r : Response) : Prop :=
  r.Jsonrpc = "2.0" ∧ r.ID = id ∧ r.exactlyOne = true

/-- Argument map that the handler built by `ToolFunc.MCPHandler` passes to the
tool function: `params.arguments` when it is an object, else the empty map. -/
def handlerArguments (req : Request) : List (String × Value) :=
  match mapGet req.Params "arguments" with
  | some (.object m) => m
  | _ => []

/-- Success envelope of the writer `rw` whose result is `content: C,
isError: false`, with no other key. -/
def contentEnvelope (rw : ResponseWriter) (C : List ContentItem) : Response :=
  { Jsonrpc := "2.0", ID := rw.id,
    Result := some [("content", .content C), ("isError", .json (.bool false))],
    Error := none }

/-- One call of an `Add` method of `ToolResultUnion`, with its arguments. -/
inductive UnionAdd where
  | text (text : String)
  | image (b : List UInt8) (mimeType : String)
  | audio (b : List UInt8) (mimeType : String)
  | embeddedTextResource (uri name description mimeType text : String)
  | embeddedBinaryResource (uri name description mimeType : String) (b : List UInt8)
  | resourceLink (uri name description mimeType : String)

/-- The method call on a union. -/
def UnionAdd.apply (u : ToolResultUnion) : UnionAdd → ToolResultUnion
  | .text t => u.AddText t
  | .image b m => u.AddImage b m
  | .audio b m => u.AddAudio b m
  | .embeddedTextResource uri name description mimeType txt =>
    u.AddEmbeddedTextResource uri name description mimeType txt
  | .embeddedBinaryResource uri name description mimeType b =>
    u.AddEmbeddedBinaryResource uri name description mimeType b
  | .resourceLink uri name description mimeType =>
    u.AddResourceLink uri name description mimeType

/-- Union made by `NewToolResultUnion()` followed by the calls, in order. -/
def buildUnion (adds : List UnionAdd) : ToolResultUnion :=
  adds.foldl UnionAdd.apply NewToolResultUnion

/-- Content block that a call adds. -/
def UnionAdd.block : UnionAdd → ContentItem
  | .text t => .text (NewToolResultText t)
  | .image b m => .media (NewToolResultImage b m)
  | .audio b m => .media (NewToolResultAudio b m)
  | .embeddedTextResource uri name description mimeType txt =>
    .embeddedText (NewToolResultEmbeddedTextResource uri name description mimeType txt)
  | .embeddedBinaryResource uri name description mimeType b =>
    .embeddedBinary (NewToolResultEmbeddedBinaryResource uri name description mimeType b)
  | .resourceLink uri name description mimeType =>
    .resourceLink (NewResourceLink uri name description mimeType)

/-- Type tag that a call is to produce. -/
def UnionAdd.tag : UnionAdd → String
  | .text _ => "text"
  | .image _ _ => "image"
  | .audio _ _ => "audio"
  | .embeddedTextResource _ _ _ _ _ => "resource"
  | .embeddedBinaryResource _ _ _ _ _ => "resource"
  | .resourceLink _ _ _ _ => "resource_link"

/-- Field `type` of a content block; `none` for a nil element and for a value
that is not a content block. -/
def ContentItem.typeTag : ContentItem → Option String
  | .null => none
  | .text v => some v.Type_
  | .media v => some v.Type_
  | .embeddedText v => some v.Type_
  | .embeddedBinary v => some v.Type_
  | .resourceLink v => some v.Type_
  | .json _ => none

/-! ## Example values -/

/-- Tool handler whose bound handler writes nothing. -/
def silentHandler : ToolHandler := { MCPHandler := fun _ _ => .ret [] }

/-- Tool handler whose bound handler answers every request with an empty result. -/
def echoHandler : ToolHandler :=
  { MCPHandler := fun _ rpcReq => .ret [(NewResponseWriter rpcReq.ID).WriteResult (some [])] }

/-- Registry with the tools `a`, `b`, `c`, `d`, `e`, registered in that order,
and the default page size. -/
def fiveTools : server :=
  (((((newServer "robot" "1").WithTool (NewTool "a").Build silentHandler).WithTool
    (NewTool "b").Build silentHandler).WithTool (NewTool "c").Build silentHandler).WithTool
    (NewTool "d").Build silentHandler).WithTool (NewTool "e").Build silentHandler

/-- Request `tools/list` with id 1 and the given `params`. -/
def listRequest (params : List (String × Value)) : Request :=
  { Jsonrpc := "2.0", ID := 1, Method := "tools/list", Params := params }

/-- Definition with one required string property `x`. -/
def requiresX : ToolDefinition :=
  { ToolDefinition.zero with
    Name := "needs-x"
    InputSchema := ToolSchema.mk "object" ""
      (some [("x", some (ToolSchema.mk "string" "" none [] none))]) ["x"] none }

/-- Request `ping` with id 7. -/
def pingRequest : Request := { Jsonrpc := "2.0", ID := 7, Method := "ping", Params := [] }

/-- Text of the `SyntaxError` for a stream that starts with `\x7bbad\x7d`. -/
def badObjectKey : String :=
  "invalid character \x27b\x27 looking for beginning of object key string"

/-- Envelope that the loop of the stream transport writes for a decode error. -/
def parseErrorEnvelope (err : String) : Response :=
  { Jsonrpc := "2.0", ID := 0, Result := none,
    Error := some { Code := -32700, Message := "Failed to decode request: " ++ err } }

/-- Float formatting that is never called in the examples. -/
def anyFloat : ℚ → String := fun _ => "0"

/-- Definition with the property `x` of type number, not required. -/
def numberX : ToolDefinition :=
  { ToolDefinition.zero with
    Name := "number-x"
    InputSchema := ToolSchema.mk "object" ""
      (some [("x", some (ToolSchema.mk "number" "" none [] none))]) [] none }

/-- Request `tools/call` with id 1 and the given `params`. -/
def callRequest (params : List (String × Value)) : Request :=
  { Jsonrpc := "2.0", ID := 1, Method := "tools/call", Params := params }

/-- Definition whose output schema requires the field `k`. -/
def outputsK : ToolDefinition :=
  { ToolDefinition.zero with
    Name := "outputs-k"
    OutputSchema := ToolSchema.mk "object" ""
      (some [("k", some (ToolSchema.mk "string" "" none [] none))]) ["k"] none }

/-- Tool function that returns the empty structured result and no error. -/
def emptyStructured : ToolFunc := fun _ => (ToolResult.structured (some []), none)

/-- Tool function that fails with an ordinary error. -/
def failingTool : ToolFunc := fun _ => (ToolResult.text (NewToolResultText ""), some (.other "boom"))

/-- Tool function that returns a one-element slice of embedded text resources. -/
def embeddedSlice : ToolFunc := fun _ =>
  (ToolResult.embeddedTexts
    [NewToolResultEmbeddedTextResource "file:///a" "a" "" "text/plain" "hello"], none)

/-- Registry with the one tool `outputs-k`, served by `emptyStructured`. -/
def outputServer (fmtFloat : ℚ → String) : server :=
  (newServer "robot" "1").WithTool outputsK (ToolFunc.toHandler fmtFloat emptyStructured)

/-- Arguments for `numberX` with two defects: the string under `x` and the
undeclared key `y`. -/
def twoDefects : List (String × Value) := [("x", Value.str "s"), ("y", Value.number 2)]

/-- Definition whose one declared property `x` is a nil `*ToolSchema`. -/
def nilPointerX : ToolDefinition :=
  { ToolDefinition.zero with
    Name := "nil-x"
    InputSchema := ToolSchema.mk "object" "" (some [("x", none)]) [] none }

/-- Definition with the property `a`, a nil `*ToolSchema`, and the property
`b` of type number. -/
def nilPointerA : ToolDefinition :=
  { ToolDefinition.zero with
    Name := "nil-a"
    InputSchema := ToolSchema.mk "object" ""
      (some [("a", none), ("b", some (ToolSchema.mk "number" "" none [] none))]) [] none }

/-- Float formatting of the examples: the decimal text of an integer. -/
def intFloat : ℚ → String := fun f => fmtInt f.num

/-- Number reading of the examples: the value of a decimal integer. -/
def intParse : List Char → Option ℚ := fun t => (Atoi (String.mk t)).map (fun n => (n : ℚ))

/-- Structured result with a string, a number, a slice and a nested map. -/
def sampleStructured : List (String × GoValue) :=
  [("k", GoValue.str "v"), ("n", GoValue.number 2),
   ("a", GoValue.array [GoValue.bool true, GoValue.null,
      GoValue.object [("z", GoValue.str "<"), ("b", GoValue.number (-7))]])]

/-- Registry with the tools `a` to `e` and two tools per page. -/
def pagedFive : server := fiveTools.ToolsPerPage 2

/-- Request `tools/list` whose cursor is the decimal text of `k`. -/
def cursorRequest (k : Nat) : Request :=
  listRequest [("cursor", Value.str (fmtInt (k : Int)))]

/-! ## Lemmas on maps and machine integers -/

theorem mapGet_append_absent {β : Type} (m : List (String × β)) (k : String) (v : β)
    (h : mapGet m k = none) : mapGet (m ++ [(k, v)]) k = some v := by
  induction m with
  | nil => simp [mapGet, List.lookup]
  | cons p m ih =>
    obtain ⟨k', v'⟩ := p
    unfold mapGet at h ih ⊢
    simp only [List.cons_append, List.lookup_cons] at h ⊢
    cases hk : (k == k') with
    | true => simp [hk] at h
    | false =>
      simp only [hk] at h ⊢
      exact ih h

theorem mapGet_append_other {β : Type} (m : List (String × β)) (k n : String) (v : β)
    (h : n ≠ k) : mapGet (m ++ [(k, v)]) n = mapGet m n := by
  induction m with
  | nil =>
    have : (n == k) = false := by simpa using h
    simp [mapGet, List.lookup, this]
  | cons p m ih =>
    obtain ⟨k', v'⟩ := p
    unfold mapGet at ih ⊢
    simp only [List.cons_append, List.lookup_cons]
    split
    · rfl
    · exact ih

theorem mapSet_absent {β : Type} (m : List (String × β)) (k : String) (v : β)
    (h : mapGet m k = none) : mapSet m k v = m ++ [(k, v)] := by
  simp [mapSet, h]

theorem WithTool_absent (s : server) (d : ToolDefinition) (h : ToolHandler)
    (hnew : mapGet s.tools d.Name = none) :
    s.WithTool d h =
      { s with tools := s.tools ++ [(d.Name, ⟨h.MCPHandler d, d⟩)],
               toolNames := s.toolNames ++ [d.Name] } := by
  simp [server.WithTool, hnew, mapSet_absent]

theorem wrapInt_of_range (x : Int) (h1 : minInt ≤ x) (h2 : x ≤ maxInt) : wrapInt x = x := by
  unfold wrapInt
  unfold minInt at h1
  unfold maxInt at h2
  omega

theorem Reachable.inv {s : server} (h : Reachable s) : s.Inv := by
  induction h with
  | new name version =>
    exact ⟨rfl, by simp [newServer, minInt, maxInt]⟩
  | @withTool s d h _ ih =>
    cases hg : mapGet s.tools d.Name with
    | some e =>
      have : s.WithTool d h = s := by simp [server.WithTool, hg]
      rw [this]; exact ih
    | none =>
      have hm : mapSet s.tools d.Name ⟨h.MCPHandler d, d⟩
          = s.tools ++ [(d.Name, ⟨h.MCPHandler d, d⟩)] := by simp [mapSet, hg]
      refine ⟨?_, ?_⟩
      · simp [server.WithTool, hg, hm, ih.names]
      · simpa [server.WithTool, hg] using ih.perPage
  | toolsPerPage n h1 h2 _ ih =>
    exact ⟨ih.names, ⟨h1, h2⟩⟩

theorem server.Inv.mapLen_tools {s : server} (h : s.Inv) :
    mapLen s.tools = (s.toolNames.length : Int) := by
  simp [mapLen, h.names]

theorem goSlice_ok {α : Type} (xs : List α) (lo hi : Int)
    (h0 : 0 ≤ lo) (h1 : lo ≤ hi) (h2 : hi ≤ (xs.length : Int)) :
    goSlice xs lo hi = .ret ((xs.drop lo.toNat).take (hi.toNat - lo.toNat)) := by
  simp [goSlice, h0, h1, h2]

/-- Page computation without overflow, pagination enabled, offset in range. -/
theorem listToolsPage_enabled (s : server) (rw : ResponseWriter) (c : Int)
    (hinv : s.Inv) (hp : s.toolsPerPage > 0) (hc : 0 ≤ c)
    (hlen : (s.toolNames.length : Int) < 2 ^ 62)
    (hoff : c * s.toolsPerPage < (s.toolNames.length : Int)) :
    s.listToolsPage rw c =
      .ret [rw.WriteResult
        (some (("tools", ResultValue.tools
            (((s.toolNames.drop (c * s.toolsPerPage).toNat).take
                ((min (c * s.toolsPerPage + s.toolsPerPage) (s.toolNames.length : Int)).toNat
                  - (c * s.toolsPerPage).toNat)).map s.definitionOf)) ::
          (if c * s.toolsPerPage + s.toolsPerPage < (s.toolNames.length : Int) then
            [("nextCursor", ResultValue.json (Value.str (fmtInt (c + 1))))]
           else [])))] := by
  have hend : mapLen s.tools = (s.toolNames.length : Int) := hinv.mapLen_tools
  obtain ⟨hp1, hp2⟩ := hinv.perPage
  have hoff0 : 0 ≤ c * s.toolsPerPage := Int.mul_nonneg hc (le_of_lt hp)
  have hmax : maxInt = 2 ^ 63 - 1 := rfl
  have hmin : minInt = -(2 ^ 63) := rfl
  have hw1 : wrapInt (c * s.toolsPerPage) = c * s.toolsPerPage :=
    wrapInt_of_range _ (by rw [hmin]; omega) (by rw [hmax]; omega)
  -- the page size is at most the offset once the cursor is positive
  have hsum : c * s.toolsPerPage + s.toolsPerPage ≤ maxInt := by
    rcases eq_or_lt_of_le hc with h0 | hpos
    · rw [← h0]; simpa using hp2
    · have : s.toolsPerPage ≤ c * s.toolsPerPage := by nlinarith
      rw [hmax]; omega
  have hw2 : wrapInt (c * s.toolsPerPage + s.toolsPerPage) = c * s.toolsPerPage + s.toolsPerPage :=
    wrapInt_of_range _ (by rw [hmin]; omega) hsum
  have hc1 : c ≤ c * s.toolsPerPage := by nlinarith
  have hw3 : wrapInt (c + 1) = c + 1 :=
    wrapInt_of_range _ (by rw [hmin]; omega) (by rw [hmax]; omega)
  by_cases hlt : c * s.toolsPerPage + s.toolsPerPage < (s.toolNames.length : Int)
  · have hmin' : min (c * s.toolsPerPage + s.toolsPerPage) (s.toolNames.length : Int)
        = c * s.toolsPerPage + s.toolsPerPage := min_eq_left (le_of_lt hlt)
    have hnp : c + 1 > 0 := by omega
    have hsl := goSlice_ok s.toolNames (c * s.toolsPerPage)
      (c * s.toolsPerPage + s.toolsPerPage) hoff0 (by omega) (le_of_lt hlt)
    simp only [server.listToolsPage, hp, hw1, hw2, hw3, hend, hlt, if_true, ge_iff_le,
      not_le.mpr hoff, if_false, hsl, hnp, hmin']
    simp [mapSet, mapGet, List.lookup]
  · have hmin' : min (c * s.toolsPerPage + s.toolsPerPage) (s.toolNames.length : Int)
        = (s.toolNames.length : Int) := min_eq_right (not_lt.mp hlt)
    have hsl := goSlice_ok s.toolNames (c * s.toolsPerPage)
      (s.toolNames.length : Int) hoff0 (le_of_lt hoff) (le_refl _)
    simp only [server.listToolsPage, hp, hw1, hw2, hend, hlt, if_true, ge_iff_le,
      not_le.mpr hoff, if_false, hsl, hmin']
    simp



/-- Page computation when the offset is past the end of the name list. -/
theorem listToolsPage_out_of_range (s : server) (rw : ResponseWriter) (c : Int)
    (hp : s.toolsPerPage > 0) (hc : 0 ≤ c)
    (hoff : (s.toolNames.length : Int) ≤ c * s.toolsPerPage)
    (hfit : c * s.toolsPerPage ≤ maxInt) :
    s.listToolsPage rw c =
      .ret [rw.WriteError ErrorCodeInvalidParams
        ("invalid \x27cursor\x27 parameter: " ++ fmtInt c ++ " is out of range")] := by
  have hoff0 : 0 ≤ c * s.toolsPerPage := Int.mul_nonneg hc (le_of_lt hp)
  have hmin : minInt = -(2 ^ 63) := rfl
  have hw1 : wrapInt (c * s.toolsPerPage) = c * s.toolsPerPage :=
    wrapInt_of_range _ (by rw [hmin]; omega) hfit
  unfold server.listToolsPage
  simp only [hp, if_true, hw1]
  split_ifs <;> simp_all

/-- Page computation when pagination is disabled: the whole catalog. -/
theorem listToolsPage_disabled (s : server) (rw : ResponseWriter) (c : Int)
    (hinv : s.Inv) (hp : s.toolsPerPage ≤ 0) (hne : s.toolNames ≠ []) :
    s.listToolsPage rw c
      = .ret [rw.WriteResult (some [("tools", ResultValue.tools s.catalog)])] := by
  have hend : mapLen s.tools = (s.toolNames.length : Int) := hinv.mapLen_tools
  have hpos : 0 < s.toolNames.length := List.length_pos.mpr hne
  have hsl := goSlice_ok s.toolNames 0 (s.toolNames.length : Int) (le_refl _)
    (by omega) (le_refl _)
  have hnp : ¬ s.toolsPerPage > 0 := not_lt.mpr hp
  have hnot : ¬ ((0 : Int) ≥ (s.toolNames.length : Int)) := by omega
  simp only [server.listToolsPage, hnp, if_false, hend, hnot, hsl]
  simp [server.catalog]

theorem required_none_iff (args : List (String × Value)) (req : List String) :
    ValidateArguments.required args req = none ↔ ∀ f ∈ req, (mapGet args f).isSome := by
  induction req with
  | nil => simp [ValidateArguments.required]
  | cons f rest ih =>
    unfold ValidateArguments.required
    by_cases hf : (mapGet args f).isSome
    · simp [hf, ih]
    · simp [hf]

theorem required_first_absent (args : List (String × Value)) (pre post : List String)
    (name : String) (hpre : ∀ f ∈ pre, (mapGet args f).isSome)
    (habs : mapGet args name = none) :
    ValidateArguments.required args (pre ++ name :: post) =
      some (NewProtocolError ErrorCodeInvalidParams ("missing required argument: " ++ name)) := by
  induction pre with
  | nil => simp [ValidateArguments.required, habs]
  | cons f rest ih =>
    have hf : (mapGet args f).isSome := hpre f (List.mem_cons_self _ _)
    have hrest : ∀ g ∈ rest, (mapGet args g).isSome :=
      fun g hg => hpre g (List.mem_cons_of_mem _ hg)
    simp only [List.cons_append, ValidateArguments.required, hf, if_true]
    exact ih hrest

theorem fiveTools_reachable : Reachable fiveTools :=
  .withTool _ _ (.withTool _ _ (.withTool _ _ (.withTool _ _ (.withTool _ _ (.new _ _)))))

/-! ## Registry -/

/-- C1. `WithTool` is first-wins: when the name of the definition is already a
key of the tool map, `WithTool` returns the state it was given, so the
name->entry map (earlier definition and handler included) and the ordered name
list are unchanged and the name is not appended again. -/
theorem WithTool_registered_unchanged (s : server) (d : ToolDefinition) (h : ToolHandler)
    (hreg : (mapGet s.tools d.Name).isSome = true) :
    s.WithTool d h = s ∧ (s.WithTool d h).tools = s.tools
      ∧ (s.WithTool d h).toolNames = s.toolNames := by
  have heq : s.WithTool d h = s := by simp [server.WithTool, hreg]
  exact ⟨heq, by rw [heq], by rw [heq]⟩

theorem WithTool_registered_unchanged_witness :
    (mapGet fiveTools.tools ({ requiresX with Name := "c" } : ToolDefinition).Name).isSome
          = true
      ∧ fiveTools.WithTool { requiresX with Name := "c" } echoHandler = fiveTools
      ∧ (fiveTools.WithTool { requiresX with Name := "c" } echoHandler).toolNames
          = ["a", "b", "c", "d", "e"] :=
  ⟨by decide,
   (WithTool_registered_unchanged fiveTools { requiresX with Name := "c" } echoHandler
      (by decide)).1,
   (WithTool_registered_unchanged fiveTools { requiresX with Name := "c" } echoHandler
      (by decide)).2.2.trans (by decide)⟩

/-- C2. Registering a definition whose name is not yet a key: afterwards the
lookup of `d.Name` finds the entry made of `h.MCPHandler d` and `d`, the name
is appended at the end of the ordered name list, and the lookup of every other
name is as before. -/
theorem WithTool_new_registered (s : server) (d : ToolDefinition) (h : ToolHandler)
    (hnew : mapGet s.tools d.Name = none) :
    (∃ e, mapGet (s.WithTool d h).tools d.Name = some e
        ∧ e.toolDefinition = d ∧ e.handler = h.MCPHandler d)
      ∧ (s.WithTool d h).toolNames = s.toolNames ++ [d.Name]
      ∧ ∀ n : String, n ≠ d.Name → mapGet (s.WithTool d h).tools n = mapGet s.tools n := by
  rw [WithTool_absent s d h hnew]
  refine ⟨⟨⟨h.MCPHandler d, d⟩, ?_, rfl, rfl⟩, rfl, ?_⟩
  · exact mapGet_append_absent s.tools d.Name _ hnew
  · intro n hn
    exact mapGet_append_other s.tools d.Name n _ hn

theorem WithTool_new_registered_witness :
    mapGet fiveTools.tools requiresX.Name = none
      ∧ (fiveTools.WithTool requiresX echoHandler).toolNames
          = ["a", "b", "c", "d", "e", "needs-x"] :=
  ⟨by rfl,
   (WithTool_new_registered fiveTools requiresX echoHandler (by rfl)).2.1.trans (by decide)⟩



/-! ## Pagination of tools/list -/

/-- C3. Pagination enabled (`toolsPerPage > 0`), reachable registry of `n` tools
(`n < 2^62`, as every Go slice of strings), cursor `c ≥ 0` (absent cursor: page
0) with `offset = c * toolsPerPage < n`: the handler writes exactly one success
envelope; its `tools` are the catalog entries `offset` to
`min (offset + toolsPerPage) n` in registration order, and `nextCursor` is
present, equal to the decimal string of `c + 1`, exactly when
`offset + toolsPerPage < n`. -/
theorem listToolsHandler_page (s : server) (rpcReq : Request) (c : Int)
    (hs : Reachable s) (hp : s.toolsPerPage > 0)
    (hlen : (s.toolNames.length : Int) < 2 ^ 62)
    (hcur : (mapGet rpcReq.Params "cursor" = none ∧ c = 0)
      ∨ ∃ cs, mapGet rpcReq.Params "cursor" = some (Value.str cs) ∧ Atoi cs = some c)
    (hc : 0 ≤ c) (hoff : c * s.toolsPerPage < (s.toolNames.length : Int)) :
    s.listToolsHandler rpcReq =
      .ret [{ Jsonrpc := "2.0", ID := rpcReq.ID,
              Result := some
                (("tools", ResultValue.tools
                  ((s.catalog.drop (c * s.toolsPerPage).toNat).take
                    ((min (c * s.toolsPerPage + s.toolsPerPage)
                        (s.toolNames.length : Int)).toNat - (c * s.toolsPerPage).toNat))) ::
                (if min (c * s.toolsPerPage + s.toolsPerPage) (s.toolNames.length : Int)
                      < (s.toolNames.length : Int) then
                  [("nextCursor", ResultValue.json (Value.str (fmtInt (c + 1))))]
                 else [])),
              Error := none }] := by
  have hpage := listToolsPage_enabled s (NewResponseWriter rpcReq.ID) c hs.inv hp hc hlen hoff
  have hne : ¬ s.toolNames.length = 0 := by
    intro h0
    rw [h0] at hoff
    have : 0 ≤ c * s.toolsPerPage := Int.mul_nonneg hc (le_of_lt hp)
    simp at hoff
    omega
  have hcat : ∀ a b : Nat, ((s.toolNames.drop a).take b).map s.definitionOf
      = (s.catalog.drop a).take b := by
    intro a b
    simp [server.catalog, List.map_take, List.map_drop]
  have hiff : (min (c * s.toolsPerPage + s.toolsPerPage) (s.toolNames.length : Int)
      < (s.toolNames.length : Int)) ↔
      (c * s.toolsPerPage + s.toolsPerPage < (s.toolNames.length : Int)) := by
    simp [min_lt_iff]
  rw [hcat] at hpage
  simp only [hiff]
  rcases hcur with ⟨hnone, h0⟩ | ⟨cs, hsome, hatoi⟩
  · subst h0
    simp only [server.listToolsHandler, hne, if_false, hnone]
    exact hpage
  · simp only [server.listToolsHandler, hne, if_false, hsome, hatoi]
    exact hpage

theorem listToolsHandler_page_witness :
    ((fiveTools.ToolsPerPage 2).listToolsHandler (listRequest [("cursor", Value.str "0")]) =
        .ret [{ Jsonrpc := "2.0", ID := 1,
                Result := some
                  [("tools", ResultValue.tools [(NewTool "a").Build, (NewTool "b").Build]),
                   ("nextCursor", ResultValue.json (Value.str "1"))],
                Error := none }])
      ∧ ((fiveTools.ToolsPerPage 2).listToolsHandler (listRequest [("cursor", Value.str "2")]) =
        .ret [{ Jsonrpc := "2.0", ID := 1,
                Result := some [("tools", ResultValue.tools [(NewTool "e").Build])],
                Error := none }]) :=
  ⟨listToolsHandler_page (fiveTools.ToolsPerPage 2) (listRequest [("cursor", Value.str "0")]) 0
      (.toolsPerPage 2 (by decide) (by decide) fiveTools_reachable) (by decide) (by decide)
      (Or.inr ⟨"0", by rfl, by rfl⟩) (by decide) (by decide),
   listToolsHandler_page (fiveTools.ToolsPerPage 2) (listRequest [("cursor", Value.str "2")]) 2
      (.toolsPerPage 2 (by decide) (by decide) fiveTools_reachable) (by decide) (by decide)
      (Or.inr ⟨"2", by rfl, by rfl⟩) (by decide) (by decide)⟩



/-- C4, counterexample. Page size 2, empty registry, cursor `"3"`: the offset
6 is not below the number of tools (0), yet the handler answers with a success
envelope holding an empty tools list, and with no error. -/
theorem listToolsHandler_empty_registry_not_rejected :
    ((newServer "robot" "1").ToolsPerPage 2).toolsPerPage > 0
      ∧ (3 : Int) * ((newServer "robot" "1").ToolsPerPage 2).toolsPerPage
          ≥ (((newServer "robot" "1").ToolsPerPage 2).toolNames.length : Int)
      ∧ ((newServer "robot" "1").ToolsPerPage 2).listToolsHandler
            (listRequest [("cursor", Value.str "3")])
          = .ret [{ Jsonrpc := "2.0", ID := 1, Result := some [("tools", ResultValue.tools [])],
                    Error := none }] :=
  ⟨by decide, by decide, by rfl⟩

/-- C4, amended. Pagination enabled, non-empty registry, cursor `c ≥ 0` (absent
cursor: page 0) whose offset `c * toolsPerPage` fits a Go `int` and is at least
the number of registered tools: the handler writes exactly one envelope, an
`InvalidParams` (-32602) error with no result, hence no tools. -/
theorem listToolsHandler_out_of_range (s : server) (rpcReq : Request) (c : Int)
    (hne : s.toolNames ≠ []) (hp : s.toolsPerPage > 0)
    (hcur : (mapGet rpcReq.Params "cursor" = none ∧ c = 0)
      ∨ ∃ cs, mapGet rpcReq.Params "cursor" = some (Value.str cs) ∧ Atoi cs = some c)
    (hc : 0 ≤ c) (hoff : (s.toolNames.length : Int) ≤ c * s.toolsPerPage)
    (hfit : c * s.toolsPerPage ≤ maxInt) :
    s.listToolsHandler rpcReq =
      .ret [{ Jsonrpc := "2.0", ID := rpcReq.ID, Result := none,
              Error := some { Code := -32602,
                              Message := "invalid \x27cursor\x27 parameter: " ++ fmtInt c
                                ++ " is out of range" } }] := by
  have hpage := listToolsPage_out_of_range s (NewResponseWriter rpcReq.ID) c hp hc hoff hfit
  have hne0 : ¬ s.toolNames.length = 0 := by
    intro h0
    exact hne (List.length_eq_zero.mp h0)
  rcases hcur with ⟨hnone, h0⟩ | ⟨cs, hsome, hatoi⟩
  · subst h0
    simp only [server.listToolsHandler, hne0, if_false, hnone]
    exact hpage
  · simp only [server.listToolsHandler, hne0, if_false, hsome, hatoi]
    exact hpage

theorem listToolsHandler_out_of_range_witness :
    (fiveTools.ToolsPerPage 2).listToolsHandler (listRequest [("cursor", Value.str "3")]) =
      .ret [{ Jsonrpc := "2.0", ID := 1, Result := none,
              Error := some { Code := -32602,
                              Message := "invalid \x27cursor\x27 parameter: 3 is out of range" } }] :=
  listToolsHandler_out_of_range (fiveTools.ToolsPerPage 2)
    (listRequest [("cursor", Value.str "3")]) 3 (by decide) (by decide)
    (Or.inr ⟨"3", by rfl, by rfl⟩) (by decide) (by decide) (by decide)

/-- C5. Pagination disabled (`toolsPerPage ≤ 0`; `newServer` sets -1): for every
reachable registry and every request whose cursor is absent or is a string that
`Atoi` parses to any integer, the handler writes exactly one success envelope
whose result has the single key `tools`, bound to the whole catalog in
registration order; there is no `nextCursor` key. -/
theorem listToolsHandler_unpaged (s : server) (rpcReq : Request)
    (hs : Reachable s) (hp : s.toolsPerPage ≤ 0)
    (hcur : mapGet rpcReq.Params "cursor" = none
      ∨ ∃ cs c, mapGet rpcReq.Params "cursor" = some (Value.str cs) ∧ Atoi cs = some c) :
    (s.listToolsHandler rpcReq =
        .ret [{ Jsonrpc := "2.0", ID := rpcReq.ID,
                Result := some [("tools", ResultValue.tools s.catalog)], Error := none }])
      ∧ mapGet [("tools", ResultValue.tools s.catalog)] "nextCursor" = none
      ∧ ∀ name version : String, (newServer name version).toolsPerPage = -1 := by
  refine ⟨?_, by rfl, fun _ _ => rfl⟩
  by_cases hempty : s.toolNames = []
  · simp [server.listToolsHandler, hempty, server.catalog, ResponseWriter.WriteResult,
      NewResponseWriter, JsonRPC]
  · have hne0 : ¬ s.toolNames.length = 0 := by
      intro h0
      exact hempty (List.length_eq_zero.mp h0)
    have hpage := fun c => listToolsPage_disabled s (NewResponseWriter rpcReq.ID) c hs.inv hp hempty
    rcases hcur with hnone | ⟨cs, c, hsome, hatoi⟩
    · simp only [server.listToolsHandler, hne0, if_false, hnone]
      exact hpage 0
    · simp only [server.listToolsHandler, hne0, if_false, hsome, hatoi]
      exact hpage c

theorem listToolsHandler_unpaged_witness :
    fiveTools.listToolsHandler (listRequest [("cursor", Value.str "7")]) =
      .ret [{ Jsonrpc := "2.0", ID := 1,
              Result := some [("tools", ResultValue.tools
                [(NewTool "a").Build, (NewTool "b").Build, (NewTool "c").Build,
                 (NewTool "d").Build, (NewTool "e").Build])],
              Error := none }] :=
  (listToolsHandler_unpaged fiveTools (listRequest [("cursor", Value.str "7")])
    fiveTools_reachable (by decide) (Or.inr ⟨"7", 7, by rfl, by rfl⟩)).1



/-- C6, counterexample. Default page size (-1), registry with five tools, cursor
`"-1"`, which `Atoi` parses to the negative integer -1: the handler does not
reject the request, it answers with the full tools list and no error. -/
theorem listToolsHandler_negative_cursor_not_rejected :
    Atoi "-1" = some (-1)
      ∧ fiveTools.listToolsHandler (listRequest [("cursor", Value.str "-1")]) =
        .ret [{ Jsonrpc := "2.0", ID := 1,
                Result := some [("tools", ResultValue.tools
                  [(NewTool "a").Build, (NewTool "b").Build, (NewTool "c").Build,
                   (NewTool "d").Build, (NewTool "e").Build])],
                Error := none }] :=
  ⟨by rfl, by rfl⟩

/-- C6, amended. A cursor that parses to a negative integer is not rejected
when the registry is empty or pagination is disabled (`toolsPerPage ≤ 0`): in
every reachable state the handler then writes exactly one success envelope with
the whole catalog (the empty list for an empty registry) and no `nextCursor`.
Nothing is stated for a negative cursor with pagination enabled on a non-empty
registry. -/
theorem listToolsHandler_negative_cursor_ignored (s : server) (rpcReq : Request)
    (cs : String) (c : Int) (hs : Reachable s)
    (hcur : mapGet rpcReq.Params "cursor" = some (Value.str cs)) (hatoi : Atoi cs = some c)
    (_hneg : c < 0) (hcase : s.toolNames = [] ∨ s.toolsPerPage ≤ 0) :
    s.listToolsHandler rpcReq =
      .ret [{ Jsonrpc := "2.0", ID := rpcReq.ID,
              Result := some [("tools", ResultValue.tools s.catalog)], Error := none }] := by
  by_cases hempty : s.toolNames = []
  · simp [server.listToolsHandler, hempty, server.catalog, ResponseWriter.WriteResult,
      NewResponseWriter, JsonRPC]
  · have hp : s.toolsPerPage ≤ 0 := hcase.resolve_left hempty
    have hne0 : ¬ s.toolNames.length = 0 := by
      intro h0
      exact hempty (List.length_eq_zero.mp h0)
    simp only [server.listToolsHandler, hne0, if_false, hcur, hatoi]
    exact listToolsPage_disabled s (NewResponseWriter rpcReq.ID) c hs.inv hp hempty

theorem listToolsHandler_negative_cursor_ignored_witness :
    ((newServer "robot" "1").ToolsPerPage 2).listToolsHandler
        (listRequest [("cursor", Value.str "-4")]) =
      .ret [{ Jsonrpc := "2.0", ID := 1, Result := some [("tools", ResultValue.tools [])],
              Error := none }] :=
  listToolsHandler_negative_cursor_ignored ((newServer "robot" "1").ToolsPerPage 2)
    (listRequest [("cursor", Value.str "-4")]) "-4" (-4)
    (.toolsPerPage 2 (by decide) (by decide) (.new _ _)) (by rfl) (by rfl) (by decide)
    (Or.inl (by rfl))

/-- C7, counterexample. Empty registry, cursor `true` (a boolean, not a string):
the handler answers with a success envelope holding an empty tools list, not
with an error. -/
theorem listToolsHandler_empty_registry_ignores_cursor :
    (newServer "robot" "1").listToolsHandler (listRequest [("cursor", Value.bool true)]) =
      .ret [{ Jsonrpc := "2.0", ID := 1, Result := some [("tools", ResultValue.tools [])],
              Error := none }] := by
  rfl

/-- C7, amended. For every non-empty registry and every page size, a request
whose `params.cursor` is present but is not a string, or is a string on which
`Atoi` fails (not an optionally signed run of decimal digits, or out of the
range of `int`), gets exactly one envelope: an `InvalidParams` (-32602) error
with no result, hence no tools list. -/
theorem listToolsHandler_bad_cursor (s : server) (rpcReq : Request) (v : Value)
    (hne : s.toolNames ≠ []) (hcur : mapGet rpcReq.Params "cursor" = some v)
    (hbad : (∀ cs, v ≠ Value.str cs) ∨ ∃ cs, v = Value.str cs ∧ Atoi cs = none) :
    ∃ msg, s.listToolsHandler rpcReq =
      .ret [{ Jsonrpc := "2.0", ID := rpcReq.ID, Result := none,
              Error := some { Code := -32602, Message := msg } }] := by
  have hne0 : ¬ s.toolNames.length = 0 := by
    intro h0
    exact hne (List.length_eq_zero.mp h0)
  rcases hbad with hns | ⟨cs, hv, hatoi⟩
  · refine ⟨"invalid \x27cursor\x27 parameter type: expected int or string, got "
      ++ fmtType v, ?_⟩
    simp only [server.listToolsHandler, hne0, if_false, hcur]
    cases v with
    | str cs => exact absurd rfl (hns cs)
    | null => rfl
    | bool b => rfl
    | number f => rfl
    | array xs => rfl
    | object kvs => rfl
  · subst hv
    refine ⟨"cant convert \x27cursor\x27 parameter to int: " ++ cs, ?_⟩
    simp only [server.listToolsHandler, hne0, if_false, hcur, hatoi]
    rfl

theorem listToolsHandler_bad_cursor_witness :
    ∃ msg, fiveTools.listToolsHandler (listRequest [("cursor", Value.str "1x")]) =
      .ret [{ Jsonrpc := "2.0", ID := 1, Result := none,
              Error := some { Code := -32602, Message := msg } }] :=
  listToolsHandler_bad_cursor fiveTools (listRequest [("cursor", Value.str "1x")])
    (Value.str "1x") (by decide) (by rfl) (Or.inr ⟨"1x", rfl, by rfl⟩)

/-- C8, failing input. Page size 2, tools `a` to `e`, request `tools/list` with
cursor `"-1"`: `resolveHandler` resolves the list handler without error, and
running that handler panics, since it slices the name list from offset -2; the
serving step for the request therefore panics and writes no envelope. -/
theorem serve_negative_cursor_panics :
    (∃ h, (fiveTools.ToolsPerPage 2).resolveHandler (listRequest [("cursor", Value.str "-1")])
            = .ret (.ok h)
          ∧ h (listRequest [("cursor", Value.str "-1")]) = .panic)
      ∧ (fiveTools.ToolsPerPage 2).serve (listRequest [("cursor", Value.str "-1")]) = .panic :=
  ⟨⟨(fiveTools.ToolsPerPage 2).listToolsHandler, by rfl, by rfl⟩, by rfl⟩



/-! ## Argument validation -/

/-- C9. If `name` is the first name of `schema.required` (in the order of that
list) that is not a key of the arguments, `ValidateArguments` returns the
`InvalidParams` (-32602) error with message `missing required argument: name`,
whatever the properties of the schema and the other arguments are; it does not
panic. -/
theorem ValidateArguments_missing_required (d : ToolDefinition) (args : List (String × Value))
    (pre post : List String) (name : String)
    (hreq : d.InputSchema.Required = pre ++ name :: post)
    (hpre : ∀ f ∈ pre, (mapGet args f).isSome = true)
    (habs : mapGet args name = none) :
    d.ValidateArguments args =
      .ret (some { Code := -32602, Message := "missing required argument: " ++ name }) := by
  have h := required_first_absent args pre post name hpre habs
  simp only [ToolDefinition.ValidateArguments, hreq, h]
  rfl

theorem ValidateArguments_missing_required_witness :
    requiresX.ValidateArguments [] =
      .ret (some { Code := -32602, Message := "missing required argument: x" }) :=
  ValidateArguments_missing_required requiresX [] [] [] "x" (by rfl)
    (fun _ hf => absurd hf (List.not_mem_nil _)) (by rfl)

/-- C10, counterexample. The schema of `NewTool("t").Build()` has a properties
map that is present with zero entries and no required names; the argument map
with the one key `x` contains all required names, yet it is rejected with
`unexpected argument: x`. -/
theorem ValidateArguments_empty_properties_rejects :
    (NewTool "t").Build.InputSchema.Properties = some []
      ∧ (NewTool "t").Build.InputSchema.Required = []
      ∧ (NewTool "t").Build.ValidateArguments [("x", Value.number 1)] =
        .ret (some { Code := -32602, Message := "unexpected argument: x" }) :=
  ⟨by rfl, by rfl, by rfl⟩

/-- C10, amended. If the properties map of the input schema is absent (nil),
`ValidateArguments` accepts every argument map that contains all required
names: it returns no error and applies no unexpected-argument or type check. -/
theorem ValidateArguments_nil_properties (d : ToolDefinition) (args : List (String × Value))
    (hnil : d.InputSchema.Properties = none)
    (hreq : ∀ f ∈ d.InputSchema.Required, (mapGet args f).isSome = true) :
    d.ValidateArguments args = .ret none := by
  have h := (required_none_iff args d.InputSchema.Required).mpr hreq
  simp only [ToolDefinition.ValidateArguments, h, hnil]

theorem ValidateArguments_nil_properties_witness :
    ({ requiresX with InputSchema := ToolSchema.mk "object" "" none ["x"] none }
        : ToolDefinition).ValidateArguments
        [("y", Value.object []), ("x", Value.null)] = .ret none :=
  ValidateArguments_nil_properties _ _ (by rfl) (by decide)

/-! ## Lemmas on argument validation -/

theorem validateArgumentType_code (name : String) (v : DynType) (t : String) (e : ProtocolError)
    (h : validateArgumentType name v t = some e) : e.Code = -32602 := by
  unfold validateArgumentType at h
  split_ifs at h <;> cases v <;> simp [NewProtocolError, ErrorCodeInvalidParams] at h <;>
    (rw [← h])

/-- The verb `%T` on a decoded JSON value is the name of its dynamic type. -/
theorem fmtType_eq_name (v : Value) : fmtType v = v.dynType.name := by
  cases v <;> rfl

/-- With no nil pointer among the properties, the argument loop does not
panic: either every entry is declared and well typed and the loop returns no
error, or it returns an `InvalidParams` error. -/
theorem range_cases (props : List (String × Option ToolSchema))
    (hnn : ∀ k sp, mapGet props k = some sp → sp.isSome = true)
    (args : List (String × Value)) :
    (ValidateArguments.range props args = .ret none
        ∧ ∀ p ∈ args, ∃ sc, mapGet props p.1 = some (some sc)
            ∧ validateArgumentType p.1 p.2 sc.Type_ = none)
      ∨ ∃ e, ValidateArguments.range props args = .ret (some e) ∧ e.Code = -32602 := by
  induction args with
  | nil => left; exact ⟨rfl, by simp⟩
  | cons p rest ih =>
    obtain ⟨k, v⟩ := p
    unfold ValidateArguments.range
    cases hk : mapGet props k with
    | none => right; exact ⟨_, rfl, rfl⟩
    | some sp =>
      cases sp with
      | none => have := hnn k none hk; simp at this
      | some sc =>
        cases hv : validateArgumentType k v sc.Type_ with
        | some err =>
          right
          simp only [hv]
          exact ⟨err, rfl, validateArgumentType_code k v sc.Type_ err hv⟩
        | none =>
          simp only [hv]
          rcases ih with ⟨hnone, hall⟩ | herr
          · left
            refine ⟨hnone, ?_⟩
            intro p hp
            rcases List.mem_cons.mp hp with rfl | hp
            · exact ⟨sc, hk, hv⟩
            · exact hall p hp
          · right; exact herr

theorem mapGet_mem {β : Type} (m : List (String × β)) (k : String) (v : β)
    (h : mapGet m k = some v) : (k, v) ∈ m := by
  induction m with
  | nil => simp [mapGet] at h
  | cons p m ih =>
    obtain ⟨k', v'⟩ := p
    unfold mapGet at h ih
    simp only [List.lookup_cons] at h
    cases hk : (k == k') with
    | true =>
      simp only [hk] at h
      have hkk : k = k' := by simpa using hk
      cases h
      rw [hkk]
      exact List.mem_cons_self _ _
    | false =>
      simp only [hk] at h
      exact List.mem_cons_of_mem _ (ih h)

theorem nonNil_of_all (props : List (String × Option ToolSchema))
    (hall : ∀ p ∈ props, p.2.isSome = true) :
    ∀ k sp, mapGet props k = some sp → sp.isSome = true := by
  intro k sp h
  exact hall (k, sp) (mapGet_mem props k sp h)

/-- The argument loop when one key is undeclared and every entry under another
key is declared and well typed: the error names that key, wherever the key
comes in the iteration. -/
theorem range_only_defect (props : List (String × Option ToolSchema)) (key : String)
    (hundecl : mapGet props key = none) (args : List (String × Value))
    (hkey : key ∈ args.map Prod.fst)
    (hothers : ∀ p ∈ args, p.1 ≠ key → ∃ sc, mapGet props p.1 = some (some sc)
        ∧ validateArgumentType p.1 p.2 sc.Type_ = none) :
    ValidateArguments.range props args
      = .ret (some { Code := -32602, Message := "unexpected argument: " ++ key }) := by
  induction args with
  | nil => simp at hkey
  | cons p rest ih =>
    obtain ⟨k, v⟩ := p
    unfold ValidateArguments.range
    by_cases hk : k = key
    · subst hk
      simp only [hundecl]
      rfl
    · obtain ⟨sc, hsc, hv⟩ := hothers (k, v) (List.mem_cons_self _ _) hk
      simp only [hsc, hv]
      apply ih
      · simp only [List.map_cons, List.mem_cons] at hkey
        rcases hkey with h | h
        · exact absurd h.symm hk
        · exact h
      · intro p hp hne
        exact hothers p (List.mem_cons_of_mem _ hp) hne



theorem ValidateArguments_never_panics (d : ToolDefinition) (args : List (String × Value))
    (hnn : d.InputSchema.propertiesNonNil = true) :
    d.ValidateArguments args = .ret none
      ∨ ∃ e, d.ValidateArguments args = .ret (some e) ∧ e.Code = -32602 := by
  unfold ToolDefinition.ValidateArguments
  cases hr : ValidateArguments.required args d.InputSchema.Required with
  | some err =>
    right
    refine ⟨err, rfl, ?_⟩
    clear hnn
    generalize d.InputSchema.Required = req at hr
    induction req with
    | nil => simp [ValidateArguments.required] at hr
    | cons f rest ih =>
      unfold ValidateArguments.required at hr
      split_ifs at hr
      · exact ih hr
      · simp [NewProtocolError, ErrorCodeInvalidParams] at hr
        rw [← hr]
  | none =>
    cases hp : d.InputSchema.Properties with
    | none => left; rfl
    | some props =>
      have hall : ∀ p ∈ props, p.2.isSome = true := by
        simpa [ToolSchema.propertiesNonNil, hp] using hnn
      rcases range_cases props (nonNil_of_all props hall) args with ⟨h, _⟩ | h
      · left; exact h
      · right; exact h

/-- C11, counterexample. The schema declares the one property `x`, stored as a
nil pointer; the arguments `x: 1, y: 2` contain every required name (there is
none) and the undeclared key `y`. When the iteration reaches `x` first,
`ValidateArguments` panics on `schema.Type` and returns no error at all. -/
theorem ValidateArguments_nil_pointer_panics :
    nilPointerX.InputSchema.Properties = some [("x", none)]
      ∧ nilPointerX.InputSchema.Required = []
      ∧ mapGet [("x", (none : Option ToolSchema))] "y" = none
      ∧ nilPointerX.ValidateArguments [("x", Value.number 1), ("y", Value.number 2)] = .panic :=
  ⟨by rfl, by rfl, by rfl, by rfl⟩

/-- C11, amended. Closed world. The properties map of the input schema is present and
none of its values is a nil pointer (in particular a schema with at least one
declared property, as the builder makes it), and the arguments contain all
required names. If some key of the arguments is not a declared property then
`ValidateArguments` returns an `InvalidParams` (-32602) error, whatever the
iteration order of the argument map; and if every entry under another key is
declared and passes its type check, the error is `unexpected argument: key`. -/
theorem ValidateArguments_closed_world (d : ToolDefinition) (args : List (String × Value))
    (props : List (String × Option ToolSchema)) (key : String)
    (hprops : d.InputSchema.Properties = some props)
    (hnn : ∀ p ∈ props, p.2.isSome = true)
    (hreq : ∀ f ∈ d.InputSchema.Required, (mapGet args f).isSome = true)
    (hkey : key ∈ args.map Prod.fst) (hundecl : mapGet props key = none) :
    (∃ e, d.ValidateArguments args = .ret (some e) ∧ e.Code = -32602)
      ∧ ((∀ p ∈ args, p.1 ≠ key → ∃ sc, mapGet props p.1 = some (some sc)
            ∧ validateArgumentType p.1 p.2 sc.Type_ = none) →
          d.ValidateArguments args
            = .ret (some { Code := -32602, Message := "unexpected argument: " ++ key })) := by
  have hr := (required_none_iff args d.InputSchema.Required).mpr hreq
  have hva : d.ValidateArguments args = ValidateArguments.range props args := by
    simp only [ToolDefinition.ValidateArguments, hr, hprops]
  rw [hva]
  refine ⟨?_, fun hothers => range_only_defect props key hundecl args hkey hothers⟩
  rcases range_cases props (nonNil_of_all props hnn) args with ⟨_, hall⟩ | h
  · obtain ⟨p, hp, hpk⟩ := List.mem_map.mp hkey
    obtain ⟨sc, hsc, _⟩ := hall p hp
    rw [hpk, hundecl] at hsc
    cases hsc
  · exact h

theorem ValidateArguments_closed_world_witness :
    numberX.ValidateArguments [("x", Value.number 1), ("y", Value.number 2)]
        = .ret (some { Code := -32602, Message := "unexpected argument: y" })
      ∧ numberX.ValidateArguments [("y", Value.number 2), ("x", Value.number 1)]
        = .ret (some { Code := -32602, Message := "unexpected argument: y" }) :=
  ⟨(ValidateArguments_closed_world numberX [("x", Value.number 1), ("y", Value.number 2)]
      [("x", some (ToolSchema.mk "number" "" none [] none))] "y" (by rfl) (by decide)
      (by decide) (by decide) (by rfl)).2
      (by
        intro p hp hne
        simp only [List.mem_cons, List.mem_singleton, List.not_mem_nil, or_false] at hp
        rcases hp with rfl | rfl
        · exact ⟨_, rfl, rfl⟩
        · exact absurd rfl hne),
   (ValidateArguments_closed_world numberX [("y", Value.number 2), ("x", Value.number 1)]
      [("x", some (ToolSchema.mk "number" "" none [] none))] "y" (by rfl) (by decide)
      (by decide) (by decide) (by rfl)).2
      (by
        intro p hp hne
        simp only [List.mem_cons, List.mem_singleton, List.not_mem_nil, or_false] at hp
        rcases hp with rfl | rfl
        · exact absurd rfl hne
        · exact ⟨_, rfl, rfl⟩)⟩

/-- C12, counterexample. Two rejections whose message is not of the form
`argument 'x' must be a <type>`: an object value under the declared type
`object`, and a string value under the declared type `array`. -/
theorem validateArgumentType_other_messages :
    validateArgumentType "x" (Value.object []) "object"
        = some { Code := -32602,
                 Message := "object arguments are not supported. argument \x27x\x27 is an object. " }
      ∧ validateArgumentType "x" (Value.object []) "object"
        ≠ some { Code := -32602, Message := mustBeMessage "x" "object" }
      ∧ validateArgumentType "x" (Value.str "abc") "array"
        = some { Code := -32602, Message := "argument \x27x\x27 must be an array, got string" }
      ∧ validateArgumentType "x" (Value.str "abc") "array"
        ≠ some { Code := -32602, Message := mustBeMessage "x" "array" } :=
  ⟨by rfl, by decide, by rfl, by decide⟩

/-- C12, amended. `validateArgumentType name v t` accepts exactly according to
the table (`string`: strings, `number`: floating-point numbers, `boolean`:
booleans, `array`: sequences, so not null; any other `t`: every value but an
object), and every rejection is an `InvalidParams` (-32602) error whose message
is `argument 'name' must be a t` for `string`, `number` and `boolean`,
`argument 'name' must be an array, got T` (`T` the Go type of the value) for
`array`, and `object arguments are not supported. argument 'name' is an
object. ` for every other declared type; in particular the declared type
`object` rejects every object. -/
theorem validateArgumentType_table (name : String) (v : Value) (t : String) :
    (validateArgumentType name v t = none ↔ typeTable t v = true)
      ∧ (typeTable t v = false →
          validateArgumentType name v t
            = some { Code := -32602, Message := rejectionMessage name v t })
      ∧ ∀ kvs, validateArgumentType name (Value.object kvs) "object"
          = some { Code := -32602,
                   Message := "object arguments are not supported. argument \x27" ++ name
                     ++ "\x27 is an object. " } := by
  refine ⟨?_, ?_, fun kvs => by rfl⟩
  · unfold validateArgumentType typeTable
    split_ifs <;> cases v <;> simp [Value.dynType]
  · unfold validateArgumentType typeTable rejectionMessage mustBeMessage
    split_ifs <;> cases v <;>
      simp_all [NewProtocolError, ErrorCodeInvalidParams, String.append_assoc, Value.dynType,
        DynType.name, fmtType]

theorem validateArgumentType_table_witness :
    validateArgumentType "x" (Value.str "abc") "number"
        = some { Code := -32602, Message := "argument \x27x\x27 must be a number" }
      ∧ validateArgumentType "x" (Value.number (7 / 2)) "number" = none :=
  ⟨(validateArgumentType_table "x" (Value.str "abc") "number").2.1 (by rfl),
   (validateArgumentType_table "x" (Value.number (7 / 2)) "number").1.mpr (by rfl)⟩

/-! ## Dispatch -/

/-- C13. `resolveHandler` routes by exact match on the method, whatever the
params are: `initialize` gives the initialize handler, `notifications/initialized`
and `ping` the empty-result handler, `tools/list` the list handler, each with
no error; every method other than these four and `tools/call` gives no handler
and the `MethodNotFound` (-32601) error `method not found: <method>`. -/
theorem resolveHandler_routes (s : server) (rpcReq : Request) :
    (rpcReq.Method = "initialize" →
        s.resolveHandler rpcReq = .ret (.ok s.initializeHandler))
      ∧ (rpcReq.Method = "notifications/initialized" ∨ rpcReq.Method = "ping" →
        s.resolveHandler rpcReq = .ret (.ok s.okEmptyResponse))
      ∧ (rpcReq.Method = "tools/list" →
        s.resolveHandler rpcReq = .ret (.ok s.listToolsHandler))
      ∧ (rpcReq.Method ≠ "initialize" → rpcReq.Method ≠ "notifications/initialized" →
          rpcReq.Method ≠ "ping" → rpcReq.Method ≠ "tools/list" →
          rpcReq.Method ≠ "tools/call" →
        s.resolveHandler rpcReq
          = .ret (.error { Code := -32601,
                           Message := "method not found: " ++ rpcReq.Method })) := by
  refine ⟨?_, ?_, ?_, ?_⟩
  · intro h
    simp [server.resolveHandler, h, MethodNotificationsInitialized, MethodPing,
      MethodInitialize]
  · intro h
    simp [server.resolveHandler, h, MethodNotificationsInitialized, MethodPing]
  · intro h
    simp [server.resolveHandler, h, MethodNotificationsInitialized, MethodPing,
      MethodInitialize, MethodToolsList]
  · intro h1 h2 h3 h4 h5
    simp [server.resolveHandler, h1, h2, h3, h4, h5, MethodNotificationsInitialized,
      MethodPing, MethodInitialize, MethodToolsList, MethodToolsCall, NewProtocolError,
      ErrorCodeMethodNotFound]

theorem resolveHandler_routes_witness :
    fiveTools.resolveHandler
        { Jsonrpc := "2.0", ID := 1, Method := "foo/bar", Params := [("cursor", Value.null)] }
      = .ret (.error { Code := -32601, Message := "method not found: foo/bar" }) :=
  (resolveHandler_routes fiveTools
    { Jsonrpc := "2.0", ID := 1, Method := "foo/bar", Params := [("cursor", Value.null)] }).2.2.2
    (by decide) (by decide) (by decide) (by decide) (by decide)

/-- For the method `tools/call`, `resolveHandler` is the `tools/call` case of
its switch. -/
theorem resolveHandler_call_eq (s : server) (rpcReq : Request)
    (hm : rpcReq.Method = "tools/call") :
    s.resolveHandler rpcReq =
      (match mapGet rpcReq.Params "name" with
        | none => GoResult.ret (Except.error (NewProtocolError ErrorCodeInvalidParams
            "missing or invalid \x27name\x27 parameter"))
        | some toolName =>
          match toolName with
          | .str toolNameStr =>
            match mapGet s.tools toolNameStr with
            | none => .ret (.error (NewProtocolError ErrorCodeInvalidParams
                ("tool not found: " ++ toolNameStr)))
            | some tool =>
              match mapGet rpcReq.Params "arguments" with
              | none =>
                if tool.toolDefinition.InputSchema.Required.length > 0 then
                  .ret (.error (NewProtocolError ErrorCodeInvalidParams
                    ("missing required \x27arguments\x27 parameter for tool: " ++ toolNameStr)))
                else .ret (.ok tool.handler)
              | some args =>
                match args with
                | .object argsMap =>
                  match tool.toolDefinition.ValidateArguments argsMap with
                  | .panic => .panic
                  | .ret (some err) => .ret (.error err)
                  | .ret none => .ret (.ok tool.handler)
                | _ => .ret (.error (NewProtocolError ErrorCodeInvalidParams
                    ("invalid \x27arguments\x27 parameter type: expected object, got "
                      ++ fmtType args)))
          | _ => .ret (.error (NewProtocolError ErrorCodeInvalidParams
              ("invalid \x27name\x27 parameter type: expected string, got "
                ++ fmtType toolName)))) := by
    simp [server.resolveHandler, hm, MethodNotificationsInitialized, MethodPing,
      MethodInitialize, MethodToolsList, MethodToolsCall]

/-- C14. For a `tools/call` request `resolveHandler` returns no handler and an
`InvalidParams` (-32602) error when `params.name` is absent (in particular when
params is absent), when `params.name` is not a string, and when it names no
registered tool; in the last case the message is `tool not found: <name>` and
the code is not `ToolNotFound` (-32000). -/
theorem resolveHandler_call_name_errors (s : server) (rpcReq : Request)
    (hm : rpcReq.Method = "tools/call") :
    (mapGet rpcReq.Params "name" = none →
        s.resolveHandler rpcReq
          = .ret (.error { Code := -32602,
                           Message := "missing or invalid \x27name\x27 parameter" }))
      ∧ (∀ v, mapGet rpcReq.Params "name" = some v → (∀ n, v ≠ Value.str n) →
        s.resolveHandler rpcReq
          = .ret (.error { Code := -32602,
                           Message := "invalid \x27name\x27 parameter type: expected string, got "
                             ++ fmtType v }))
      ∧ (∀ n, mapGet rpcReq.Params "name" = some (Value.str n) → mapGet s.tools n = none →
        s.resolveHandler rpcReq
            = .ret (.error { Code := -32602, Message := "tool not found: " ++ n })
          ∧ (-32602 : Int) ≠ ErrorCodeToolNotFound) := by
  rw [resolveHandler_call_eq s rpcReq hm]
  refine ⟨?_, ?_, ?_⟩
  · intro h
    simp only [h]
    rfl
  · intro v h hns
    simp only [h]
    cases v with
    | str n => exact absurd rfl (hns n)
    | null => rfl
    | bool b => rfl
    | number f => rfl
    | array xs => rfl
    | object kvs => rfl
  · intro n h ht
    simp only [h, ht]
    exact ⟨rfl, by decide⟩

theorem resolveHandler_call_name_errors_witness :
    fiveTools.resolveHandler (callRequest [("name", Value.str "nope")])
      = .ret (.error { Code := -32602, Message := "tool not found: nope" }) :=
  ((resolveHandler_call_name_errors fiveTools (callRequest [("name", Value.str "nope")])
    (by rfl)).2.2 "nope" (by rfl) (by rfl)).1

/-- C15, counterexample. The registered tool `nil-x` declares the property `x`
as a nil pointer. For the call with `arguments: x: 1` the validation of the
arguments panics, so `resolveHandler` returns neither the handler nor an
`InvalidParams` error. -/
theorem resolveHandler_nil_pointer_panics :
    mapGet ((newServer "robot" "1").WithTool nilPointerX echoHandler).tools "nil-x"
        = some ⟨echoHandler.MCPHandler nilPointerX, nilPointerX⟩
      ∧ nilPointerX.ValidateArguments [("x", Value.number 1)] = .panic
      ∧ ((newServer "robot" "1").WithTool nilPointerX echoHandler).resolveHandler
          (callRequest [("name", Value.str "nil-x"),
                        ("arguments", Value.object [("x", Value.number 1)])]) = .panic :=
  ⟨by rfl, by rfl, by rfl⟩

/-- C15, amended. A `tools/call` request names the registered tool entry `t`. Then
`resolveHandler` returns the handler of `t` if and only if `arguments` is absent
and the input schema of `t` has no required name, or `arguments` is an object
on which `ValidateArguments` returns no error. In every other case (absent with
required names, null or another non-object value, validation error), for a
schema whose properties hold no nil pointer, it returns an `InvalidParams`
(-32602) error and no handler. -/
theorem resolveHandler_call_gate (s : server) (rpcReq : Request) (name : String)
    (t : serverTool) (hm : rpcReq.Method = "tools/call")
    (hname : mapGet rpcReq.Params "name" = some (Value.str name))
    (ht : mapGet s.tools name = some t) :
    (s.resolveHandler rpcReq = .ret (.ok t.handler) ↔ argumentsAccepted t rpcReq)
      ∧ (argumentsAccepted t rpcReq → s.resolveHandler rpcReq = .ret (.ok t.handler))
      ∧ (t.toolDefinition.InputSchema.propertiesNonNil = true → ¬ argumentsAccepted t rpcReq →
          ∃ e, s.resolveHandler rpcReq = .ret (.error e) ∧ e.Code = -32602) := by
  have hroute := resolveHandler_call_eq s rpcReq hm
  simp only [hname, ht] at hroute
  have hacc : argumentsAccepted t rpcReq → s.resolveHandler rpcReq = .ret (.ok t.handler) := by
    rintro (⟨hnone, hreq⟩ | ⟨m, hsome, hok⟩)
    · rw [hroute]
      simp [hnone, hreq]
    · rw [hroute]
      simp [hsome, hok]
  have hrej : ¬ argumentsAccepted t rpcReq →
      s.resolveHandler rpcReq ≠ .ret (.ok t.handler)
        ∧ (t.toolDefinition.InputSchema.propertiesNonNil = true →
            ∃ e, s.resolveHandler rpcReq = .ret (.error e) ∧ e.Code = -32602) := by
    intro hna
    rw [hroute]
    cases hargs : mapGet rpcReq.Params "arguments" with
    | none =>
      have hreq : t.toolDefinition.InputSchema.Required ≠ [] :=
        fun h => hna (Or.inl ⟨hargs, h⟩)
      have hlen : t.toolDefinition.InputSchema.Required.length > 0 :=
        List.length_pos.mpr hreq
      simp only [hlen, if_true]
      exact ⟨by simp, fun _ => ⟨_, rfl, rfl⟩⟩
    | some args =>
      cases args with
      | object m =>
        simp only []
        cases hv : t.toolDefinition.ValidateArguments m with
        | panic =>
          refine ⟨by simp, fun hnn => ?_⟩
          rcases ValidateArguments_never_panics t.toolDefinition m hnn with h | ⟨e, h, _⟩
          · rw [h] at hv; cases hv
          · rw [h] at hv; cases hv
        | ret r =>
          cases r with
          | none => exact absurd (Or.inr ⟨m, hargs, hv⟩) hna
          | some err =>
            refine ⟨by simp, fun hnn => ⟨err, rfl, ?_⟩⟩
            rcases ValidateArguments_never_panics t.toolDefinition m hnn with h | ⟨e, h, he⟩
            · rw [h] at hv; cases hv
            · rw [h] at hv
              cases hv
              exact he
      | null => exact ⟨by simp, fun _ => ⟨_, rfl, rfl⟩⟩
      | bool b => exact ⟨by simp, fun _ => ⟨_, rfl, rfl⟩⟩
      | number f => exact ⟨by simp, fun _ => ⟨_, rfl, rfl⟩⟩
      | str x => exact ⟨by simp, fun _ => ⟨_, rfl, rfl⟩⟩
      | array xs => exact ⟨by simp, fun _ => ⟨_, rfl, rfl⟩⟩
  refine ⟨⟨fun h => ?_, hacc⟩, hacc, fun hnn hna => (hrej hna).2 hnn⟩
  by_contra hna
  exact (hrej hna).1 h

theorem resolveHandler_call_gate_witness :
    ((newServer "robot" "1").WithTool requiresX echoHandler).resolveHandler
        (callRequest [("name", Value.str "needs-x"),
                      ("arguments", Value.object [("x", Value.str "v")])])
        = .ret (.ok (echoHandler.MCPHandler requiresX))
      ∧ ∃ e, ((newServer "robot" "1").WithTool requiresX echoHandler).resolveHandler
            (callRequest [("name", Value.str "needs-x")]) = .ret (.error e)
          ∧ e.Code = -32602 :=
  ⟨(resolveHandler_call_gate ((newServer "robot" "1").WithTool requiresX echoHandler)
      (callRequest [("name", Value.str "needs-x"),
                    ("arguments", Value.object [("x", Value.str "v")])])
      "needs-x" ⟨echoHandler.MCPHandler requiresX, requiresX⟩ (by rfl) (by rfl) (by rfl)).2.1
      (Or.inr ⟨[("x", Value.str "v")], by rfl, by rfl⟩),
   (resolveHandler_call_gate ((newServer "robot" "1").WithTool requiresX echoHandler)
      (callRequest [("name", Value.str "needs-x")])
      "needs-x" ⟨echoHandler.MCPHandler requiresX, requiresX⟩ (by rfl) (by rfl) (by rfl)).2.2
      (by rfl)
      (by
        rintro (⟨_, hreq⟩ | ⟨m, hsome, _⟩)
        · exact absurd hreq (by decide)
        · have hnone : mapGet (callRequest [("name", Value.str "needs-x")]).Params "arguments"
              = none := by rfl
          rw [hnone] at hsome
          cases hsome)⟩

/-! ## The tool handler and result encoding -/

/-- The handler built by `ToolFunc.MCPHandler`, by the results of the tool
function on `handlerArguments`. -/
theorem MCPHandler_eq (fmtFloat : ℚ → String) (f : ToolFunc) (d : ToolDefinition)
    (req : Request) :
    ToolFunc.MCPHandler fmtFloat f d req =
      (match f (handlerArguments req) with
        | (_, some (.protocol e)) =>
          GoResult.ret [(NewResponseWriter req.ID).WriteError e.Code e.Message]
        | (_, some (.other text)) =>
          .ret [writeError (NewResponseWriter req.ID) (errfmt req.ID text)]
        | (result, none) =>
          match validateOutput d result with
          | .panic => .panic
          | .ret (some err) =>
            .ret [writeError (NewResponseWriter req.ID) (errfmt req.ID err.Message)]
          | .ret none =>
            match writeResult fmtFloat (NewResponseWriter req.ID) (.tool result) with
            | .error err => .ret [writeError (NewResponseWriter req.ID) (errfmt req.ID err)]
            | .ok response => .ret [response]) := by
  rfl

theorem writeResult_no_error (fmtFloat : ℚ → String) (rw : ResponseWriter) (r : AnyResult)
    (resp : Response) (h : writeResult fmtFloat rw r = .ok resp) : resp.Error = none := by
  unfold writeResult at h
  split at h <;> first
    | (cases h; rfl)
    | cases h
    | (split at h <;> first
        | (cases h; rfl)
        | cases h)

/-- C16. The handler built by `ToolFunc.MCPHandler`. If the tool function
returns an error that is not a `ProtocolError`, the handler writes one success
envelope whose result is `content: [one text item], isError: true`, with no
error field. If it returns a `ProtocolError`, the handler writes one envelope
whose error field has exactly the code and message of that error. And an
envelope written by the handler has an error field only in that second case. -/
theorem MCPHandler_error_tiers (fmtFloat : ℚ → String) (f : ToolFunc) (d : ToolDefinition)
    (req : Request) :
    (∀ r text, f (handlerArguments req) = (r, some (ToolError.other text)) →
        ToolFunc.MCPHandler fmtFloat f d req =
          .ret [{ Jsonrpc := "2.0", ID := req.ID,
                  Result := some
                    [("content", ResultValue.content
                        [ContentItem.text { Type_ := "text", Text := errfmt req.ID text }]),
                     ("isError", ResultValue.json (Value.bool true))],
                  Error := none }])
      ∧ (∀ r e, f (handlerArguments req) = (r, some (ToolError.protocol e)) →
        ToolFunc.MCPHandler fmtFloat f d req =
          .ret [{ Jsonrpc := "2.0", ID := req.ID, Result := none,
                  Error := some { Code := e.Code, Message := e.Message } }])
      ∧ (∀ resps resp, ToolFunc.MCPHandler fmtFloat f d req = .ret resps → resp ∈ resps →
          resp.Error ≠ none →
        ∃ r e, f (handlerArguments req) = (r, some (ToolError.protocol e))
          ∧ resp.Error = some { Code := e.Code, Message := e.Message }) := by
  rw [MCPHandler_eq]
  refine ⟨?_, ?_, ?_⟩
  · intro r text h
    rw [h]
    rfl
  · intro r e h
    rw [h]
    rfl
  · intro resps resp hret hmem herr
    rcases hf : f (handlerArguments req) with ⟨r, err⟩
    rw [hf] at hret
    cases err with
    | some te =>
      cases te with
      | protocol e =>
        simp only [GoResult.ret.injEq] at hret
        subst hret
        simp only [List.mem_singleton] at hmem
        subst hmem
        exact ⟨r, e, rfl, rfl⟩
      | other text =>
        simp only [GoResult.ret.injEq] at hret
        subst hret
        simp only [List.mem_singleton] at hmem
        subst hmem
        exact absurd rfl herr
    | none =>
      simp only [] at hret
      cases hv : validateOutput d r with
      | panic => rw [hv] at hret; cases hret
      | ret o =>
        rw [hv] at hret
        cases o with
        | some e =>
          simp only [GoResult.ret.injEq] at hret
          subst hret
          simp only [List.mem_singleton] at hmem
          subst hmem
          exact absurd rfl herr
        | none =>
          simp only [] at hret
          cases hw : writeResult fmtFloat (NewResponseWriter req.ID) (.tool r) with
          | error msg =>
            rw [hw] at hret
            simp only [GoResult.ret.injEq] at hret
            subst hret
            simp only [List.mem_singleton] at hmem
            subst hmem
            exact absurd rfl herr
          | ok response =>
            rw [hw] at hret
            simp only [GoResult.ret.injEq] at hret
            subst hret
            simp only [List.mem_singleton] at hmem
            subst hmem
            exact absurd (writeResult_no_error _ _ _ _ hw) herr

theorem MCPHandler_error_tiers_witness :
    ToolFunc.MCPHandler (fun _ => "0") failingTool numberX (callRequest []) =
      .ret [{ Jsonrpc := "2.0", ID := 1,
              Result := some
                [("content", ResultValue.content
                    [ContentItem.text
                      { Type_ := "text",
                        Text := "failed to write response for reqID: 1: boom" }]),
                 ("isError", ResultValue.json (Value.bool true))],
              Error := none }] :=
  (MCPHandler_error_tiers (fun _ => "0") failingTool numberX (callRequest [])).1
    (ToolResult.text (NewToolResultText "")) "boom" (by rfl)

/-- C17, failing input. The tool `outputs-k` declares an output schema that
requires the field `k`, and its function returns the empty structured result.
`validateOutput` raises the `ProtocolError` with code -32602 and message
`missing required output fields: k`, and serving the `tools/call` request
writes one success envelope with `isError: true` and no error field, in which
that code does not appear. -/
theorem serve_output_validation_error_is_tool_error :
    validateOutput outputsK (ToolResult.structured (some []))
        = .ret (some { Code := -32602, Message := "missing required output fields: k" })
      ∧ (outputServer anyFloat).serve (callRequest [("name", Value.str "outputs-k")])
        = .ret [{ Jsonrpc := "2.0", ID := 1,
                  Result := some
                    [("content", ResultValue.content
                        [ContentItem.text
                          { Type_ := "text",
                            Text := "failed to write response for reqID: 1: "
                              ++ "missing required output fields: k" }]),
                     ("isError", ResultValue.json (Value.bool true))],
                  Error := none }] :=
  ⟨by rfl, by rfl⟩

theorem UnionAdd.apply_toArray (u : ToolResultUnion) (a : UnionAdd) :
    (UnionAdd.apply u a).toArray = u.toArray ++ [a.block] := by
  cases a <;>
    simp [UnionAdd.apply, UnionAdd.block, ToolResultUnion.toArray, ToolResultUnion.AddText,
      ToolResultUnion.AddImage, ToolResultUnion.AddAudio,
      ToolResultUnion.AddEmbeddedTextResource, ToolResultUnion.AddEmbeddedBinaryResource,
      ToolResultUnion.AddResourceLink, toolResultUnionItem.toAny, toolResultUnionItem.zero]

theorem foldl_apply_toArray (adds : List UnionAdd) (u : ToolResultUnion) :
    (adds.foldl UnionAdd.apply u).toArray = u.toArray ++ adds.map UnionAdd.block := by
  induction adds generalizing u with
  | nil => simp
  | cons a rest ih =>
    simp only [List.foldl_cons, List.map_cons]
    rw [ih, UnionAdd.apply_toArray]
    simp

theorem buildUnion_toArray (adds : List UnionAdd) :
    (buildUnion adds).toArray = adds.map UnionAdd.block := by
  unfold buildUnion
  rw [foldl_apply_toArray]
  simp [NewToolResultUnion, ToolResultUnion.toArray]

/-- C19. Results other than a structured one that `writeResult` accepts. The
envelope written is a success whose result is `content: C, isError: false` and
nothing else (`contentEnvelope`). `C` is the one-element list of the value for
a text, a media, a resource link and an embedded text or binary resource; for a
slice of texts, a slice of media and a `[]any` it lists the elements in order;
for the union built by a list of `Add` calls it lists the blocks of these calls
in order, so it is as long as the list of calls, no item is nil, and each item
carries the type tag of its call (`text`, `image`, `audio`, `resource`,
`resource_link`). -/
theorem writeResult_content (fmtFloat : ℚ → String) (rw : ResponseWriter) :
    (∀ v, writeResult fmtFloat rw (.tool (.text v)) = .ok (contentEnvelope rw [.text v]))
      ∧ (∀ v, writeResult fmtFloat rw (.tool (.media v)) = .ok (contentEnvelope rw [.media v]))
      ∧ (∀ v, writeResult fmtFloat rw (.tool (.resourceLink v))
          = .ok (contentEnvelope rw [.resourceLink v]))
      ∧ (∀ v, writeResult fmtFloat rw (.tool (.embeddedText v))
          = .ok (contentEnvelope rw [.embeddedText v]))
      ∧ (∀ v, writeResult fmtFloat rw (.tool (.embeddedBinary v))
          = .ok (contentEnvelope rw [.embeddedBinary v]))
      ∧ (∀ vs, writeResult fmtFloat rw (.tool (.texts vs))
          = .ok (contentEnvelope rw (vs.map ContentItem.text)))
      ∧ (∀ vs, writeResult fmtFloat rw (.tool (.medias vs))
          = .ok (contentEnvelope rw (vs.map ContentItem.media)))
      ∧ (∀ vs, writeResult fmtFloat rw (.anySlice vs) = .ok (contentEnvelope rw vs))
      ∧ (∀ adds, writeResult fmtFloat rw (.tool (.union (buildUnion adds)))
          = .ok (contentEnvelope rw (adds.map UnionAdd.block)))
      ∧ (∀ adds : List UnionAdd, (adds.map UnionAdd.block).length = adds.length
          ∧ ∀ a ∈ adds, a.block ≠ ContentItem.null ∧ a.block.typeTag = some a.tag)
      ∧ ∀ C, mapGet ((contentEnvelope rw C).Result.getD []) "structuredContent" = none := by
  refine ⟨fun _ => rfl, fun _ => rfl, fun _ => rfl, fun _ => rfl, fun _ => rfl, fun _ => rfl,
    fun _ => rfl, fun _ => rfl, ?_, ?_, fun _ => by rfl⟩
  · intro adds
    have h : writeResult fmtFloat rw (.tool (.union (buildUnion adds)))
        = .ok (contentEnvelope rw (buildUnion adds).toArray) := rfl
    rw [h, buildUnion_toArray]
  · intro adds
    refine ⟨by simp, ?_⟩
    intro a _
    cases a <;> exact ⟨by simp [UnionAdd.block], by rfl⟩

theorem writeResult_content_witness :
    writeResult anyFloat (NewResponseWriter 1)
        (.tool (.union (((NewToolResultUnion.AddText "hello").AddImage [77, 97, 110]
          "image/png").AddResourceLink "file:///a" "a" "" "text/plain")))
      = .ok { Jsonrpc := "2.0", ID := 1,
              Result := some
                [("content", ResultValue.content
                    [ContentItem.text { Type_ := "text", Text := "hello" },
                     ContentItem.media
                       { Type_ := "image", Data := "TWFu", MimeType := "image/png" },
                     ContentItem.resourceLink
                       { Type_ := "resource_link", URI := "file:///a", Name := "a", Title := "",
                         Description := "", MimeType := "text/plain", Size := 0 }]),
                 ("isError", ResultValue.json (Value.bool false))],
              Error := none }
      ∧ (UnionAdd.image [77, 97, 110] "image/png").block.typeTag = some "image" :=
  ⟨(writeResult_content anyFloat (NewResponseWriter 1)).2.2.2.2.2.2.2.2.1
      [UnionAdd.text "hello", UnionAdd.image [77, 97, 110] "image/png",
       UnionAdd.resourceLink "file:///a" "a" "" "text/plain"],
   (((writeResult_content anyFloat (NewResponseWriter 1)).2.2.2.2.2.2.2.2.2.1
      [UnionAdd.text "hello", UnionAdd.image [77, 97, 110] "image/png"]).2
      (UnionAdd.image [77, 97, 110] "image/png") (by simp)).2⟩

/-- C20, failing input. A one-element slice of embedded text resources, a value
of the member type `[]ToolResultEmbeddedResource[resources.ResourceText]` of
the `ToolResult` constraint: `writeResult` returns the error `invalid tool
result type: ...`, and the handler bound to a tool function that returns this
value answers with a tool-level error instead of the content. The slice of
embedded binary resources fails alike. -/
theorem writeResult_embedded_slice_rejected :
    writeResult anyFloat (NewResponseWriter 1)
        (.tool (.embeddedTexts
          [NewToolResultEmbeddedTextResource "file:///a" "a" "" "text/plain" "hello"]))
        = .error ("invalid tool result type: " ++ fmtTypeEmbedded false)
      ∧ writeResult anyFloat (NewResponseWriter 1) (.tool (.embeddedBinaries []))
        = .error ("invalid tool result type: " ++ fmtTypeEmbedded true)
      ∧ ToolFunc.MCPHandler anyFloat embeddedSlice numberX (callRequest [])
        = .ret [{ Jsonrpc := "2.0", ID := 1,
                  Result := some
                    [("content", ResultValue.content
                        [ContentItem.text
                          { Type_ := "text",
                            Text := "failed to write response for reqID: 1: "
                              ++ "invalid tool result type: " ++ fmtTypeEmbedded false }]),
                     ("isError", ResultValue.json (Value.bool true))],
                  Error := none }] :=
  ⟨by rfl, by rfl, by rfl⟩

/-! ## Output validation -/

theorem validateOutput_range_none_iff (m : List (String × GoValue))
    (props : List (String × Option ToolSchema)) :
    validateOutput.range m props = .ret none ↔
      ∀ p ∈ props, ∀ val, mapGet m p.1 = some val →
        ∃ sc, p.2 = some sc ∧ validateArgumentType p.1 val sc.Type_ = none := by
  induction props with
  | nil => simp [validateOutput.range]
  | cons p rest ih =>
    obtain ⟨name, sp⟩ := p
    unfold validateOutput.range
    cases hv : mapGet m name with
    | none =>
      simp only [ih, List.mem_cons, forall_eq_or_imp, hv]
      constructor
      · intro h
        exact ⟨fun val hval => (by cases hval), h⟩
      · intro h
        exact h.2
    | some val =>
      cases sp with
      | none =>
        simp only [List.mem_cons, forall_eq_or_imp, hv]
        constructor
        · intro h; cases h
        · intro h
          obtain ⟨sc, hsc, _⟩ := h.1 val rfl
          cases hsc
      | some sc =>
        cases hc : validateArgumentType name val sc.Type_ with
        | some err =>
          simp only [hc, List.mem_cons, forall_eq_or_imp, hv]
          constructor
          · intro h; cases h
          · intro h
            obtain ⟨sc', hsc, hok⟩ := h.1 val rfl
            cases hsc
            rw [hc] at hok
            cases hok
        | none =>
          simp only [hc, ih, List.mem_cons, forall_eq_or_imp, hv]
          constructor
          · intro h
            refine ⟨fun val' hval' => ?_, h⟩
            cases hval'
            exact ⟨sc, rfl, hc⟩
          · intro h
            exact h.2

/-- C21. `validateOutput` returns no error (and does not panic) for every
result when the output schema is undeclared (type `""`), and for every result
that is not the structured variant whatever the schema is; so when it returns
an error or panics, the schema is declared and the result is structured. -/
theorem validateOutput_bypass (d : ToolDefinition) (r : ToolResult) :
    (d.OutputSchema.Type_ = "" → validateOutput d r = .ret none)
      ∧ ((∀ m, r ≠ ToolResult.structured m) → validateOutput d r = .ret none)
      ∧ (validateOutput d r ≠ .ret none →
          d.OutputSchema.Type_ ≠ "" ∧ ∃ m, r = ToolResult.structured m) := by
  have h1 : d.OutputSchema.Type_ = "" → validateOutput d r = .ret none := by
    intro h
    simp [validateOutput, h]
  have h2 : (∀ m, r ≠ ToolResult.structured m) → validateOutput d r = .ret none := by
    intro h
    unfold validateOutput
    cases r <;> first
      | (exact absurd rfl (h _))
      | (simp only []; split_ifs <;> rfl)
  refine ⟨h1, h2, fun hne => ⟨fun h => hne (h1 h), ?_⟩⟩
  by_contra hns
  exact hne (h2 (fun m hm => hns ⟨m, hm⟩))

theorem validateOutput_bypass_witness :
    validateOutput outputsK (ToolResult.text (NewToolResultText "done")) = .ret none
      ∧ validateOutput numberX (ToolResult.structured (some [("k", GoValue.number 1)]))
          = .ret none :=
  ⟨(validateOutput_bypass outputsK (ToolResult.text (NewToolResultText "done"))).2.1
      (fun m h => by cases h),
   (validateOutput_bypass numberX (ToolResult.structured (some [("k", GoValue.number 1)]))).1
      (by rfl)⟩

/-- C22. A structured result `m` under a declared output schema (type not
`""`). `validateOutput` returns no error if and only if every name of
`schema.required` is a key of `m` and every entry of the properties map whose
name is a key of `m` points to a schema whose declared type accepts the value
(`validateArgumentType` returns no error); keys of `m` that are not properties
do not occur in the condition. If some required name is missing, the result
is the `InvalidParams` (-32602) error whose message is `missing required
output fields: ` followed by the missing names in the order of
`schema.required`, joined by commas. -/
theorem validateOutput_structured (d : ToolDefinition) (m : ToolResultStructured)
    (hdecl : d.OutputSchema.Type_ ≠ "") :
    (validateOutput d (ToolResult.structured m) = .ret none ↔
        (∀ f ∈ d.OutputSchema.Required, (mapGet (m.getD []) f).isSome = true)
          ∧ ∀ p ∈ d.OutputSchema.Properties.getD [], ∀ val,
              mapGet (m.getD []) p.1 = some val →
                ∃ sc, p.2 = some sc ∧ validateArgumentType p.1 val sc.Type_ = none)
      ∧ (d.OutputSchema.Required.filter (fun f => (mapGet (m.getD []) f).isNone) ≠ [] →
          validateOutput d (ToolResult.structured m) =
            .ret (some { Code := -32602,
                         Message := "missing required output fields: "
                           ++ String.intercalate ","
                                (d.OutputSchema.Required.filter
                                  (fun f => (mapGet (m.getD []) f).isNone)) })) := by
  have hmissing : d.OutputSchema.Required.filter (fun f => (mapGet (m.getD []) f).isNone) = []
      ↔ ∀ f ∈ d.OutputSchema.Required, (mapGet (m.getD []) f).isSome = true := by
    rw [List.filter_eq_nil_iff]
    constructor
    · intro h f hf
      have := h f hf
      cases hg : mapGet (m.getD []) f <;> simp_all
    · intro h f hf
      have := h f hf
      cases hg : mapGet (m.getD []) f <;> simp_all
  constructor
  · unfold validateOutput
    simp only [hdecl, if_false]
    by_cases hzero : d.OutputSchema.Required.length = 0
        ∧ (d.OutputSchema.Properties.getD []).length = 0
    · simp only [hzero, and_self, if_true, true_iff]
      obtain ⟨hr, hp⟩ := hzero
      rw [List.length_eq_zero] at hr hp
      rw [hr, hp]
      simp
    · simp only [hzero, if_false]
      by_cases hm : d.OutputSchema.Required.filter (fun f => (mapGet (m.getD []) f).isNone)
          = []
      · have hlen : ¬ (d.OutputSchema.Required.filter
            (fun f => (mapGet (m.getD []) f).isNone)).length > 0 := by
          rw [hm]; simp
        simp only [hlen, if_false]
        rw [validateOutput_range_none_iff]
        have := hmissing.mp hm
        constructor
        · intro h; exact ⟨this, h⟩
        · intro h; exact h.2
      · have hlen : (d.OutputSchema.Required.filter
            (fun f => (mapGet (m.getD []) f).isNone)).length > 0 :=
          List.length_pos.mpr hm
        simp only [hlen, if_true]
        constructor
        · intro h; cases h
        · intro h
          exact absurd (hmissing.mpr h.1) hm
  · intro hm
    have hlen : (d.OutputSchema.Required.filter
        (fun f => (mapGet (m.getD []) f).isNone)).length > 0 :=
      List.length_pos.mpr hm
    have hreq : ¬ d.OutputSchema.Required.length = 0 := by
      intro h0
      rw [List.length_eq_zero] at h0
      rw [h0] at hm
      exact hm rfl
    unfold validateOutput
    simp only [hdecl, if_false, hreq, false_and, hlen, if_true]
    rfl

theorem validateOutput_structured_witness :
    validateOutput outputsK (ToolResult.structured (some [("other", GoValue.null)]))
        = .ret (some { Code := -32602, Message := "missing required output fields: k" })
      ∧ validateOutput outputsK
          (ToolResult.structured (some [("k", GoValue.str "v"), ("other", GoValue.null)]))
        = .ret none :=
  ⟨(validateOutput_structured outputsK (some [("other", GoValue.null)]) (by decide)).2
      (by decide),
   (validateOutput_structured outputsK (some [("k", GoValue.str "v"), ("other", GoValue.null)])
      (by decide)).1.mpr
      ⟨by decide, by
        intro p hp val hval
        simp only [outputsK, ToolSchema.Properties, Option.getD, List.mem_singleton] at hp
        subst hp
        have hk : mapGet [("k", GoValue.str "v"), ("other", GoValue.null)] "k"
            = some (GoValue.str "v") := by rfl
        simp only [Option.getD] at hval
        rw [hk] at hval
        cases hval
        exact ⟨_, rfl, rfl⟩⟩⟩

/-! ## Registry invariant -/

theorem mapGet_isSome_iff_mem_keys {β : Type} (m : List (String × β)) (k : String) :
    (mapGet m k).isSome = true ↔ k ∈ m.map Prod.fst := by
  induction m with
  | nil => simp [mapGet]
  | cons p m ih =>
    obtain ⟨k', v'⟩ := p
    unfold mapGet at ih ⊢
    simp only [List.lookup_cons, List.map_cons, List.mem_cons]
    cases hk : (k == k') with
    | true =>
      have : k = k' := by simpa using hk
      simp [this]
    | false =>
      have : k ≠ k' := by simpa using hk
      simp only [ih]
      constructor
      · intro h; exact Or.inr h
      · rintro (h | h)
        · exact absurd h this
        · exact h

theorem server.Registry.apply {s : server} (h : s.Registry) (c : RegistryCall) :
    (RegistryCall.apply s c).Registry
      ∧ (RegistryCall.apply s c).toolNames
          = (match c.toolName with
              | some n => keepFirst s.toolNames n
              | none => s.toolNames) := by
  cases c with
  | toolsPerPage n => exact ⟨⟨h.nodup, h.keys, h.named⟩, rfl⟩
  | withTool d th =>
    simp only [RegistryCall.apply, RegistryCall.toolName]
    cases hg : mapGet s.tools d.Name with
    | some e =>
      have heq : s.WithTool d th = s := by simp [server.WithTool, hg]
      have hmem : d.Name ∈ s.toolNames := by
        rw [h.keys, ← mapGet_isSome_iff_mem_keys, hg]; rfl
      rw [heq]
      exact ⟨h, by simp [keepFirst, hmem]⟩
    | none =>
      have hnot : d.Name ∉ s.toolNames := by
        rw [h.keys, ← mapGet_isSome_iff_mem_keys, hg]; simp
      rw [WithTool_absent s d th hg]
      refine ⟨⟨?_, ?_, ?_⟩, by simp [keepFirst, hnot]⟩
      · simp only
        rw [List.nodup_append]
        refine ⟨h.nodup, List.nodup_singleton _, ?_⟩
        intro a ha hb
        simp only [List.mem_singleton] at hb
        subst hb
        exact hnot ha
      · simp [h.keys]
      · intro p hp
        simp only [List.mem_append, List.mem_singleton] at hp
        rcases hp with hp | hp
        · exact h.named p hp
        · subst hp; rfl

theorem foldl_apply_registry (calls : List RegistryCall) (s : server) (h : s.Registry) :
    (calls.foldl RegistryCall.apply s).Registry
      ∧ (calls.foldl RegistryCall.apply s).toolNames
          = (calls.filterMap RegistryCall.toolName).foldl keepFirst s.toolNames := by
  induction calls generalizing s with
  | nil => exact ⟨h, rfl⟩
  | cons c rest ih =>
    obtain ⟨hreg, hnames⟩ := h.apply c
    obtain ⟨h1, h2⟩ := ih (RegistryCall.apply s c) hreg
    refine ⟨h1, ?_⟩
    simp only [List.foldl_cons]
    rw [h2, hnames]
    cases hc : c.toolName with
    | none => simp [List.filterMap_cons, hc]
    | some n => simp [List.filterMap_cons, hc]

/-- C30. Registry invariant. In the state built from `newServer` by any
sequence of `WithTool` and `ToolsPerPage` calls, the ordered name list has no
duplicates; it is the key sequence of the name->entry map, so a name is listed
exactly when it is a key and both have the same length; the definition of
every entry carries the key as its name; and the name list is the sequence of
the registered names in the order of their first registration. -/
theorem buildServer_registry (name version : String) (calls : List RegistryCall) :
    (buildServer name version calls).toolNames.Nodup
      ∧ (∀ n, n ∈ (buildServer name version calls).toolNames
            ↔ (mapGet (buildServer name version calls).tools n).isSome = true)
      ∧ (((buildServer name version calls).toolNames.length : Int)
            = mapLen (buildServer name version calls).tools)
      ∧ (∀ n t, mapGet (buildServer name version calls).tools n = some t →
            t.toolDefinition.Name = n)
      ∧ (buildServer name version calls).toolNames
          = firstOccurrences (calls.filterMap RegistryCall.toolName) := by
  have h0 : (newServer name version).Registry :=
    ⟨List.nodup_nil, rfl, fun p hp => by simp [newServer] at hp⟩
  obtain ⟨hreg, hnames⟩ := foldl_apply_registry calls (newServer name version) h0
  refine ⟨hreg.nodup, ?_, ?_, ?_, hnames⟩
  · intro n
    rw [mapGet_isSome_iff_mem_keys]
    unfold buildServer
    rw [← hreg.keys]
  · unfold buildServer mapLen
    rw [hreg.keys]
    simp
  · intro n t ht
    exact hreg.named (n, t) (mapGet_mem _ n t ht)



theorem buildServer_registry_witness :
    (buildServer "robot" "1"
        [RegistryCall.withTool (NewTool "a").Build silentHandler,
         RegistryCall.withTool (NewTool "b").Build silentHandler,
         RegistryCall.toolsPerPage 2,
         RegistryCall.withTool { requiresX with Name := "a" } echoHandler]).toolNames
      = ["a", "b"] :=
  (buildServer_registry "robot" "1"
      [RegistryCall.withTool (NewTool "a").Build silentHandler,
       RegistryCall.withTool (NewTool "b").Build silentHandler,
       RegistryCall.toolsPerPage 2,
       RegistryCall.withTool { requiresX with Name := "a" } echoHandler]).2.2.2.2.trans
    (by decide)

theorem foldl_keepFirst_length (names acc : List String) :
    acc.length ≤ (names.foldl keepFirst acc).length := by
  induction names generalizing acc with
  | nil => simp
  | cons n rest ih =>
    simp only [List.foldl_cons]
    refine le_trans ?_ (ih (keepFirst acc n))
    unfold keepFirst
    split_ifs <;> simp

theorem firstOccurrences_eq_nil (names : List String) :
    firstOccurrences names = [] ↔ names = [] := by
  constructor
  · intro h
    cases names with
    | nil => rfl
    | cons n rest =>
      have := foldl_keepFirst_length rest (keepFirst [] n)
      unfold firstOccurrences at h
      simp only [List.foldl_cons] at h
      rw [h] at this
      simp [keepFirst] at this
  · intro h
    rw [h]; rfl

theorem foldl_apply_info (calls : List RegistryCall) (s : server) :
    (calls.foldl RegistryCall.apply s).info = s.info := by
  induction calls generalizing s with
  | nil => rfl
  | cons c rest ih =>
    simp only [List.foldl_cons]
    rw [ih]
    cases c with
    | toolsPerPage n => rfl
    | withTool d h =>
      simp only [RegistryCall.apply, server.WithTool]
      split_ifs <;> rfl

/-- C25. The initialize handler of the server built by
`NewServerBuilder(name, version)` and any sequence of `WithTool` and
`ToolsPerPage` calls writes one success envelope whose result holds
`protocolVersion`, `serverInfo` with that name and version, and
`capabilities`: the empty map when no tool has been registered, and otherwise
the map with the single key `tools`, whose `listChanged` is true. -/
theorem initializeHandler_result (name version : String) (calls : List RegistryCall)
    (rpcReq : Request) :
    (buildServer name version calls).initializeHandler rpcReq =
        .ret [{ Jsonrpc := "2.0", ID := rpcReq.ID,
                Result := some
                  [("protocolVersion", ResultValue.json (Value.str "2025-03-26")),
                   ("capabilities", ResultValue.capabilities
                      (if calls.filterMap RegistryCall.toolName = [] then []
                       else [("tools", { Subscribe := false, ListChanged := true })])),
                   ("serverInfo", ResultValue.info { Name := name, Version := version })],
                Error := none }]
      ∧ ((buildServer name version calls).toolNames = []
          ↔ calls.filterMap RegistryCall.toolName = []) := by
  obtain ⟨_, _, hlen, _, hnames⟩ := buildServer_registry name version calls
  have hiff : (buildServer name version calls).toolNames = []
      ↔ calls.filterMap RegistryCall.toolName = [] := by
    rw [hnames, firstOccurrences_eq_nil]
  have hinfo : (buildServer name version calls).info = { Name := name, Version := version } :=
    foldl_apply_info calls (newServer name version)
  refine ⟨?_, hiff⟩
  have hcap : (buildServer name version calls).capabilities =
      (if calls.filterMap RegistryCall.toolName = [] then []
       else [("tools", { Subscribe := false, ListChanged := true })]) := by
    unfold server.capabilities
    rw [← hlen]
    by_cases hc : calls.filterMap RegistryCall.toolName = []
    · have h0 := hiff.mpr hc
      simp [hc, h0]
    · have h0 : (buildServer name version calls).toolNames ≠ [] := fun h => hc (hiff.mp h)
      have hpos : 0 < (buildServer name version calls).toolNames.length :=
        List.length_pos.mpr h0
      have hpos' : ((buildServer name version calls).toolNames.length : Int) > 0 := by
        omega
      simp only [hpos', if_true, hc, if_false]
      rfl
  simp only [server.initializeHandler, hcap, hinfo]
  rfl

/-! ## Shape of the envelopes -/

theorem WriteResult_answers (id : Int) (m : List (String × ResultValue)) :
    ((NewResponseWriter id).WriteResult (some m)).answers id :=
  ⟨rfl, rfl, rfl⟩

theorem WriteError_answers (id : Int) (code : Int) (msg : String) :
    ((NewResponseWriter id).WriteError code msg).answers id :=
  ⟨rfl, rfl, rfl⟩

theorem okEmptyResponse_answers (s : server) (rpcReq : Request) (resps : List Response)
    (h : s.okEmptyResponse rpcReq = .ret resps) : ∀ r ∈ resps, r.answers rpcReq.ID := by
  simp only [server.okEmptyResponse, GoResult.ret.injEq] at h
  subst h
  intro r hr
  simp only [List.mem_singleton] at hr
  subst hr
  exact ⟨rfl, rfl, rfl⟩

theorem initializeHandler_answers (s : server) (rpcReq : Request) (resps : List Response)
    (h : s.initializeHandler rpcReq = .ret resps) : ∀ r ∈ resps, r.answers rpcReq.ID := by
  simp only [server.initializeHandler, GoResult.ret.injEq] at h
  subst h
  intro r hr
  simp only [List.mem_singleton] at hr
  subst hr
  exact ⟨rfl, rfl, rfl⟩

theorem listToolsPage_answers (s : server) (id : Int) (c : Int) (resps : List Response)
    (h : s.listToolsPage (NewResponseWriter id) c = .ret resps) :
    ∀ r ∈ resps, r.answers id := by
  have single : ∀ (x : Response), x.answers id → GoResult.ret [x] = GoResult.ret resps →
      ∀ r ∈ resps, r.answers id := by
    intro x hx he r hr
    simp only [GoResult.ret.injEq] at he
    subst he
    simp only [List.mem_singleton] at hr
    subst hr
    exact hx
  unfold server.listToolsPage at h
  simp only [] at h
  split_ifs at h <;> first
    | exact single _ (WriteError_answers id _ _) h
    | (split at h
       · cases h
       · exact single _ (WriteResult_answers id _) h)

theorem listToolsHandler_answers (s : server) (rpcReq : Request) (resps : List Response)
    (h : s.listToolsHandler rpcReq = .ret resps) : ∀ r ∈ resps, r.answers rpcReq.ID := by
  unfold server.listToolsHandler at h
  simp only [] at h
  split_ifs at h
  · simp only [GoResult.ret.injEq] at h
    subst h
    intro r hr
    simp only [List.mem_singleton] at hr
    subst hr
    exact WriteResult_answers _ _
  · split at h
    · exact listToolsPage_answers s _ _ resps h
    · split at h
      · split at h
        · simp only [GoResult.ret.injEq] at h
          subst h
          intro r hr
          simp only [List.mem_singleton] at hr
          subst hr
          exact WriteError_answers _ _ _
        · exact listToolsPage_answers s _ _ resps h
      · simp only [GoResult.ret.injEq] at h
        subst h
        intro r hr
        simp only [List.mem_singleton] at hr
        subst hr
        exact WriteError_answers _ _ _

theorem writeResult_answers (fmtFloat : ℚ → String) (id : Int) (r : AnyResult)
    (resp : Response) (h : writeResult fmtFloat (NewResponseWriter id) r = .ok resp) :
    resp.answers id := by
  unfold writeResult at h
  split at h <;> first
    | (cases h; exact ⟨rfl, rfl, rfl⟩)
    | cases h
    | (split at h <;> first
        | (cases h; exact ⟨rfl, rfl, rfl⟩)
        | cases h)

theorem writeError_answers (id : Int) (msg : String) :
    (writeError (NewResponseWriter id) msg).answers id :=
  ⟨rfl, rfl, rfl⟩

theorem MCPHandler_answers (fmtFloat : ℚ → String) (f : ToolFunc) (d : ToolDefinition)
    (req : Request) (resps : List Response)
    (h : ToolFunc.MCPHandler fmtFloat f d req = .ret resps) :
    ∀ r ∈ resps, r.answers req.ID := by
  rw [MCPHandler_eq] at h
  have single : ∀ (x : Response), x.answers req.ID → GoResult.ret [x] = GoResult.ret resps →
      ∀ r ∈ resps, r.answers req.ID := by
    intro x hx he r hr
    simp only [GoResult.ret.injEq] at he
    subst he
    simp only [List.mem_singleton] at hr
    subst hr
    exact hx
  rcases hf : f (handlerArguments req) with ⟨res, err⟩
  rw [hf] at h
  cases err with
  | some te =>
    cases te with
    | protocol e => exact single _ (WriteError_answers _ _ _) h
    | other text => exact single _ (writeError_answers _ _) h
  | none =>
    simp only [] at h
    cases hv : validateOutput d res with
    | panic => rw [hv] at h; cases h
    | ret o =>
      rw [hv] at h
      cases o with
      | some e => exact single _ (writeError_answers _ _) h
      | none =>
        simp only [] at h
        cases hw : writeResult fmtFloat (NewResponseWriter req.ID) (.tool res) with
        | error msg =>
          rw [hw] at h
          exact single _ (writeError_answers _ _) h
        | ok response =>
          rw [hw] at h
          exact single _ (writeResult_answers _ _ _ _ hw) h

/-- Every envelope written while serving one decoded request carries the id of
the request and exactly one of result and error, when the tool handlers of the
registry were made by `ToolFunc.MCPHandler`. -/
theorem serve_answers (s : server) (hcore : s.toolFuncs) (rpcReq : Request)
    (resps : List Response) (h : s.serve rpcReq = .ret resps) :
    ∀ r ∈ resps, r.answers rpcReq.ID := by
  unfold server.serve at h
  simp only [] at h
  cases hr : s.resolveHandler rpcReq with
  | panic => rw [hr] at h; cases h
  | ret res =>
    rw [hr] at h
    cases res with
    | error pe =>
      simp only [GoResult.ret.injEq] at h
      subst h
      intro r hmem
      simp only [List.mem_singleton] at hmem
      subst hmem
      exact WriteError_answers _ _ _
    | ok handler =>
      simp only [] at h
      -- which handler was resolved
      have hr' := hr
      unfold server.resolveHandler at hr
      split_ifs at hr with h1 h2 h3 h4
      · cases hr; exact okEmptyResponse_answers s rpcReq resps h
      · cases hr; exact initializeHandler_answers s rpcReq resps h
      · cases hr; exact listToolsHandler_answers s rpcReq resps h
      · have hm : rpcReq.Method = "tools/call" := h4
        have hh : ∃ n t, mapGet s.tools n = some t ∧ handler = t.handler := by
          have hr2 := resolveHandler_call_eq s rpcReq hm
          rw [hr'] at hr2
          cases hname : mapGet rpcReq.Params "name" with
          | none => rw [hname] at hr2; cases hr2
          | some v =>
            rw [hname] at hr2
            cases v with
            | str n =>
              simp only [] at hr2
              cases ht : mapGet s.tools n with
              | none => rw [ht] at hr2; cases hr2
              | some t =>
                rw [ht] at hr2
                simp only [] at hr2
                refine ⟨n, t, ht, ?_⟩
                cases ha : mapGet rpcReq.Params "arguments" with
                | none =>
                  rw [ha] at hr2
                  simp only [] at hr2
                  split_ifs at hr2
                  · simp at hr2
                  · simp only [GoResult.ret.injEq, Except.ok.injEq] at hr2
                    exact hr2
                | some a =>
                  rw [ha] at hr2
                  cases a with
                  | object m =>
                    simp only [] at hr2
                    cases hv : t.toolDefinition.ValidateArguments m with
                    | panic => rw [hv] at hr2; cases hr2
                    | ret o =>
                      rw [hv] at hr2
                      cases o with
                      | some e => cases hr2
                      | none =>
                        simp only [GoResult.ret.injEq, Except.ok.injEq] at hr2
                        exact hr2
                  | null => cases hr2
                  | bool b => cases hr2
                  | number q => cases hr2
                  | str x => cases hr2
                  | array xs => cases hr2
            | null => cases hr2
            | bool b => cases hr2
            | number q => cases hr2
            | array xs => cases hr2
            | object kvs => cases hr2
        obtain ⟨n, t, ht, hhandler⟩ := hh
        obtain ⟨ff, f, d, hf⟩ := hcore (n, t) (mapGet_mem _ n t ht)
        rw [hhandler] at h
        simp only at hf
        rw [hf] at h
        exact MCPHandler_answers ff f d rpcReq resps h
      · cases hr



theorem outputServer_toolFuncs : (outputServer anyFloat).toolFuncs := by
  intro p hp
  have htools : (outputServer anyFloat).tools
      = [("outputs-k", ⟨ToolFunc.MCPHandler anyFloat emptyStructured outputsK, outputsK⟩)] := by
    rfl
  rw [htools] at hp
  simp only [List.mem_singleton] at hp
  subst hp
  exact ⟨anyFloat, emptyStructured, outputsK, rfl⟩

/-! ## Response envelopes -/

/-- C23, counterexample. `WriteResult` called with the nil map writes an
envelope in which neither result nor error is populated. -/
theorem WriteResult_nil_neither :
    ((NewResponseWriter 1).WriteResult none).Result = none
      ∧ ((NewResponseWriter 1).WriteResult none).Error = none
      ∧ ((NewResponseWriter 1).WriteResult none).exactlyOne = false :=
  ⟨rfl, rfl, rfl⟩

/-- C23, amended. Exactly one of result and error is populated in the envelope
of `WriteResult` for every map that is not nil, in the envelope of
`WriteError`, and in every envelope written while a decoded request is served:
by the initialize, ping and `tools/list` handlers, by a tool handler made by
`ToolFunc.MCPHandler`, and for a request whose handler is not resolved. -/
theorem envelopes_exactly_one :
    (∀ id m, ((NewResponseWriter id).WriteResult (some m)).exactlyOne = true)
      ∧ (∀ id code msg, ((NewResponseWriter id).WriteError code msg).exactlyOne = true)
      ∧ (∀ fmtFloat f d req resps, ToolFunc.MCPHandler fmtFloat f d req = .ret resps →
          ∀ r ∈ resps, r.exactlyOne = true)
      ∧ (∀ s : server, s.toolFuncs → ∀ req resps, s.serve req = .ret resps →
          ∀ r ∈ resps, r.exactlyOne = true) :=
  ⟨fun _ _ => rfl, fun _ _ _ => rfl,
   fun fmtFloat f d req resps h r hr => (MCPHandler_answers fmtFloat f d req resps h r hr).2.2,
   fun s hcore req resps h r hr => (serve_answers s hcore req resps h r hr).2.2⟩

theorem envelopes_exactly_one_witness :
    (outputServer anyFloat).serve (callRequest [("name", Value.str "outputs-k")])
        = .ret [writeError (NewResponseWriter 1) (errfmt 1 "missing required output fields: k")]
      ∧ (writeError (NewResponseWriter 1)
          (errfmt 1 "missing required output fields: k")).exactlyOne = true :=
  ⟨by rfl,
   envelopes_exactly_one.2.2.2 (outputServer anyFloat) outputServer_toolFuncs
    (callRequest [("name", Value.str "outputs-k")])
    [writeError (NewResponseWriter 1) (errfmt 1 "missing required output fields: k")] (by rfl)
    (writeError (NewResponseWriter 1) (errfmt 1 "missing required output fields: k"))
    (List.mem_singleton.mpr rfl)⟩

/-- C24. While a decoded request is served by a registry whose tool handlers
were made by `ToolFunc.MCPHandler`, every envelope written carries `jsonrpc`
`2.0` and the id of the request, whichever handler it is dispatched to; when
the handler is not resolved, the one envelope written carries that id too. In
the loop of the stream transport the id 0 is put in by the loop itself only in
the envelope for a document that could not be decoded. -/
theorem envelopes_carry_request_id (s : server) (hcore : s.toolFuncs) (rpcReq : Request) :
    (∀ resps, s.serve rpcReq = .ret resps →
        ∀ r ∈ resps, r.Jsonrpc = "2.0" ∧ r.ID = rpcReq.ID)
      ∧ (∀ pe, s.resolveHandler rpcReq = .ret (.error pe) →
          s.serve rpcReq =
            .ret [{ Jsonrpc := "2.0", ID := rpcReq.ID, Result := none,
                    Error := some { Code := pe.Code,
                                    Message := "Failed to resolve handler: " ++ pe.Message } }])
      ∧ (∀ fuel decoder err decoder', decoder.Decode = (.error err, decoder') → err ≠ "EOF" →
          (StdioServer.ListenAndServe s (fuel + 1) decoder).written =
            { Jsonrpc := "2.0", ID := 0, Result := none,
              Error := some { Code := -32700,
                              Message := "Failed to decode request: " ++ err } }
              :: (StdioServer.ListenAndServe s fuel decoder').written)
      ∧ (∀ fuel decoder decoder' resps, decoder.Decode = (.ok rpcReq, decoder') →
          s.serve rpcReq = .ret resps →
          (StdioServer.ListenAndServe s (fuel + 1) decoder).written =
            resps ++ (StdioServer.ListenAndServe s fuel decoder').written) := by
  refine ⟨?_, ?_, ?_, ?_⟩
  · intro resps h r hr
    have := serve_answers s hcore rpcReq resps h r hr
    exact ⟨this.1, this.2.1⟩
  · intro pe hpe
    simp only [server.serve, hpe]
    rfl
  · intro fuel decoder err decoder' hd hne
    simp only [StdioServer.ListenAndServe, hd, hne, if_false]
    rfl
  · intro fuel decoder decoder' resps hd hs
    simp only [StdioServer.ListenAndServe, hd, hs]

theorem envelopes_carry_request_id_witness :
    (writeError (NewResponseWriter 1) (errfmt 1 "missing required output fields: k")).Jsonrpc
        = "2.0"
      ∧ (writeError (NewResponseWriter 1) (errfmt 1 "missing required output fields: k")).ID
        = (callRequest [("name", Value.str "outputs-k")]).ID :=
  (envelopes_carry_request_id (outputServer anyFloat) outputServer_toolFuncs
    (callRequest [("name", Value.str "outputs-k")])).1
    [writeError (NewResponseWriter 1) (errfmt 1 "missing required output fields: k")] (by rfl)
    (writeError (NewResponseWriter 1) (errfmt 1 "missing required output fields: k"))
    (List.mem_singleton.mpr rfl)

/-! ## A resolve failure on the two transports -/

/-- C26, failing input. A request with the method `foo/bar` sent to the HTTP
transport. The dispatcher of the root package fails with the `MethodNotFound`
error (-32601), and `HTTPServer.entrypoint` answers with status 404 and the
plain-text body `Failed to resolve handler: method not found: foo/bar`: no
JSON-RPC envelope is sent, and neither the id of the request nor the code of the
error reaches the client. The same holds for every request on which that
dispatcher fails, among them `ping`, which the root package does not route, and
a `tools/call` without a name, whose code is -32602. A request that resolves, such as `initialize`, is answered with status 200 and
the envelope its handler writes. On the stream transport the same request
`foo/bar` gets exactly one error envelope with the id of the request and the
code -32601, as does every request on which the dispatcher of package server
fails. -/
theorem entrypoint_resolve_failure_plain_text (s : mcprobot.server) (t : server) (id : Int)
    (params : List (String × Value)) :
    s.resolveHandler { Jsonrpc := "2.0", ID := id, Method := "foo/bar", Params := params }
        = .error { Code := -32601, Message := "method not found: foo/bar" }
      ∧ mcprobot.HTTPServer.entrypoint s
          (.ok { Jsonrpc := "2.0", ID := id, Method := "foo/bar", Params := params })
        = .ret { status := 404, contentType := "text/plain; charset=utf-8",
                 body := mcprobot.HTTPBody.text
                   "Failed to resolve handler: method not found: foo/bar\n" }
      ∧ (∀ rpcReq pe, s.resolveHandler rpcReq = .error pe →
          mcprobot.HTTPServer.entrypoint s (.ok rpcReq)
            = .ret { status := 404, contentType := "text/plain; charset=utf-8",
                     body := mcprobot.HTTPBody.text
                       ("Failed to resolve handler: " ++ pe.Message ++ "\n") })
      ∧ mcprobot.HTTPServer.entrypoint s
          (.ok { Jsonrpc := "2.0", ID := id, Method := "ping", Params := params })
        = .ret { status := 404, contentType := "text/plain; charset=utf-8",
                 body := mcprobot.HTTPBody.text
                   "Failed to resolve handler: method not found: ping\n" }
      ∧ mcprobot.HTTPServer.entrypoint s
          (.ok { Jsonrpc := "2.0", ID := id, Method := "tools/call", Params := [] })
        = .ret { status := 404, contentType := "text/plain; charset=utf-8",
                 body := mcprobot.HTTPBody.text
                   "Failed to resolve handler: missing or invalid \x27name\x27 parameter\n" }
      ∧ mcprobot.HTTPServer.entrypoint s
          (.ok { Jsonrpc := "2.0", ID := id, Method := "initialize", Params := params })
        = .ret { status := 200, contentType := "application/json",
                 body := mcprobot.HTTPBody.written
                   [mcprobot.Written.envelope
                     { Jsonrpc := "2.0", ID := id,
                       Result := some
                         [("protocolVersion", mcprobot.ResultValue.str "2025-03-26"),
                          ("capabilities", mcprobot.ResultValue.capabilities s.capabilities),
                          ("serverInfo", mcprobot.ResultValue.info s.info)],
                       ServerInfo := none, Instructions := "", Error := none }] }
      ∧ t.serve { Jsonrpc := "2.0", ID := id, Method := "foo/bar", Params := params }
        = .ret [{ Jsonrpc := "2.0", ID := id, Result := none,
                  Error := some { Code := -32601,
                                  Message := "Failed to resolve handler: method not found: foo/bar" } }]
      ∧ (∀ rpcReq pe, t.resolveHandler rpcReq = .ret (.error pe) →
          t.serve rpcReq
              = .ret [{ Jsonrpc := "2.0", ID := rpcReq.ID, Result := none,
                        Error := some { Code := pe.Code,
                                        Message := "Failed to resolve handler: " ++ pe.Message } }]
            ∧ ∀ fuel decoder decoder', decoder.Decode = (.ok rpcReq, decoder') →
                (StdioServer.ListenAndServe t (fuel + 1) decoder).written =
                  { Jsonrpc := "2.0", ID := rpcReq.ID, Result := none,
                    Error := some { Code := pe.Code,
                                    Message := "Failed to resolve handler: " ++ pe.Message } }
                    :: (StdioServer.ListenAndServe t fuel decoder').written) := by
  have hserve : ∀ rpcReq pe, t.resolveHandler rpcReq = .ret (.error pe) →
      t.serve rpcReq
        = .ret [{ Jsonrpc := "2.0", ID := rpcReq.ID, Result := none,
                  Error := some { Code := pe.Code,
                                  Message := "Failed to resolve handler: " ++ pe.Message } }] := by
    intro rpcReq pe hfail
    simp only [server.serve, hfail]
    rfl
  have hhttp : ∀ rpcReq pe, s.resolveHandler rpcReq = .error pe →
      mcprobot.HTTPServer.entrypoint s (.ok rpcReq)
        = .ret { status := 404, contentType := "text/plain; charset=utf-8",
                 body := mcprobot.HTTPBody.text
                   ("Failed to resolve handler: " ++ pe.Message ++ "\n") } := by
    intro rpcReq pe hfail
    simp only [mcprobot.HTTPServer.entrypoint, hfail]
    rfl
  refine ⟨by rfl, by rfl, hhttp, by rfl, by rfl, by rfl, ?_, ?_⟩
  · exact hserve { Jsonrpc := "2.0", ID := id, Method := "foo/bar", Params := params }
      { Code := -32601, Message := "method not found: foo/bar" } (by rfl)
  · intro rpcReq pe hfail
    refine ⟨hserve rpcReq pe hfail, ?_⟩
    intro fuel decoder decoder' hd
    simp only [StdioServer.ListenAndServe, hd, hserve rpcReq pe hfail]
    rfl

/-! ## The loop of the stream transport -/

/-- Once the decoder has stored an error other than `EOF`, every iteration of
the loop writes the same parse error and the loop does not return. -/
theorem ListenAndServe_stored_error (s : server) (err : String) (hne : err ≠ "EOF")
    (input : List Document) (fuel : Nat) :
    StdioServer.ListenAndServe s fuel { err := some err, input := input } =
      { written := List.replicate fuel (parseErrorEnvelope err), status := .running } := by
  induction fuel with
  | zero => rfl
  | succ n ih =>
    simp only [StdioServer.ListenAndServe, Decoder.Decode, hne, if_false, ih,
      List.replicate_succ]
    rfl

/-- C27, failing input. The stream holds a malformed document followed by a
well-formed `ping` request. However many iterations the loop runs, it writes
one parse error (-32700, id 0) per iteration and nothing else, and it is still
running: the `ping` request is never served and the loop does not return. A
document that is complete JSON but does not fit the request struct, in the same
place, gets one parse error, after which `ping` is served and the loop returns
at the end of the stream. -/
theorem ListenAndServe_malformed_never_recovers (s : server) (fuel : Nat) :
    StdioServer.ListenAndServe s (fuel + 1)
        (NewDecoder [Document.malformed badObjectKey, Document.request pingRequest])
        = { written := List.replicate (fuel + 1) (parseErrorEnvelope badObjectKey),
            status := .running }
      ∧ StdioServer.ListenAndServe s (fuel + 3)
          (NewDecoder [Document.mismatch "json: cannot unmarshal string",
                       Document.request pingRequest])
        = { written := [parseErrorEnvelope "json: cannot unmarshal string",
                        { Jsonrpc := "2.0", ID := 7, Result := some [], Error := none }],
            status := .returned } := by
  constructor
  · have hne : badObjectKey ≠ "EOF" := by decide
    have h := ListenAndServe_stored_error s badObjectKey hne [Document.request pingRequest] fuel
    simp only [StdioServer.ListenAndServe, NewDecoder, Decoder.Decode, hne, if_false, h,
      List.replicate_succ]
    rfl
  · rfl

/-! ## Lock discipline -/

/-! ## The schema builder and the Schema Tree invariant -/

theorem wellFormedEntries_iff (es : List (String × Option ToolSchema)) :
    wellFormedEntries es = true ↔ ∀ e ∈ es, wellFormedOpt e.2 = true := by
  induction es with
  | nil => simp [wellFormedEntries]
  | cons e rest ih =>
    obtain ⟨k, v⟩ := e
    simp [wellFormedEntries, wellFormedEntry, ih]

theorem wellFormedEntries_mapSet (es : List (String × Option ToolSchema)) (k : String)
    (child : ToolSchema) (hes : wellFormedEntries es = true)
    (hchild : child.wellFormed = true) :
    wellFormedEntries (mapSet es k (some child)) = true := by
  rw [wellFormedEntries_iff] at hes ⊢
  intro e he
  unfold mapSet at he
  split_ifs at he
  · rw [List.mem_map] at he
    obtain ⟨p, hp, hpe⟩ := he
    split_ifs at hpe
    · subst hpe
      simpa [wellFormedOpt] using hchild
    · subst hpe
      exact hes p hp
  · rw [List.mem_append] at he
    rcases he with he | he
    · exact hes e he
    · rw [List.mem_singleton] at he
      subst he
      simpa [wellFormedOpt] using hchild

theorem wellFormed_object (d : String) (props : List (String × Option ToolSchema))
    (req : List String) (h : wellFormedEntries props = true) :
    (ToolSchema.mk "object" d (some props) req none).wellFormed = true := by
  simp [ToolSchema.wellFormed, wellFormedProps, wellFormedOpt, h]

theorem withPropertyType_object (d : String) (props : List (String × Option ToolSchema))
    (req : List String) (n d1 t : String) (r : Bool) (ht : t ≠ "object")
    (h : wellFormedEntries props = true) :
    ∃ props1 req1,
      SchemaBuilder.withPropertyType (ToolSchema.mk "object" d (some props) req none) n d1 t r
        = .ret (ToolSchema.mk "object" d (some props1) req1 none)
      ∧ wellFormedEntries props1 = true := by
  refine ⟨_, _, rfl, wellFormedEntries_mapSet _ _ _ h ?_⟩
  simp [ToolSchema.wellFormed, wellFormedProps, wellFormedOpt, propsEmpty, ht]

/-- A chain that satisfies `objectItemsOnly`, on an object node whose
properties satisfy the invariant, does not panic and leaves such a node. -/
theorem schemaChain_object (calls : List SchemaCall) :
    ∀ (d : String) (props : List (String × Option ToolSchema)) (req : List String),
      objectItemsOnly calls = true → wellFormedEntries props = true →
      ∃ props1 req1,
        SchemaBuilder.run calls (ToolSchema.mk "object" d (some props) req none)
          = .ret (ToolSchema.mk "object" d (some props1) req1 none)
        ∧ wellFormedEntries props1 = true := by
  induction calls with
  | nil => intro d props req _ h; exact ⟨props, req, rfl, h⟩
  | cons c rest ih =>
    intro d props req hc h
    cases c with
    | withString n d1 r =>
      obtain ⟨p1, r1, e1, h1⟩ :=
        withPropertyType_object d props req n d1 "string" r (by decide) h
      obtain ⟨p2, r2, e2, h2⟩ := ih d p1 r1 (by simpa [objectItemsOnly] using hc) h1
      exact ⟨p2, r2, by simp only [SchemaBuilder.run, SchemaBuilder.WithString, e1, e2], h2⟩
    | withNumber n d1 r =>
      obtain ⟨p1, r1, e1, h1⟩ :=
        withPropertyType_object d props req n d1 "number" r (by decide) h
      obtain ⟨p2, r2, e2, h2⟩ := ih d p1 r1 (by simpa [objectItemsOnly] using hc) h1
      exact ⟨p2, r2, by simp only [SchemaBuilder.run, SchemaBuilder.WithNumber, e1, e2], h2⟩
    | withBoolean n d1 r =>
      obtain ⟨p1, r1, e1, h1⟩ :=
        withPropertyType_object d props req n d1 "boolean" r (by decide) h
      obtain ⟨p2, r2, e2, h2⟩ := ih d p1 r1 (by simpa [objectItemsOnly] using hc) h1
      exact ⟨p2, r2, by simp only [SchemaBuilder.run, SchemaBuilder.WithBoolean, e1, e2], h2⟩
    | withArrayOf n d1 r t d2 =>
      simp only [objectItemsOnly, Bool.and_eq_true, Bool.or_eq_true, decide_eq_true_eq,
        List.isEmpty_iff] at hc
      obtain ⟨hcase, hrest⟩ := hc
      have key : ∃ item, SchemaBuilder.run rest (ArrayBuilder.innerArrayItem t d2) = .ret item
          ∧ item.wellFormed = true := by
        rcases hcase with ht | hnil
        · subst ht
          obtain ⟨p2, r2, e2, h2⟩ := ih d2 [] [] hrest rfl
          exact ⟨_, e2, wellFormed_object _ _ _ h2⟩
        · subst hnil
          refine ⟨_, rfl, ?_⟩
          simp [ArrayBuilder.innerArrayItem, ToolSchema.wellFormed, wellFormedProps,
            wellFormedOpt, propsEmpty, wellFormedEntries]
      obtain ⟨item, e, hitem⟩ := key
      refine ⟨_, _, by simp only [SchemaBuilder.run, e]; rfl,
        wellFormedEntries_mapSet _ _ _ h ?_⟩
      simp [ToolSchema.wellFormed, wellFormedProps, wellFormedOpt, propsEmpty, hitem]
    | withObjectProps n d1 r =>
      obtain ⟨p2, r2, e2, h2⟩ := ih d1 [] [] (by simpa [objectItemsOnly] using hc) rfl
      refine ⟨_, _, by simp only [SchemaBuilder.run, ObjectBuilder.nestedSchemaField, e2]; rfl,
        wellFormedEntries_mapSet _ _ _ h (wellFormed_object _ _ _ h2)⟩

theorem initSchema_object (sc : ToolSchema)
    (h : sc = ToolSchema.zero ∨ ∃ d props req,
      sc = ToolSchema.mk "object" d (some props) req none ∧ wellFormedEntries props = true) :
    ∃ d props req, SchemaBuilder.initSchema sc = ToolSchema.mk "object" d (some props) req none
      ∧ wellFormedEntries props = true := by
  rcases h with h | ⟨d, props, req, h, hw⟩
  · subst h
    exact ⟨"", [], [], rfl, rfl⟩
  · subst h
    exact ⟨d, props, req, rfl, hw⟩

/-- A link whose schema chains satisfy `objectItemsOnly` does not panic and
keeps the input schema an object node that satisfies the invariant and the
output schema the zero value or such a node. -/
theorem ToolCall.apply_object (c : ToolCall) (b : ToolBuilder)
    (hc : c.objectItemsOnly = true)
    (hin : ∃ d props req, b.definition.InputSchema = ToolSchema.mk "object" d (some props) req none
      ∧ wellFormedEntries props = true)
    (hout : b.definition.OutputSchema = ToolSchema.zero ∨ ∃ d props req,
      b.definition.OutputSchema = ToolSchema.mk "object" d (some props) req none
        ∧ wellFormedEntries props = true) :
    ∃ b1, ToolCall.apply b c = .ret b1
      ∧ (∃ d props req,
          b1.definition.InputSchema = ToolSchema.mk "object" d (some props) req none
            ∧ wellFormedEntries props = true)
      ∧ (b1.definition.OutputSchema = ToolSchema.zero ∨ ∃ d props req,
          b1.definition.OutputSchema = ToolSchema.mk "object" d (some props) req none
            ∧ wellFormedEntries props = true) := by
  cases c with
  | description d => exact ⟨_, rfl, hin, hout⟩
  | title t => exact ⟨_, rfl, hin, hout⟩
  | markReadOnly v => exact ⟨_, rfl, hin, hout⟩
  | markAsDestructive v => exact ⟨_, rfl, hin, hout⟩
  | markAsIdempotent v => exact ⟨_, rfl, hin, hout⟩
  | markAsCallingOpenWorld v => exact ⟨_, rfl, hin, hout⟩
  | input calls =>
    obtain ⟨d, props, req, e, hw⟩ := initSchema_object _ (Or.inr hin)
    obtain ⟨p1, r1, e1, h1⟩ := schemaChain_object calls d props req hc hw
    have e2 : ToolCall.apply b (.input calls) = .ret { definition :=
        { b.definition with InputSchema := ToolSchema.mk "object" d (some p1) r1 none } } := by
      simp only [ToolCall.apply, e, e1]
    exact ⟨_, e2, ⟨d, p1, r1, rfl, h1⟩, hout⟩
  | output calls =>
    obtain ⟨d, props, req, e, hw⟩ := initSchema_object _ hout
    obtain ⟨p1, r1, e1, h1⟩ := schemaChain_object calls d props req hc hw
    have e2 : ToolCall.apply b (.output calls) = .ret { definition :=
        { b.definition with OutputSchema := ToolSchema.mk "object" d (some p1) r1 none } } := by
      simp only [ToolCall.apply, e, e1]
    exact ⟨_, e2, hin, Or.inr ⟨d, p1, r1, rfl, h1⟩⟩

theorem toolChain_object (calls : List ToolCall) :
    ∀ (b : ToolBuilder), calls.all ToolCall.objectItemsOnly = true →
      (∃ d props req,
        b.definition.InputSchema = ToolSchema.mk "object" d (some props) req none
          ∧ wellFormedEntries props = true) →
      (b.definition.OutputSchema = ToolSchema.zero ∨ ∃ d props req,
        b.definition.OutputSchema = ToolSchema.mk "object" d (some props) req none
          ∧ wellFormedEntries props = true) →
      ∃ b1, ToolBuilder.run calls b = .ret b1
        ∧ b1.definition.InputSchema.wellFormed = true
        ∧ b1.definition.OutputSchema.wellFormed = true := by
  induction calls with
  | nil =>
    intro b _ hin hout
    refine ⟨b, rfl, ?_, ?_⟩
    · obtain ⟨d, props, req, e, hw⟩ := hin
      rw [e]; exact wellFormed_object _ _ _ hw
    · rcases hout with e | ⟨d, props, req, e, hw⟩
      · rw [e]; rfl
      · rw [e]; exact wellFormed_object _ _ _ hw
  | cons c rest ih =>
    intro b hc hin hout
    rw [List.all_cons, Bool.and_eq_true] at hc
    obtain ⟨b1, e1, hin1, hout1⟩ := ToolCall.apply_object c b hc.1 hin hout
    obtain ⟨b2, e2, h2⟩ := ih b1 hc.2 hin1 hout1
    exact ⟨b2, by simp only [ToolBuilder.run, e1, e2], h2⟩

/-- C28, counterexample. The chain
`NewTool("t").Input().WithArray("a", "", false).Of("string", "").WithString("x", "", true).Done().Build()`
returns a definition in whose input schema the item node of the array `a` has
the type `string`, the property `x` and the required name `x`: the Schema Tree
invariant fails at that node. -/
theorem buildTool_string_item_with_properties :
    ∃ d, buildTool "t"
        [.input [.withArrayOf "a" "" false "string" "", .withString "x" "" true]] = .ret d
      ∧ d.InputSchema = ToolSchema.mk "object" ""
          (some [("a", some (ToolSchema.mk "array" "" none []
            (some (ToolSchema.mk "string" ""
              (some [("x", some (ToolSchema.mk "string" "" none [] none))]) ["x"] none))))])
          [] none
      ∧ d.InputSchema.wellFormed = false := ⟨_, rfl, rfl, by decide⟩

/-- C28, amended. Every chain on the builder in which calls follow an
`Of` only when the type given to `Of` is `object` returns, without a panic, a
definition whose input and output schema trees satisfy the Schema Tree
invariant at every node: properties or required are non-empty only at nodes of
type `object`, and array items are present only at nodes of type `array`. -/
theorem buildTool_wellFormed (name : String) (calls : List ToolCall)
    (h : calls.all ToolCall.objectItemsOnly = true) :
    ∃ d, buildTool name calls = .ret d
      ∧ d.InputSchema.wellFormed = true ∧ d.OutputSchema.wellFormed = true := by
  obtain ⟨b, e, h1, h2⟩ := toolChain_object calls (NewTool name) h
    ⟨"", [], [], rfl, rfl⟩ (Or.inl rfl)
  exact ⟨b.Build, by simp only [buildTool, e], h1, h2⟩

/-- C28, witness. A chain with a description, an input schema with a string, an
array of objects with a number inside, and an output schema with an object, a
boolean inside it and an array of strings inside it. -/
theorem buildTool_wellFormed_witness :
    List.all [ToolCall.description "d", ToolCall.input [.withString "q" "" true,
        .withArrayOf "a" "" false "object" "", .withNumber "n" "" false],
      ToolCall.output [.withObjectProps "o" "" true, .withBoolean "b" "" false,
        .withArrayOf "l" "" true "string" ""]] ToolCall.objectItemsOnly = true
    ∧ ∃ d, buildTool "t" [ToolCall.description "d", ToolCall.input [.withString "q" "" true,
        .withArrayOf "a" "" false "object" "", .withNumber "n" "" false],
      ToolCall.output [.withObjectProps "o" "" true, .withBoolean "b" "" false,
        .withArrayOf "l" "" true "string" ""]] = .ret d
      ∧ d.InputSchema.wellFormed = true ∧ d.OutputSchema.wellFormed = true :=
  ⟨by decide, buildTool_wellFormed "t" _ (by decide)⟩

/-- C29, failing input. `capabilities`, and so `initializeHandler`, reads the
tool map with no lock held, while `WithTool` writes it under the write lock;
`listToolsHandler` and the `tools/call` case of `resolveHandler` read under the
read lock. -/
theorem initializeHandler_reads_unlocked :
    guarded server.capabilities.accesses = false
      ∧ guarded server.initializeHandler.accesses = false
      ∧ guarded server.listToolsHandler.accesses = true
      ∧ guarded server.resolveHandler.accesses = true
      ∧ guarded server.WithTool.accesses = true
      ∧ guarded server.ToolsPerPage.accesses = true :=
  ⟨by decide, by decide, by decide, by decide, by decide, by decide⟩

/-! ## Pages of the catalog -/

theorem digitVal_digitChar (m : Nat) (h : m < 10) : digitVal (Nat.digitChar m) = some m := by
  interval_cases m <;> rfl

theorem parseDigits_toDigitsCore (fuel : Nat) :
    ∀ (n : Nat) (ds : List Char), n < fuel →
      parseDigits (Nat.toDigitsCore 10 fuel n ds) 0 = parseDigits ds n := by
  induction fuel with
  | zero => intro n ds h; omega
  | succ fuel ih =>
    intro n ds h
    have hd : digitVal (Nat.digitChar (n % 10)) = some (n % 10) :=
      digitVal_digitChar _ (Nat.mod_lt _ (by decide))
    unfold Nat.toDigitsCore
    simp only
    split_ifs with h0
    · simp only [parseDigits, hd]
      congr 1
      omega
    · have hlt : n / 10 < fuel := by omega
      rw [ih (n / 10) _ hlt]
      simp only [parseDigits, hd]
      congr 1
      omega

theorem Atoi_fmtInt (k : Nat) (hk : (k : Int) ≤ maxInt) : Atoi (fmtInt (k : Int)) = some (k : Int) := by
  have hrepr : (fmtInt (k : Int)).toList = Nat.toDigits 10 k := by
    have hnot : ¬ ((k : Int) < 0) := by omega
    simp [fmtInt, Nat.repr, hnot, List.asString]
  have hparse : parseDigits (Nat.toDigits 10 k) 0 = some k := by
    unfold Nat.toDigits
    rw [parseDigits_toDigitsCore (k + 1) k [] (Nat.lt_succ_self k)]
    rfl
  unfold Atoi
  rw [hrepr]
  cases hds : Nat.toDigits 10 k with
  | nil =>
    rw [hds] at hparse
    simp only [parseDigits, Option.some.injEq] at hparse
    subst hparse
    exact absurd hds (by decide)
  | cons c cs =>
    rw [hds] at hparse
    have hc : (digitVal c).isSome := by
      unfold parseDigits at hparse
      cases hdc : digitVal c with
      | none => simp [hdc] at hparse
      | some d => rfl
    have hrange : '0' ≤ c ∧ c ≤ '9' := by
      unfold digitVal at hc
      split_ifs at hc with hr
      · exact hr
      · simp at hc
    have hminus : c ≠ '-' := by
      rintro rfl
      exact absurd hrange.1 (by decide)
    have hplus : c ≠ '+' := by
      rintro rfl
      exact absurd hrange.1 (by decide)
    have hmin : minInt ≤ (k : Int) := by
      have : minInt = -(2 ^ 63) := rfl
      omega
    simp [hminus, hplus, hparse, hmin, hk]

theorem flatMap_pages {α : Type} (p : Nat) (hp : 0 < p) :
    ∀ (n : Nat) (l : List α), l.length ≤ n →
      (List.range ((l.length + p - 1) / p)).flatMap (fun k => (l.drop (k * p)).take p) = l := by
  intro n
  induction n with
  | zero =>
    intro l hl
    have : l = [] := List.length_eq_zero.mp (by omega)
    subst this
    have h0 : (0 + p - 1) / p = 0 := by
      apply Nat.div_eq_of_lt
      omega
    simp [h0]
  | succ n ih =>
    intro l hl
    by_cases hnil : l = []
    · subst hnil
      have h0 : (0 + p - 1) / p = 0 := by
        apply Nat.div_eq_of_lt
        omega
      simp [h0]
    · have hpos : 0 < l.length := List.length_pos.mpr hnil
      have hcount : (l.length + p - 1) / p = ((l.drop p).length + p - 1) / p + 1 := by
        rw [List.length_drop]
        by_cases hle : l.length ≤ p
        · have h1 : l.length - p = 0 := by omega
          have h2 : (0 + p - 1) / p = 0 := by
            apply Nat.div_eq_of_lt
            omega
          rw [h1, h2]
          have h3 : l.length + p - 1 = (l.length - 1) + p := by omega
          rw [h3, Nat.add_div_right _ hp]
          have h4 : (l.length - 1) / p = 0 := by
            apply Nat.div_eq_of_lt
            omega
          rw [h4]
        · have h3 : l.length + p - 1 = (l.length - p + p - 1) + p := by omega
          rw [h3, Nat.add_div_right _ hp]
      rw [hcount, List.range_succ_eq_map, List.flatMap_cons, List.flatMap_map]
      have hshift : ∀ k, (l.drop ((k + 1) * p)).take p = ((l.drop p).drop (k * p)).take p := by
        intro k
        rw [List.drop_drop]
        congr 2
        ring
      have hrest := ih (l.drop p) (by rw [List.length_drop]; omega)
      simp only [Function.comp, Nat.succ_eq_add_one, hshift, zero_mul, List.drop_zero]
      rw [hrest]
      exact List.take_append_drop p l

theorem lt_pageCount_iff (n p k : Nat) (hp : 0 < p) :
    k < (n + p - 1) / p ↔ k * p < n := by
  rw [Nat.lt_iff_add_one_le, Nat.le_div_iff_mul_le hp]
  have : (k + 1) * p = k * p + p := by ring
  rw [this]
  omega

theorem Reachable.registry {s : server} (h : Reachable s) : s.Registry := by
  induction h with
  | new name version => exact ⟨List.nodup_nil, rfl, fun p hp => by simp [newServer] at hp⟩
  | @withTool s d th _ ih => exact (ih.apply (.withTool d th)).1
  | @toolsPerPage s n _ _ _ ih => exact (ih.apply (.toolsPerPage n)).1

theorem server.Registry.catalog_names {s : server} (h : s.Registry) :
    s.catalog.map (fun d => d.Name) = s.toolNames := by
  unfold server.catalog
  rw [List.map_map]
  conv_rhs => rw [← List.map_id s.toolNames]
  apply List.map_congr_left
  intro name hname
  have hkey : (mapGet s.tools name).isSome = true := by
    rw [mapGet_isSome_iff_mem_keys, ← h.keys]
    exact hname
  obtain ⟨t, ht⟩ := Option.isSome_iff_exists.mp hkey
  have := h.named (name, t) (mapGet_mem s.tools name t ht)
  simpa [server.definitionOf, ht] using this

/-- Page `k` of a paginated registry, for a request that asks for cursor `k`
with `k * toolsPerPage` below the number of tools. -/
theorem listToolsHandler_page_of (s : server) (rpcReq : Request) (k : Nat)
    (hs : Reachable s) (hp : s.toolsPerPage > 0)
    (hlen : (s.toolNames.length : Int) < 2 ^ 62)
    (hcur : cursorIs rpcReq k) (hk : k < s.pageCount) :
    s.listToolsHandler rpcReq =
      .ret [{ Jsonrpc := "2.0", ID := rpcReq.ID,
              Result := some (("tools", ResultValue.tools (s.page k)) ::
                (if k + 1 < s.pageCount then
                  [("nextCursor", ResultValue.json (Value.str (fmtInt ((k : Int) + 1))))]
                 else [])),
              Error := none }] := by
  have hP : ((s.toolsPerPage.toNat : Nat) : Int) = s.toolsPerPage :=
    Int.toNat_of_nonneg (le_of_lt hp)
  have hPpos : 0 < s.toolsPerPage.toNat := by omega
  have hoffN : k * s.toolsPerPage.toNat < s.toolNames.length :=
    (lt_pageCount_iff _ _ k hPpos).mp hk
  have hcast : (k : Int) * s.toolsPerPage = ((k * s.toolsPerPage.toNat : Nat) : Int) := by
    rw [Nat.cast_mul, hP]
  have hoff : (k : Int) * s.toolsPerPage < (s.toolNames.length : Int) := by
    rw [hcast]; exact_mod_cast hoffN
  have hpage := listToolsPage_enabled s (NewResponseWriter rpcReq.ID) (k : Int) hs.inv hp
    (Int.natCast_nonneg k) hlen hoff
  have hne0 : ¬ s.toolNames.length = 0 := by omega
  have hnext : ((k : Int) * s.toolsPerPage + s.toolsPerPage < (s.toolNames.length : Int))
      ↔ k + 1 < s.pageCount := by
    rw [show k + 1 < s.pageCount ↔ (k + 1) * s.toolsPerPage.toNat < s.toolNames.length from
      lt_pageCount_iff _ _ (k + 1) hPpos]
    rw [hcast]
    have e : (k + 1) * s.toolsPerPage.toNat = k * s.toolsPerPage.toNat + s.toolsPerPage.toNat := by
      ring
    rw [e]
    constructor
    · intro h; omega
    · intro h; omega
  have htake : ((s.toolNames.drop ((k : Int) * s.toolsPerPage).toNat).take
      ((min ((k : Int) * s.toolsPerPage + s.toolsPerPage) (s.toolNames.length : Int)).toNat
        - ((k : Int) * s.toolsPerPage).toNat)).map s.definitionOf = s.page k := by
    rw [hcast, Int.toNat_natCast]
    unfold server.page server.catalog
    rw [List.map_take, List.map_drop]
    by_cases hfull : k * s.toolsPerPage.toNat + s.toolsPerPage.toNat ≤ s.toolNames.length
    · have : (min (((k * s.toolsPerPage.toNat : Nat) : Int) + s.toolsPerPage)
          (s.toolNames.length : Int)).toNat - k * s.toolsPerPage.toNat
          = s.toolsPerPage.toNat := by omega
      rw [this]
    · have hA : (min (((k * s.toolsPerPage.toNat : Nat) : Int) + s.toolsPerPage)
          (s.toolNames.length : Int)).toNat - k * s.toolsPerPage.toNat
          = s.toolNames.length - k * s.toolsPerPage.toNat := by omega
      rw [hA]
      have hl : ((s.toolNames.map s.definitionOf).drop (k * s.toolsPerPage.toNat)).length
          = s.toolNames.length - k * s.toolsPerPage.toNat := by simp
      rw [List.take_of_length_le (by rw [hl]), List.take_of_length_le (by rw [hl]; omega)]
  rw [htake] at hpage
  simp only [hnext] at hpage
  rcases hcur with ⟨hnone, h0⟩ | ⟨cs, hsome, hatoi⟩
  · subst h0
    simp only [server.listToolsHandler, hne0, if_false, hnone]
    exact hpage
  · simp only [server.listToolsHandler, hne0, if_false, hsome, hatoi]
    exact hpage

theorem page_length (s : server) (k : Nat) (hp : s.toolsPerPage > 0) (hk : k < s.pageCount) :
    1 ≤ (s.page k).length ∧ ((s.page k).length : Int) ≤ s.toolsPerPage := by
  have hP : ((s.toolsPerPage.toNat : Nat) : Int) = s.toolsPerPage :=
    Int.toNat_of_nonneg (le_of_lt hp)
  have hPpos : 0 < s.toolsPerPage.toNat := by omega
  have hoffN : k * s.toolsPerPage.toNat < s.toolNames.length :=
    (lt_pageCount_iff _ _ k hPpos).mp hk
  have hl : (s.page k).length
      = min s.toolsPerPage.toNat (s.toolNames.length - k * s.toolsPerPage.toNat) := by
    simp [server.page, server.catalog]
  rw [hl]
  constructor
  · omega
  · omega

/-- C31. Pages partition the catalog. Registry built by `newServer`, `WithTool`
and `ToolsPerPage`, with a page size `p > 0` and `n > 0` tools (`n < 2^62`, as
every Go slice of strings), and the `ceil(n/p)` requests that ask for the
cursors `0` to `ceil(n/p) - 1` (cursor 0 may also be absent). There is at least
one page; every request gets exactly one success envelope, whose `tools` are
page `k` of the catalog, between 1 and `p` definitions, and whose `nextCursor`
is the decimal text of `k + 1` on every page but the last and is absent on the
last; that text parses back to `k + 1`; the pages in cursor order concatenate
to the whole catalog in registration order; and the names of the catalog are
the registered names, none of them twice. -/
theorem listToolsHandler_pages_partition (s : server) (reqs : Nat → Request)
    (hs : Reachable s) (hp : s.toolsPerPage > 0) (hne : s.toolNames ≠ [])
    (hlen : (s.toolNames.length : Int) < 2 ^ 62)
    (hreq : ∀ k, k < s.pageCount → cursorIs (reqs k) k) :
    0 < s.pageCount
      ∧ (∀ k, k < s.pageCount →
          s.listToolsHandler (reqs k) =
            .ret [{ Jsonrpc := "2.0", ID := (reqs k).ID,
                    Result := some (("tools", ResultValue.tools (s.page k)) ::
                      (if k + 1 < s.pageCount then
                        [("nextCursor", ResultValue.json (Value.str (fmtInt ((k : Int) + 1))))]
                       else [])),
                    Error := none }]
          ∧ 1 ≤ (s.page k).length ∧ ((s.page k).length : Int) ≤ s.toolsPerPage
          ∧ Atoi (fmtInt ((k : Int) + 1)) = some ((k : Int) + 1))
      ∧ (List.range s.pageCount).flatMap s.page = s.catalog
      ∧ s.catalog.map (fun d => d.Name) = s.toolNames
      ∧ s.toolNames.Nodup := by
  have hP : ((s.toolsPerPage.toNat : Nat) : Int) = s.toolsPerPage :=
    Int.toNat_of_nonneg (le_of_lt hp)
  have hPpos : 0 < s.toolsPerPage.toNat := by omega
  have hpos : 0 < s.toolNames.length := List.length_pos.mpr hne
  have hreg := hs.registry
  refine ⟨?_, ?_, ?_, hreg.catalog_names, hreg.nodup⟩
  · exact (lt_pageCount_iff _ _ 0 hPpos).mpr (by omega)
  · intro k hk
    refine ⟨listToolsHandler_page_of s (reqs k) k hs hp hlen (hreq k hk) hk,
      (page_length s k hp hk).1, (page_length s k hp hk).2, ?_⟩
    have hoffN : k * s.toolsPerPage.toNat < s.toolNames.length :=
      (lt_pageCount_iff _ _ k hPpos).mp hk
    have hkn : k < s.toolNames.length := by nlinarith
    have hmax : maxInt = 2 ^ 63 - 1 := rfl
    have := Atoi_fmtInt (k + 1) (by rw [hmax]; push_cast; omega)
    simpa using this
  · have hcat : s.catalog.length = s.toolNames.length := by simp [server.catalog]
    have := flatMap_pages s.toolsPerPage.toNat hPpos s.catalog.length s.catalog (le_refl _)
    rw [hcat] at this
    exact this

theorem listToolsHandler_pages_partition_witness :
    pagedFive.listToolsHandler (cursorRequest 0) =
        .ret [{ Jsonrpc := "2.0", ID := 1,
                Result := some
                  [("tools", ResultValue.tools [(NewTool "a").Build, (NewTool "b").Build]),
                   ("nextCursor", ResultValue.json (Value.str "1"))],
                Error := none }]
      ∧ pagedFive.listToolsHandler (cursorRequest 1) =
        .ret [{ Jsonrpc := "2.0", ID := 1,
                Result := some
                  [("tools", ResultValue.tools [(NewTool "c").Build, (NewTool "d").Build]),
                   ("nextCursor", ResultValue.json (Value.str "2"))],
                Error := none }]
      ∧ pagedFive.listToolsHandler (cursorRequest 2) =
        .ret [{ Jsonrpc := "2.0", ID := 1,
                Result := some [("tools", ResultValue.tools [(NewTool "e").Build])],
                Error := none }]
      ∧ (List.range pagedFive.pageCount).flatMap pagedFive.page = pagedFive.catalog
      ∧ pagedFive.pageCount = 3 :=
  have hcount : pagedFive.pageCount = 3 := by decide
  have h := listToolsHandler_pages_partition pagedFive cursorRequest
    (.toolsPerPage 2 (by decide) (by decide) fiveTools_reachable) (by decide) (by decide)
    (by decide)
    (fun k hk => Or.inr ⟨fmtInt (k : Int), rfl,
      Atoi_fmtInt k (by
        have hmax : maxInt = 2 ^ 63 - 1 := rfl
        rw [hmax]
        omega)⟩)
  ⟨(h.2.1 0 (by decide)).1.trans (by rfl), (h.2.1 1 (by decide)).1.trans (by rfl),
    (h.2.1 2 (by decide)).1.trans (by rfl), h.2.2.1, hcount⟩

/-! ## Iteration order of the argument map -/

theorem required_perm (args args' : List (String × Value)) (hperm : args.Perm args')
    (req : List String) :
    ValidateArguments.required args req = ValidateArguments.required args' req := by
  have hkeys : ∀ f, (mapGet args f).isSome = (mapGet args' f).isSome := by
    intro f
    have h1 := mapGet_isSome_iff_mem_keys args f
    have h2 := mapGet_isSome_iff_mem_keys args' f
    have h3 : f ∈ args.map Prod.fst ↔ f ∈ args'.map Prod.fst := (hperm.map _).mem_iff
    cases ha : (mapGet args f).isSome <;> cases hb : (mapGet args' f).isSome <;> simp_all
  induction req with
  | nil => rfl
  | cons f rest ih =>
    unfold ValidateArguments.required
    rw [hkeys f, ih]

/-- The argument loop returns no error exactly when every entry is declared
and passes its type check. -/
theorem range_none_iff (props : List (String × Option ToolSchema))
    (args : List (String × Value)) :
    ValidateArguments.range props args = .ret none
      ↔ ∀ p ∈ args, ∃ sc, mapGet props p.1 = some (some sc)
          ∧ validateArgumentType p.1 p.2 sc.Type_ = none := by
  induction args with
  | nil => simp [ValidateArguments.range]
  | cons p rest ih =>
    obtain ⟨k, v⟩ := p
    unfold ValidateArguments.range
    cases hk : mapGet props k with
    | none => simp [hk]
    | some sp =>
      cases sp with
      | none => simp [hk]
      | some sc =>
        cases hv : validateArgumentType k v sc.Type_ with
        | some err => simp [hk, hv]
        | none => simp [hk, hv, ih]

/-- Acceptance does not depend on the iteration order, whatever the schema. -/
theorem ValidateArguments_accept_perm (d : ToolDefinition) (args args' : List (String × Value))
    (hperm : args.Perm args') (h : d.ValidateArguments args = .ret none) :
    d.ValidateArguments args' = .ret none := by
  unfold ToolDefinition.ValidateArguments at h ⊢
  rw [← required_perm args args' hperm]
  cases hr : ValidateArguments.required args d.InputSchema.Required with
  | some err => simp [hr] at h
  | none =>
    simp only [hr] at h ⊢
    cases hp : d.InputSchema.Properties with
    | none => rfl
    | some props =>
      simp only [hp] at h ⊢
      rw [range_none_iff] at h ⊢
      intro p hp'
      exact h p (hperm.mem_iff.mpr hp')

/-- With no nil pointer among the properties, the argument loop returns the
error of the first entry with a defect, in iteration order. -/
theorem range_findSome (d : ToolDefinition) (props : List (String × Option ToolSchema))
    (hprops : d.InputSchema.Properties = some props)
    (hnn : ∀ k sp, mapGet props k = some sp → sp.isSome = true)
    (args : List (String × Value)) :
    ValidateArguments.range props args = .ret (args.findSome? d.defect) := by
  induction args with
  | nil => rfl
  | cons p rest ih =>
    obtain ⟨k, v⟩ := p
    unfold ValidateArguments.range
    cases hk : mapGet props k with
    | none => simp [List.findSome?, ToolDefinition.defect, hprops, hk]
    | some sp =>
      cases sp with
      | none => have := hnn k none hk; simp at this
      | some sc =>
        cases hv : validateArgumentType k v sc.Type_ with
        | some err => simp [List.findSome?, ToolDefinition.defect, hprops, hk, hv]
        | none => simp [List.findSome?, ToolDefinition.defect, hprops, hk, hv, ih]

/-- With no nil pointer among the properties, `ValidateArguments` returns the
error of the first missing required name, or else the error of the first entry
with a defect in iteration order, or else no error. -/
theorem ValidateArguments_eq (d : ToolDefinition) (args : List (String × Value))
    (hnn : d.InputSchema.propertiesNonNil = true) :
    d.ValidateArguments args =
      .ret (match ValidateArguments.required args d.InputSchema.Required with
            | some err => some err
            | none => args.findSome? d.defect) := by
  unfold ToolDefinition.ValidateArguments
  cases hr : ValidateArguments.required args d.InputSchema.Required with
  | some err => rfl
  | none =>
    cases hp : d.InputSchema.Properties with
    | none =>
      have : args.findSome? d.defect = none := by
        rw [List.findSome?_eq_none_iff]
        intro p _
        simp [ToolDefinition.defect, hp]
      simp [this]
    | some props =>
      have hall : ∀ p ∈ props, p.2.isSome = true := by
        simpa [ToolSchema.propertiesNonNil, hp] using hnn
      simp only []
      exact range_findSome d props hp (nonNil_of_all props hall) args

theorem findSome_mem {α β : Type} (f : α → Option β) (l : List α) (b : β)
    (h : l.findSome? f = some b) : ∃ a ∈ l, f a = some b := by
  induction l with
  | nil => simp at h
  | cons a rest ih =>
    rw [List.findSome?_cons] at h
    cases hf : f a with
    | some b' =>
      simp only [hf] at h
      cases h
      exact ⟨a, List.mem_cons_self _ _, hf⟩
    | none =>
      simp only [hf] at h
      obtain ⟨a', ha', hfa'⟩ := ih h
      exact ⟨a', List.mem_cons_of_mem _ ha', hfa'⟩

theorem defect_code (d : ToolDefinition) (p : String × Value) (e : ProtocolError)
    (h : d.defect p = some e) : e.Code = -32602 := by
  unfold ToolDefinition.defect at h
  split at h
  · cases h
  · split at h
    · cases h; rfl
    · cases h
    · exact validateArgumentType_code _ _ _ e h

/-- C33, counterexample. The schema declares `a` as a nil pointer and `b` as a
number; the arguments are `a: 1, b: "s"`. Iterated with `a` first,
`ValidateArguments` panics; iterated with `b` first, it rejects the arguments
with an `InvalidParams` error. The outcome depends on the iteration order. -/
theorem ValidateArguments_order_changes_outcome :
    [("a", Value.number 1), ("b", Value.str "s")].Perm
        [("b", Value.str "s"), ("a", Value.number 1)]
      ∧ nilPointerA.ValidateArguments [("a", Value.number 1), ("b", Value.str "s")] = .panic
      ∧ nilPointerA.ValidateArguments [("b", Value.str "s"), ("a", Value.number 1)]
          = .ret (some { Code := -32602, Message := "argument \x27b\x27 must be a number" }) :=
  ⟨List.Perm.swap _ _ _, by rfl, by rfl⟩

/-- C33, amended. The verdict of `ValidateArguments` does not depend on the order in
which the argument map is iterated. For a schema whose properties hold no nil
pointer and two iteration orders of the same entries: both orders are accepted,
or both are rejected with the code `InvalidParams` (-32602). If the two results
differ at all, they are the errors of two distinct entries that both have a
defect (an unexpected key or an ill-typed value). And when no required name is
missing, the error of every entry with a defect is the result under some
iteration order. -/
theorem ValidateArguments_order_independent (d : ToolDefinition)
    (args args' : List (String × Value))
    (hnn : d.InputSchema.propertiesNonNil = true) (hperm : args.Perm args') :
    ((d.ValidateArguments args = .ret none ∧ d.ValidateArguments args' = .ret none)
        ∨ ∃ e e', d.ValidateArguments args = .ret (some e)
            ∧ d.ValidateArguments args' = .ret (some e')
            ∧ e.Code = -32602 ∧ e'.Code = -32602)
      ∧ (d.ValidateArguments args ≠ d.ValidateArguments args' →
          ∃ p q, p ∈ args ∧ q ∈ args ∧ p ≠ q
            ∧ (d.defect p).isSome = true ∧ (d.defect q).isSome = true
            ∧ d.ValidateArguments args = .ret (d.defect p)
            ∧ d.ValidateArguments args' = .ret (d.defect q))
      ∧ (∀ p ∈ args, (d.defect p).isSome = true →
          (∀ f ∈ d.InputSchema.Required, (mapGet args f).isSome = true) →
          ∃ args'', args.Perm args'' ∧ d.ValidateArguments args'' = .ret (d.defect p)) := by
  have hreq := required_perm args args' hperm d.InputSchema.Required
  have h1 := ValidateArguments_eq d args hnn
  have h2 := ValidateArguments_eq d args' hnn
  refine ⟨?_, ?_, ?_⟩
  · rcases ValidateArguments_never_panics d args hnn with ha | ⟨e, ha, he⟩
    · exact Or.inl ⟨ha, ValidateArguments_accept_perm d args args' hperm ha⟩
    · rcases ValidateArguments_never_panics d args' hnn with hb | ⟨e', hb, he'⟩
      · have := ValidateArguments_accept_perm d args' args hperm.symm hb
        rw [ha] at this
        cases this
      · exact Or.inr ⟨e, e', ha, hb, he, he'⟩
  · intro hdiff
    rw [← hreq] at h2
    cases hr : ValidateArguments.required args d.InputSchema.Required with
    | some err =>
      simp only [hr] at h1 h2
      exact absurd (h1.trans h2.symm) hdiff
    | none =>
      simp only [hr] at h1 h2
      cases hf : args.findSome? d.defect with
      | none =>
        rw [hf] at h1
        have := ValidateArguments_accept_perm d args args' hperm h1
        exact absurd (h1.trans this.symm) hdiff
      | some e =>
        cases hf' : args'.findSome? d.defect with
        | none =>
          rw [hf'] at h2
          have := ValidateArguments_accept_perm d args' args hperm.symm h2
          exact absurd (this.trans h2.symm) hdiff
        | some e' =>
          obtain ⟨p, hp, hpe⟩ := findSome_mem d.defect args e hf
          obtain ⟨q, hq, hqe⟩ := findSome_mem d.defect args' e' hf'
          rw [hf] at h1
          rw [hf'] at h2
          refine ⟨p, q, hp, hperm.mem_iff.mpr hq, ?_, by rw [hpe]; rfl, by rw [hqe]; rfl,
            by rw [hpe]; exact h1, by rw [hqe]; exact h2⟩
          intro hpq
          subst hpq
          rw [hpe] at hqe
          cases hqe
          exact hdiff (h1.trans h2.symm)
  · intro p hp hdef hall
    obtain ⟨s, t, hst⟩ := List.append_of_mem hp
    have hperm2 : args.Perm (p :: (s ++ t)) := by
      rw [hst]
      exact List.perm_middle
    refine ⟨p :: (s ++ t), hperm2, ?_⟩
    rw [ValidateArguments_eq d (p :: (s ++ t)) hnn,
      ← required_perm args (p :: (s ++ t)) hperm2,
      (required_none_iff args d.InputSchema.Required).mpr hall]
    obtain ⟨e, he⟩ := Option.isSome_iff_exists.mp hdef
    simp [List.findSome?_cons, he]

theorem ValidateArguments_order_independent_witness :
    numberX.InputSchema.propertiesNonNil = true
      ∧ twoDefects.Perm twoDefects.reverse
      ∧ numberX.ValidateArguments twoDefects
          = .ret (some { Code := -32602, Message := "argument \x27x\x27 must be a number" })
      ∧ numberX.ValidateArguments twoDefects.reverse
          = .ret (some { Code := -32602, Message := "unexpected argument: y" })
      ∧ ((numberX.ValidateArguments twoDefects = .ret none
            ∧ numberX.ValidateArguments twoDefects.reverse = .ret none)
          ∨ ∃ e e', numberX.ValidateArguments twoDefects = .ret (some e)
              ∧ numberX.ValidateArguments twoDefects.reverse = .ret (some e')
              ∧ e.Code = -32602 ∧ e'.Code = -32602) :=
  ⟨by decide, (List.reverse_perm twoDefects).symm, by rfl, by rfl,
    (ValidateArguments_order_independent numberX twoDefects twoDefects.reverse (by decide)
      (List.reverse_perm twoDefects).symm).1⟩

/-! ## The argument gate of tools/call -/

/-- C32. The fail-fast gate is sound. If `resolveHandler` returns a handler for
a `tools/call` request, then `params.name` is a string that names a registered
tool, the handler is the handler of that tool, and the argument map that the
handler built by `ToolFunc.MCPHandler` passes to the tool function
(`params.arguments` when it is an object, otherwise the empty map) is accepted
by `ValidateArguments` for the input schema of that tool, in every iteration
order. The handler consults the tool function on that argument map only. -/
theorem resolveHandler_gate_sound (s : server) (rpcReq : Request) (h : MCPHandler)
    (hm : rpcReq.Method = "tools/call") (hr : s.resolveHandler rpcReq = .ret (.ok h)) :
    ∃ name t, mapGet rpcReq.Params "name" = some (Value.str name)
      ∧ mapGet s.tools name = some t ∧ h = t.handler
      ∧ (∀ args, (handlerArguments rpcReq).Perm args →
          t.toolDefinition.ValidateArguments args = .ret none)
      ∧ (∀ (fmtFloat : ℚ → String) (f g : ToolFunc),
          f (handlerArguments rpcReq) = g (handlerArguments rpcReq) →
          ToolFunc.MCPHandler fmtFloat f t.toolDefinition rpcReq
            = ToolFunc.MCPHandler fmtFloat g t.toolDefinition rpcReq) := by
  have hext : ∀ (d : ToolDefinition) (fmtFloat : ℚ → String) (f g : ToolFunc),
      f (handlerArguments rpcReq) = g (handlerArguments rpcReq) →
      ToolFunc.MCPHandler fmtFloat f d rpcReq = ToolFunc.MCPHandler fmtFloat g d rpcReq := by
    intro d fmtFloat f g hfg
    rw [MCPHandler_eq, MCPHandler_eq, hfg]
  rw [resolveHandler_call_eq s rpcReq hm] at hr
  cases hname : mapGet rpcReq.Params "name" with
  | none => simp [hname] at hr
  | some toolName =>
    cases toolName with
    | str name =>
      simp only [hname] at hr
      cases ht : mapGet s.tools name with
      | none => simp [ht] at hr
      | some t =>
        simp only [ht] at hr
        refine ⟨name, t, rfl, ht, ?_⟩
        cases hargs : mapGet rpcReq.Params "arguments" with
        | none =>
          simp only [hargs] at hr
          have hreq : t.toolDefinition.InputSchema.Required = [] := by
            cases hR : t.toolDefinition.InputSchema.Required with
            | nil => rfl
            | cons a b => simp [hR] at hr
          simp only [hreq, List.length_nil, gt_iff_lt, lt_self_iff_false, if_false] at hr
          have hargs0 : handlerArguments rpcReq = [] := by simp [handlerArguments, hargs]
          refine ⟨by simpa using hr.symm, ?_, hext t.toolDefinition⟩
          intro args hperm
          rw [hargs0] at hperm
          have : args = [] := List.Perm.nil_eq hperm |>.symm
          subst this
          unfold ToolDefinition.ValidateArguments
          rw [hreq]
          cases hp : t.toolDefinition.InputSchema.Properties <;>
            simp [ValidateArguments.required, ValidateArguments.range]
        | some a =>
          simp only [hargs] at hr
          cases a with
          | object m =>
            simp only [] at hr
            cases hv : t.toolDefinition.ValidateArguments m with
            | panic => simp [hv] at hr
            | ret r =>
              cases r with
              | some err => simp [hv] at hr
              | none =>
                simp only [hv] at hr
                have hargs0 : handlerArguments rpcReq = m := by simp [handlerArguments, hargs]
                refine ⟨by simpa using hr.symm, ?_, hext t.toolDefinition⟩
                intro args hperm
                rw [hargs0] at hperm
                exact ValidateArguments_accept_perm t.toolDefinition m args hperm hv
          | null => simp at hr
          | bool b => simp at hr
          | number x => simp at hr
          | str x => simp at hr
          | array xs => simp at hr
    | null => simp [hname] at hr
    | bool b => simp [hname] at hr
    | number x => simp [hname] at hr
    | array xs => simp [hname] at hr
    | object kvs => simp [hname] at hr

theorem resolveHandler_gate_sound_witness :
    ((newServer "robot" "1").WithTool requiresX echoHandler).resolveHandler
        (callRequest [("name", Value.str "needs-x"),
                      ("arguments", Value.object [("x", Value.str "v")])])
        = .ret (.ok (echoHandler.MCPHandler requiresX))
      ∧ handlerArguments (callRequest [("name", Value.str "needs-x"),
                      ("arguments", Value.object [("x", Value.str "v")])])
        = [("x", Value.str "v")]
      ∧ ∃ name t, mapGet (callRequest [("name", Value.str "needs-x"),
                      ("arguments", Value.object [("x", Value.str "v")])]).Params "name"
            = some (Value.str name)
          ∧ mapGet ((newServer "robot" "1").WithTool requiresX echoHandler).tools name = some t
          ∧ echoHandler.MCPHandler requiresX = t.handler
          ∧ (∀ args, (handlerArguments (callRequest [("name", Value.str "needs-x"),
                      ("arguments", Value.object [("x", Value.str "v")])])).Perm args →
              t.toolDefinition.ValidateArguments args = .ret none)
          ∧ (∀ (fmtFloat : ℚ → String) (f g : ToolFunc),
              f (handlerArguments (callRequest [("name", Value.str "needs-x"),
                      ("arguments", Value.object [("x", Value.str "v")])]))
                = g (handlerArguments (callRequest [("name", Value.str "needs-x"),
                      ("arguments", Value.object [("x", Value.str "v")])])) →
              ToolFunc.MCPHandler fmtFloat f t.toolDefinition
                  (callRequest [("name", Value.str "needs-x"),
                      ("arguments", Value.object [("x", Value.str "v")])])
                = ToolFunc.MCPHandler fmtFloat g t.toolDefinition
                  (callRequest [("name", Value.str "needs-x"),
                      ("arguments", Value.object [("x", Value.str "v")])])) :=
  ⟨by rfl, by rfl,
    resolveHandler_gate_sound ((newServer "robot" "1").WithTool requiresX echoHandler)
      (callRequest [("name", Value.str "needs-x"),
                    ("arguments", Value.object [("x", Value.str "v")])])
      (echoHandler.MCPHandler requiresX) (by rfl) (by rfl)⟩

/-! ## Reading back what json.Marshal writes -/

theorem hexVal_hexDigit (k : Nat) (h : k < 16) : hexVal (hexDigit k) = some k := by
  interval_cases k <;> rfl

theorem char_of_toNat (c : Char) (n : Nat) (h : c.toNat = n) : c = Char.ofNat n := by
  rw [← h]
  exact (Char.ofNat_toNat c).symm

theorem parseStringBody_literal (c : Char) (tail : List Char)
    (h34 : c.toNat ≠ 34) (h92 : c.toNat ≠ 92) (h32 : ¬ c.toNat < 32) :
    parseStringBody (c :: tail) =
      match parseStringBody tail with
      | none => none
      | some (s, r) => some (c :: s, r) := by
  have e34 : c ≠ Char.ofNat 34 := by
    intro h; rw [h] at h34; exact h34 (by decide)
  have e92 : c ≠ Char.ofNat 92 := by
    intro h; rw [h] at h92; exact h92 (by decide)
  rw [parseStringBody.eq_def]
  simp only [e34, e92, h32, if_false]

theorem parseStringBody_short (e ch : Char) (tail : List Char)
    (hu : e ≠ 'u') (he : unescape e = some ch) :
    parseStringBody (Char.ofNat 92 :: e :: tail) =
      match parseStringBody tail with
      | none => none
      | some (s, r) => some (ch :: s, r) := by
  rw [parseStringBody.eq_def]
  have e1 : ¬ (Char.ofNat 92 = Char.ofNat 34) := by decide
  simp only [e1, if_false, if_true, hu, he]

theorem parseStringBody_unicode (a b c d : Char) (n : Nat) (tail : List Char)
    (hn : hex4 a b c d = some n) (hs : ¬ (55296 ≤ n ∧ n ≤ 57343)) :
    parseStringBody (Char.ofNat 92 :: 'u' :: a :: b :: c :: d :: tail) =
      match parseStringBody tail with
      | none => none
      | some (s, r) => some (Char.ofNat n :: s, r) := by
  rw [parseStringBody.eq_def]
  have e1 : ¬ (Char.ofNat 92 = Char.ofNat 34) := by decide
  simp only [e1, if_false, if_true, hn, hs]

/-- The decoder reads the escape that `json.Marshal` writes for a character
back as that character. -/
theorem parseStringBody_escape (c : Char) (tail : List Char) :
    parseStringBody (jsonEscape c ++ tail) =
      match parseStringBody tail with
      | none => none
      | some (s, r) => some (c :: s, r) := by
  unfold jsonEscape
  split_ifs with h1 h2 h3 h4 h5 h6 h7 h8 h9
  · rcases h1 with h | h
    · rw [char_of_toNat c 34 h]
      exact parseStringBody_short _ _ tail (by decide) (by rfl)
    · rw [char_of_toNat c 92 h]
      exact parseStringBody_short _ _ tail (by decide) (by rfl)
  · rw [char_of_toNat c 8 h2]
    exact parseStringBody_short _ _ tail (by decide) (by rfl)
  · rw [char_of_toNat c 12 h3]
    exact parseStringBody_short _ _ tail (by decide) (by rfl)
  · rw [char_of_toNat c 10 h4]
    exact parseStringBody_short _ _ tail (by decide) (by rfl)
  · rw [char_of_toNat c 13 h5]
    exact parseStringBody_short _ _ tail (by decide) (by rfl)
  · rw [char_of_toNat c 9 h6]
    exact parseStringBody_short _ _ tail (by decide) (by rfl)
  · have hlt : c.toNat < 128 := by
      rcases h7 with h | h | h | h
      · omega
      · rw [h]; decide
      · rw [h]; decide
      · rw [h]; decide
    have hhex : hex4 '0' '0' (hexDigit (c.toNat / 16)) (hexDigit (c.toNat % 16))
        = some c.toNat := by
      have ha := hexVal_hexDigit (c.toNat / 16) (by omega)
      have hb := hexVal_hexDigit (c.toNat % 16) (by omega)
      have h0 : hexVal '0' = some 0 := by rfl
      simp only [hex4, ha, hb, h0]
      congr 1
      omega
    have := parseStringBody_unicode '0' '0' (hexDigit (c.toNat / 16)) (hexDigit (c.toNat % 16))
      c.toNat tail hhex (by omega)
    rw [Char.ofNat_toNat] at this
    exact this
  · have := parseStringBody_unicode '2' '0' '2' '8' 8232 tail (by rfl) (by omega)
    rw [char_of_toNat c 8232 h8]
    exact this
  · have := parseStringBody_unicode '2' '0' '2' '9' 8233 tail (by rfl) (by omega)
    rw [char_of_toNat c 8233 h9]
    exact this
  · push_neg at h1 h7
    exact parseStringBody_literal c tail h1.1 h1.2 (by omega)

/-- The decoder reads the string literal that `json.Marshal` writes back as
the string. -/
theorem parseStringBody_jsonString (s : List Char) (rest : List Char) :
    parseStringBody (s.flatMap jsonEscape ++ Char.ofNat 34 :: rest) = some (s, rest) := by
  induction s with
  | nil =>
    rw [List.flatMap_nil, List.nil_append, parseStringBody.eq_def]
    simp
  | cons c s ih =>
    rw [List.flatMap_cons, List.append_assoc, parseStringBody_escape, ih]

theorem insertField_perm {β : Type} (p : String × β) (l : List (String × β)) :
    (insertField p l).Perm (p :: l) := by
  induction l with
  | nil => exact List.Perm.refl _
  | cons q rest ih =>
    unfold insertField
    split_ifs
    · exact List.Perm.refl _
    · exact (List.Perm.cons q ih).trans (List.Perm.swap p q rest)

theorem sortFields_perm {β : Type} (l : List (String × β)) : (sortFields l).Perm l := by
  induction l with
  | nil => exact List.Perm.refl _
  | cons p rest ih =>
    unfold sortFields
    exact (insertField_perm p (sortFields rest)).trans (List.Perm.cons p ih)

theorem insertField_map {β γ : Type} (f : β → γ) (p : String × β) (l : List (String × β)) :
    insertField (p.1, f p.2) (l.map (fun q => (q.1, f q.2)))
      = (insertField p l).map (fun q => (q.1, f q.2)) := by
  induction l with
  | nil => rfl
  | cons q rest ih =>
    simp only [List.map_cons, insertField]
    split_ifs
    · rfl
    · rw [List.map_cons, ih]

theorem sortFields_map {β γ : Type} (f : β → γ) (l : List (String × β)) :
    sortFields (l.map (fun q => (q.1, f q.2))) = (sortFields l).map (fun q => (q.1, f q.2)) := by
  induction l with
  | nil => rfl
  | cons p rest ih =>
    simp only [List.map_cons, sortFields]
    rw [ih, insertField_map]

theorem jsonMarshalFields_eq_map (fmtFloat : ℚ → String) (kvs : List (String × GoValue)) :
    jsonMarshalFields fmtFloat kvs = kvs.map (fun q => (q.1, jsonMarshal fmtFloat q.2)) := by
  induction kvs with
  | nil => simp [jsonMarshalFields]
  | cons p rest ih =>
    obtain ⟨k, v⟩ := p
    simp [jsonMarshalFields, ih]

theorem canonFields_eq_map (kvs : List (String × GoValue)) :
    canonFields kvs = kvs.map (fun q => (q.1, q.2.canon)) := by
  induction kvs with
  | nil => simp [canonFields]
  | cons p rest ih =>
    obtain ⟨k, v⟩ := p
    simp [canonFields, ih]

theorem canonList_eq_map (xs : List GoValue) : canonList xs = xs.map GoValue.canon := by
  induction xs with
  | nil => simp [canonList]
  | cons x rest ih => simp [canonList, ih]

/-- Storing entries with distinct keys one after the other gives the entries
in that order. -/
theorem foldl_mapSet_distinct (kvs acc : List (String × GoValue))
    (hnd : (kvs.map Prod.fst).Nodup)
    (hdisj : ∀ k ∈ kvs.map Prod.fst, k ∉ acc.map Prod.fst) :
    kvs.foldl (fun m p => mapSet m p.1 p.2) acc = acc ++ kvs := by
  induction kvs generalizing acc with
  | nil => simp
  | cons p rest ih =>
    obtain ⟨k, v⟩ := p
    simp only [List.map_cons, List.nodup_cons] at hnd
    have hk : k ∉ acc.map Prod.fst := hdisj k (by simp)
    have hnone : mapGet acc k = none := by
      cases hg : mapGet acc k with
      | none => rfl
      | some x =>
        have : (mapGet acc k).isSome = true := by rw [hg]; rfl
        exact absurd ((mapGet_isSome_iff_mem_keys acc k).mp this) hk
    simp only [List.foldl_cons]
    rw [mapSet_absent acc k v hnone, ih (acc ++ [(k, v)]) hnd.2]
    · simp
    · intro k' hk'
      simp only [List.map_append, List.map_cons, List.map_nil, List.mem_append,
        List.mem_singleton, not_or]
      refine ⟨hdisj k' (by simp [hk']), ?_⟩
      rintro rfl
      exact hnd.1 hk'

theorem fromEntries_distinct (kvs : List (String × GoValue))
    (hnd : (kvs.map Prod.fst).Nodup) : fromEntries kvs = kvs := by
  unfold fromEntries
  rw [foldl_mapSet_distinct kvs [] hnd (by simp)]
  simp

theorem parseValue_succ (pf : List Char → Option ℚ) (fuel : Nat) (c : Char) (rest : List Char) :
    parseValue pf (fuel + 1) (c :: rest) =
      if c = 'n' then parseWord ['u', 'l', 'l'] .null rest
      else if c = 't' then parseWord ['r', 'u', 'e'] (.bool true) rest
      else if c = 'f' then parseWord ['a', 'l', 's', 'e'] (.bool false) rest
      else if c = Char.ofNat 34 then
        (parseStringBody rest).map (fun p => (GoValue.str (String.mk p.1), p.2))
      else if c = '[' then
        if rest.head? = some ']' then some (.array [], rest.tail)
        else (parseElements pf fuel rest).map (fun p => (GoValue.array p.1, p.2))
      else if c = Char.ofNat 123 then
        if rest.head? = some (Char.ofNat 125) then some (.object [], rest.tail)
        else
          (parseMembers pf fuel rest).map
            (fun p => (GoValue.object (fromEntries p.1), p.2))
      else if c = '-' ∨ c.isDigit = true then
        (parseNumber pf (c :: rest)).map (fun p => (GoValue.number p.1, p.2))
      else none := by
  rw [parseValue]

theorem parseElements_succ (pf : List Char → Option ℚ) (fuel : Nat) (input : List Char) :
    parseElements pf (fuel + 1) input =
      match parseValue pf fuel input with
      | none => none
      | some (v, rest) =>
        if rest.head? = some ',' then
          (parseElements pf fuel rest.tail).map (fun p => (v :: p.1, p.2))
        else if rest.head? = some ']' then some ([v], rest.tail)
        else none := by
  rw [parseElements]

theorem parseMembers_succ (pf : List Char → Option ℚ) (fuel : Nat) (input : List Char) :
    parseMembers pf (fuel + 1) input =
      if input.head? = some (Char.ofNat 34) then
        match parseStringBody input.tail with
        | none => none
        | some (k, rest) =>
          if rest.head? = some ':' then
            match parseValue pf fuel rest.tail with
            | none => none
            | some (v, rest1) =>
              if rest1.head? = some ',' then
                (parseMembers pf fuel rest1.tail).map
                  (fun p => ((String.mk k, v) :: p.1, p.2))
              else if rest1.head? = some (Char.ofNat 125) then
                some ([(String.mk k, v)], rest1.tail)
              else none
          else none
      else none := by
  rw [parseMembers]

theorem takeWhile_number (txt rest : List Char) (hall : txt.all isNumberChar = true)
    (hrest : ∀ c ∈ rest.head?, isNumberChar c = false) :
    (txt ++ rest).takeWhile isNumberChar = txt
      ∧ (txt ++ rest).dropWhile isNumberChar = rest := by
  induction txt with
  | nil =>
    cases rest with
    | nil => simp
    | cons c r =>
      have := hrest c (by simp)
      simp [List.takeWhile, List.dropWhile, this]
  | cons c t ih =>
    simp only [List.all_cons, Bool.and_eq_true] at hall
    obtain ⟨h1, h2⟩ := ih hall.2
    simp [List.takeWhile, List.dropWhile, hall.1, h1, h2]

theorem readsBack_number (fmtFloat : ℚ → String) (parseFloat : List Char → Option ℚ) (f : ℚ)
    (h : floatReadBack fmtFloat parseFloat f = true) :
    (GoValue.number f).readsBack fmtFloat parseFloat := by
  intro txt htxt
  have htxt' : txt = (fmtFloat f).toList := by
    simp only [jsonMarshal, Except.ok.injEq] at htxt
    exact htxt.symm
  subst htxt'
  simp only [floatReadBack, Bool.and_eq_true, decide_eq_true_eq] at h
  obtain ⟨⟨hall, hhead⟩, hparse⟩ := h
  cases hl : (fmtFloat f).toList with
  | nil => rw [hl] at hhead; simp at hhead
  | cons c t =>
    rw [hl] at hhead hall hparse
    simp only [Bool.or_eq_true, decide_eq_true_eq] at hhead
    have hc : ∀ x : Char, x.isDigit = false → x ≠ '-' → c ≠ x := by
      intro x hx hx' hcx
      subst hcx
      rcases hhead with h | h
      · exact hx' h
      · rw [hx] at h; cases h
    refine ⟨⟨c, t, rfl, hc ']' (by decide) (by decide)⟩, ?_⟩
    intro fuel hfuel rest hrest
    cases fuel with
    | zero => simp at hfuel
    | succ fuel =>
      obtain ⟨h1, h2⟩ := takeWhile_number (c :: t) rest hall hrest
      rw [List.cons_append, parseValue_succ]
      simp only [hc 'n' (by decide) (by decide), hc 't' (by decide) (by decide),
        hc 'f' (by decide) (by decide), hc (Char.ofNat 34) (by decide) (by decide),
        hc '[' (by decide) (by decide), hc (Char.ofNat 123) (by decide) (by decide),
        if_false, hhead, if_true, parseNumber]
      rw [← List.cons_append, h1, h2, hparse]
      rfl

theorem readsBack_null (fmtFloat : ℚ → String) (parseFloat : List Char → Option ℚ) :
    GoValue.null.readsBack fmtFloat parseFloat := by
  intro txt htxt
  simp only [jsonMarshal, Except.ok.injEq] at htxt
  subst htxt
  refine ⟨⟨'n', ['u', 'l', 'l'], rfl, by decide⟩, ?_⟩
  intro fuel hfuel rest _
  cases fuel with
  | zero => simp at hfuel
  | succ fuel =>
    show parseValue parseFloat (fuel + 1) ('n' :: ('u' :: 'l' :: 'l' :: rest)) = _
    rw [parseValue_succ]
    simp [parseWord, List.isPrefixOf, GoValue.canon]

theorem readsBack_bool (fmtFloat : ℚ → String) (parseFloat : List Char → Option ℚ) (b : Bool) :
    (GoValue.bool b).readsBack fmtFloat parseFloat := by
  intro txt htxt
  simp only [jsonMarshal, Except.ok.injEq] at htxt
  subst htxt
  cases b with
  | true =>
    refine ⟨⟨'t', ['r', 'u', 'e'], rfl, by decide⟩, ?_⟩
    intro fuel hfuel rest _
    cases fuel with
    | zero => simp at hfuel
    | succ fuel =>
      show parseValue parseFloat (fuel + 1) ('t' :: ('r' :: 'u' :: 'e' :: rest)) = _
      rw [parseValue_succ]
      simp [parseWord, List.isPrefixOf, GoValue.canon]
  | false =>
    refine ⟨⟨'f', ['a', 'l', 's', 'e'], rfl, by decide⟩, ?_⟩
    intro fuel hfuel rest _
    cases fuel with
    | zero => simp at hfuel
    | succ fuel =>
      show parseValue parseFloat (fuel + 1) ('f' :: ('a' :: 'l' :: 's' :: 'e' :: rest)) = _
      rw [parseValue_succ]
      simp [parseWord, List.isPrefixOf, GoValue.canon]

theorem readsBack_str (fmtFloat : ℚ → String) (parseFloat : List Char → Option ℚ) (s : String) :
    (GoValue.str s).readsBack fmtFloat parseFloat := by
  intro txt htxt
  simp only [jsonMarshal, Except.ok.injEq] at htxt
  subst htxt
  refine ⟨⟨Char.ofNat 34, _, rfl, by decide⟩, ?_⟩
  intro fuel hfuel rest _
  cases fuel with
  | zero => simp [jsonString] at hfuel
  | succ fuel =>
    show parseValue parseFloat (fuel + 1)
      (Char.ofNat 34 :: (s.toList.flatMap jsonEscape ++ [Char.ofNat 34]) ++ rest) = _
    rw [List.cons_append, parseValue_succ, List.append_assoc, List.singleton_append,
      parseStringBody_jsonString]
    simp [GoValue.canon]

theorem jsonMarshalList_cons (fmtFloat : ℚ → String) (x : GoValue) (rest : List GoValue)
    (parts : List (List Char)) (h : jsonMarshalList fmtFloat (x :: rest) = .ok parts) :
    ∃ t ts, jsonMarshal fmtFloat x = .ok t ∧ jsonMarshalList fmtFloat rest = .ok ts
      ∧ parts = t :: ts := by
  rw [jsonMarshalList] at h
  cases hx : jsonMarshal fmtFloat x with
  | error e => simp [hx] at h
  | ok t =>
    cases hr : jsonMarshalList fmtFloat rest with
    | error e => simp [hx, hr] at h
    | ok ts =>
      simp only [hx, hr, Except.ok.injEq] at h
      exact ⟨t, ts, rfl, rfl, h.symm⟩

/-- The decoder reads the elements that `json.Marshal` writes for a slice that
is not empty back as the elements, each in canonical form. -/
theorem parseElements_readsBack (fmtFloat : ℚ → String) (parseFloat : List Char → Option ℚ)
    (xs : List GoValue) :
    ∀ (parts : List (List Char)), xs ≠ [] → jsonMarshalList fmtFloat xs = .ok parts →
      (∀ x ∈ xs, x.readsBack fmtFloat parseFloat) →
      (∃ c t, joinComma parts = c :: t ∧ c ≠ ']') ∧
      ∀ fuel, (joinComma parts).length + 1 ≤ fuel → ∀ rest,
        parseElements parseFloat fuel (joinComma parts ++ ']' :: rest)
          = some (canonList xs, rest) := by
  induction xs with
  | nil => intro parts h; exact absurd rfl h
  | cons x r ih =>
    intro parts _ hparts hrb
    obtain ⟨t, ts, hx, hr, hp⟩ := jsonMarshalList_cons fmtFloat x r parts hparts
    subst hp
    obtain ⟨⟨c, t', ht, hc⟩, hparse⟩ := hrb x (List.mem_cons_self _ _) t hx
    cases r with
    | nil =>
      simp only [jsonMarshalList, Except.ok.injEq] at hr
      subst hr
      refine ⟨⟨c, t', by simpa [joinComma] using ht, hc⟩, ?_⟩
      intro fuel hfuel rest
      cases fuel with
      | zero => simp at hfuel
      | succ fuel =>
        simp only [joinComma] at hfuel ⊢
        rw [parseElements_succ, hparse fuel (by omega) (']' :: rest) (by simp; decide)]
        simp [canonList]
    | cons y r' =>
      obtain ⟨ty, tys, _, _, hts⟩ := jsonMarshalList_cons fmtFloat y r' ts hr
      subst hts
      obtain ⟨_, ihparse⟩ := ih (ty :: tys) (by simp) hr
        (fun z hz => hrb z (List.mem_cons_of_mem _ hz))
      have hjoin : joinComma (t :: ty :: tys) = t ++ ',' :: joinComma (ty :: tys) := by
        rw [joinComma]
      refine ⟨⟨c, t' ++ ',' :: joinComma (ty :: tys), by rw [hjoin, ht]; rfl, hc⟩, ?_⟩
      intro fuel hfuel rest
      rw [hjoin] at hfuel ⊢
      simp only [List.length_append, List.length_cons] at hfuel
      cases fuel with
      | zero => omega
      | succ fuel =>
        rw [parseElements_succ, List.append_assoc, List.cons_append,
          hparse fuel (by omega) (',' :: (joinComma (ty :: tys) ++ ']' :: rest))
            (by simp; decide)]
        simp only [List.head?_cons, if_true, List.tail_cons]
        rw [ihparse fuel (by omega) rest]
        simp [canonList]

theorem collectFields_cons (k : String) (r : Except String (List Char))
    (rest : List (String × Except String (List Char))) (fields : List (String × List Char))
    (h : collectFields ((k, r) :: rest) = .ok fields) :
    ∃ t fs, r = .ok t ∧ collectFields rest = .ok fs ∧ fields = (k, t) :: fs := by
  cases r with
  | error e => simp [collectFields] at h
  | ok t =>
    rw [collectFields] at h
    cases hr : collectFields rest with
    | error e => simp [hr] at h
    | ok fs =>
      simp only [hr, Except.ok.injEq] at h
      exact ⟨t, fs, rfl, rfl, h.symm⟩

/-- Text of one member of an object. -/
theorem parseMembers_member (parseFloat : List Char → Option ℚ) (fuel : Nat) (k : String)
    (t : List Char) (v : GoValue) (c1 : Char) (after : List Char)
    (hv : parseValue parseFloat fuel (t ++ c1 :: after) = some (v, c1 :: after)) :
    parseMembers parseFloat (fuel + 1) ((jsonString k ++ ':' :: t) ++ c1 :: after) =
      if c1 = ',' then
        (parseMembers parseFloat fuel after).map (fun p => ((k, v) :: p.1, p.2))
      else if c1 = Char.ofNat 125 then some ([(k, v)], after)
      else none := by
  have hshape : (jsonString k ++ ':' :: t) ++ c1 :: after
      = Char.ofNat 34 :: (k.toList.flatMap jsonEscape
          ++ Char.ofNat 34 :: (':' :: (t ++ c1 :: after))) := by
    simp [jsonString]
  rw [hshape, parseMembers_succ]
  simp only [List.head?_cons, if_true, List.tail_cons, parseStringBody_jsonString, hv]
  have hk : String.mk k.toList = k := rfl
  rw [hk]
  by_cases h1 : c1 = ','
  · simp [h1]
  · by_cases h2 : c1 = Char.ofNat 125
    · simp [h1, h2]
    · simp [h1, h2]

/-- The decoder reads the members that `json.Marshal` writes for a map that is
not empty back as the entries, in the order of the text, each value in
canonical form. -/
theorem parseMembers_readsBack (fmtFloat : ℚ → String) (parseFloat : List Char → Option ℚ)
    (l : List (String × GoValue)) :
    ∀ (fields : List (String × List Char)), l ≠ [] →
      collectFields (l.map (fun q => (q.1, jsonMarshal fmtFloat q.2))) = .ok fields →
      (∀ p ∈ l, p.2.readsBack fmtFloat parseFloat) →
      (∃ t, joinComma (fields.map (fun p => jsonString p.1 ++ ':' :: p.2))
          = Char.ofNat 34 :: t) ∧
      ∀ fuel, (joinComma (fields.map (fun p => jsonString p.1 ++ ':' :: p.2))).length + 1
          ≤ fuel → ∀ rest,
        parseMembers parseFloat fuel
            (joinComma (fields.map (fun p => jsonString p.1 ++ ':' :: p.2))
              ++ Char.ofNat 125 :: rest)
          = some (l.map (fun q => (q.1, q.2.canon)), rest) := by
  induction l with
  | nil => intro fields h; exact absurd rfl h
  | cons p r ih =>
    intro fields _ hfields hrb
    obtain ⟨k, v⟩ := p
    rw [List.map_cons] at hfields
    obtain ⟨t, fs, hv, hr, hf⟩ := collectFields_cons k _ _ fields hfields
    subst hf
    obtain ⟨_, hparse⟩ := hrb (k, v) (List.mem_cons_self _ _) t hv
    cases r with
    | nil =>
      simp only [List.map_nil, collectFields, Except.ok.injEq] at hr
      subst hr
      simp only [List.map_cons, List.map_nil, joinComma]
      refine ⟨⟨_, rfl⟩, ?_⟩
      intro fuel hfuel rest
      cases fuel with
      | zero => simp at hfuel
      | succ fuel =>
        simp only [List.length_append, List.length_cons] at hfuel
        rw [parseMembers_member parseFloat fuel k t v.canon (Char.ofNat 125) rest
          (hparse fuel (by omega) (Char.ofNat 125 :: rest) (by simp; decide))]
        simp
    | cons q r' =>
      obtain ⟨kq, vq⟩ := q
      have hr' := hr
      rw [List.map_cons] at hr'
      obtain ⟨tq, fq, _, _, hfs⟩ := collectFields_cons kq _ _ fs hr'
      subst hfs
      obtain ⟨_, ihparse⟩ := ih ((kq, tq) :: fq) (by simp) hr
        (fun z hz => hrb z (List.mem_cons_of_mem _ hz))
      have hjoin : joinComma (((k, t) :: (kq, tq) :: fq).map
            (fun p => jsonString p.1 ++ ':' :: p.2))
          = (jsonString k ++ ':' :: t) ++ ',' ::
              joinComma (((kq, tq) :: fq).map (fun p => jsonString p.1 ++ ':' :: p.2)) := by
        simp only [List.map_cons, joinComma]
      refine ⟨⟨_, hjoin.trans rfl⟩, ?_⟩
      intro fuel hfuel rest
      rw [hjoin] at hfuel ⊢
      simp only [List.length_append, List.length_cons] at hfuel
      cases fuel with
      | zero => omega
      | succ fuel =>
        rw [List.append_assoc, List.cons_append,
          parseMembers_member parseFloat fuel k t v.canon ','
            (joinComma (((kq, tq) :: fq).map (fun p => jsonString p.1 ++ ':' :: p.2))
              ++ Char.ofNat 125 :: rest)
            (hparse fuel (by omega) _ (by simp; decide))]
        simp only [if_true]
        rw [ihparse fuel (by omega) rest]
        simp

theorem readsBack_array (fmtFloat : ℚ → String) (parseFloat : List Char → Option ℚ)
    (xs : List GoValue) (h : ∀ x ∈ xs, x.readsBack fmtFloat parseFloat) :
    (GoValue.array xs).readsBack fmtFloat parseFloat := by
  intro txt htxt
  rw [jsonMarshal] at htxt
  cases hparts : jsonMarshalList fmtFloat xs with
  | error e => simp [hparts] at htxt
  | ok parts =>
    simp only [hparts, Except.ok.injEq] at htxt
    subst htxt
    refine ⟨⟨'[', _, rfl, by decide⟩, ?_⟩
    intro fuel hfuel rest _
    simp only [List.length_cons, List.length_append, List.length_nil] at hfuel
    cases fuel with
    | zero => omega
    | succ fuel =>
      have hshape : ('[' :: (joinComma parts ++ [']'])) ++ rest
          = '[' :: (joinComma parts ++ ']' :: rest) := by simp
      rw [hshape, parseValue_succ]
      have e1 : ¬ ('[' = 'n') := by decide
      have e2 : ¬ ('[' = 't') := by decide
      have e3 : ¬ ('[' = 'f') := by decide
      have e4 : ¬ ('[' = Char.ofNat 34) := by decide
      simp only [e1, e2, e3, e4, if_false, if_true]
      cases xs with
      | nil =>
        simp only [jsonMarshalList, Except.ok.injEq] at hparts
        subst hparts
        simp [joinComma, GoValue.canon, canonList]
      | cons x r =>
        obtain ⟨⟨c, t, hct, hc⟩, hparse⟩ :=
          parseElements_readsBack fmtFloat parseFloat (x :: r) parts (by simp) hparts h
        have hhead : ¬ ((joinComma parts ++ ']' :: rest).head? = some ']') := by
          rw [hct]
          simp [hc]
        simp only [hhead, if_false]
        rw [hparse fuel (by omega) rest]
        simp [GoValue.canon]

theorem readsBack_object (fmtFloat : ℚ → String) (parseFloat : List Char → Option ℚ)
    (kvs : List (String × GoValue)) (hnd : (kvs.map Prod.fst).Nodup)
    (h : ∀ p ∈ kvs, p.2.readsBack fmtFloat parseFloat) :
    (GoValue.object kvs).readsBack fmtFloat parseFloat := by
  intro txt htxt
  rw [jsonMarshal, jsonMarshalFields_eq_map, sortFields_map] at htxt
  cases hfields : collectFields
      ((sortFields kvs).map (fun q => (q.1, jsonMarshal fmtFloat q.2))) with
  | error e => simp [hfields] at htxt
  | ok fields =>
    simp only [hfields, Except.ok.injEq] at htxt
    subst htxt
    refine ⟨⟨Char.ofNat 123, _, rfl, by decide⟩, ?_⟩
    intro fuel hfuel rest _
    simp only [List.length_cons, List.length_append, List.length_nil] at hfuel
    have hcanon : (GoValue.object kvs).canon
        = GoValue.object ((sortFields kvs).map (fun q => (q.1, q.2.canon))) := by
      rw [GoValue.canon, canonFields_eq_map, sortFields_map]
    rw [hcanon]
    cases fuel with
    | zero => omega
    | succ fuel =>
      have hshape : (Char.ofNat 123 ::
            (joinComma (fields.map (fun p => jsonString p.1 ++ ':' :: p.2))
              ++ [Char.ofNat 125])) ++ rest
          = Char.ofNat 123 ::
            (joinComma (fields.map (fun p => jsonString p.1 ++ ':' :: p.2))
              ++ Char.ofNat 125 :: rest) := by simp
      rw [hshape, parseValue_succ]
      have e1 : ¬ (Char.ofNat 123 = 'n') := by decide
      have e2 : ¬ (Char.ofNat 123 = 't') := by decide
      have e3 : ¬ (Char.ofNat 123 = 'f') := by decide
      have e4 : ¬ (Char.ofNat 123 = Char.ofNat 34) := by decide
      have e5 : ¬ (Char.ofNat 123 = '[') := by decide
      simp only [e1, e2, e3, e4, e5, if_false, if_true]
      cases hl : sortFields kvs with
      | nil =>
        rw [hl] at hfields
        simp only [List.map_nil, collectFields, Except.ok.injEq] at hfields
        subst hfields
        simp [joinComma]
      | cons p r =>
        have hperm := sortFields_perm kvs
        have hmem : ∀ q ∈ sortFields kvs, q.2.readsBack fmtFloat parseFloat :=
          fun q hq => h q (hperm.mem_iff.mp hq)
        obtain ⟨⟨t, ht⟩, hparse⟩ :=
          parseMembers_readsBack fmtFloat parseFloat (sortFields kvs) fields
            (by rw [hl]; simp) hfields hmem
        have hhead : ¬ ((joinComma (fields.map (fun p => jsonString p.1 ++ ':' :: p.2))
            ++ Char.ofNat 125 :: rest).head? = some (Char.ofNat 125)) := by
          rw [ht]
          simp
        simp only [hhead, if_false]
        rw [hparse fuel (by omega) rest]
        have hkeys : (((sortFields kvs).map (fun q => (q.1, q.2.canon))).map Prod.fst).Nodup := by
          rw [List.map_map]
          have : (Prod.fst ∘ fun q : String × GoValue => (q.1, q.2.canon)) = Prod.fst := rfl
          rw [this]
          exact (hperm.map Prod.fst).nodup_iff.mpr hnd
        rw [hl] at hkeys ⊢
        simp only [Option.map_some', fromEntries_distinct _ hkeys]

theorem keysDistinct_object (kvs : List (String × GoValue))
    (h : (GoValue.object kvs).keysDistinct = true) :
    (kvs.map Prod.fst).Nodup ∧ keysDistinctFields kvs = true := by
  simpa [GoValue.keysDistinct] using h

mutual
/-- The decoder reads back every value whose maps have distinct keys and whose
numbers are read back. -/
theorem readsBack_value (fmtFloat : ℚ → String) (parseFloat : List Char → Option ℚ) :
    ∀ (v : GoValue), v.keysDistinct = true → v.floatsReadBack fmtFloat parseFloat = true →
      v.readsBack fmtFloat parseFloat
  | .null, _, _ => readsBack_null fmtFloat parseFloat
  | .bool b, _, _ => readsBack_bool fmtFloat parseFloat b
  | .number f, _, hf =>
    readsBack_number fmtFloat parseFloat f (by simpa [GoValue.floatsReadBack] using hf)
  | .nonFinite _, _, _ => fun txt htxt => by simp [jsonMarshal] at htxt
  | .str s, _, _ => readsBack_str fmtFloat parseFloat s
  | .array xs, hk, hf =>
    readsBack_array fmtFloat parseFloat xs
      (readsBack_list fmtFloat parseFloat xs (by simpa [GoValue.keysDistinct] using hk)
        (by simpa [GoValue.floatsReadBack] using hf))
  | .object kvs, hk, hf =>
    readsBack_object fmtFloat parseFloat kvs (keysDistinct_object kvs hk).1
      (readsBack_fields fmtFloat parseFloat kvs (keysDistinct_object kvs hk).2
        (by simpa [GoValue.floatsReadBack] using hf))
  | .unsupported _, _, _ => fun txt htxt => by simp [jsonMarshal] at htxt
termination_by structural v => v
theorem readsBack_list (fmtFloat : ℚ → String) (parseFloat : List Char → Option ℚ) :
    ∀ (xs : List GoValue), keysDistinctList xs = true →
      floatsReadBackList fmtFloat parseFloat xs = true →
      ∀ x ∈ xs, x.readsBack fmtFloat parseFloat
  | [], _, _ => fun x hx => by simp at hx
  | y :: rest, hk, hf => fun x hx => by
    simp only [keysDistinctList, Bool.and_eq_true] at hk
    simp only [floatsReadBackList, Bool.and_eq_true] at hf
    rcases List.mem_cons.mp hx with h | h
    · rw [h]
      exact readsBack_value fmtFloat parseFloat y hk.1 hf.1
    · exact readsBack_list fmtFloat parseFloat rest hk.2 hf.2 x h
termination_by structural xs => xs
theorem readsBack_fields (fmtFloat : ℚ → String) (parseFloat : List Char → Option ℚ) :
    ∀ (kvs : List (String × GoValue)), keysDistinctFields kvs = true →
      floatsReadBackFields fmtFloat parseFloat kvs = true →
      ∀ p ∈ kvs, p.2.readsBack fmtFloat parseFloat
  | [], _, _ => fun p hp => by simp at hp
  | (k, v) :: rest, hk, hf => fun p hp => by
    simp only [keysDistinctFields, Bool.and_eq_true] at hk
    simp only [floatsReadBackFields, Bool.and_eq_true] at hf
    rcases List.mem_cons.mp hp with h | h
    · rw [h]
      exact readsBack_value fmtFloat parseFloat v hk.1 hf.1
    · exact readsBack_fields fmtFloat parseFloat rest hk.2 hf.2 p h
termination_by structural kvs => kvs
end

theorem collectFields_isOk_iff (l : List (String × Except String (List Char))) :
    (∃ fields, collectFields l = .ok fields) ↔ ∀ p ∈ l, ∃ t, p.2 = .ok t := by
  induction l with
  | nil => simp [collectFields]
  | cons p rest ih =>
    obtain ⟨k, r⟩ := p
    cases r with
    | error e => simp [collectFields]
    | ok t =>
      rw [collectFields]
      constructor
      · rintro ⟨fields, h⟩
        cases hr : collectFields rest with
        | error e => simp [hr] at h
        | ok fs =>
          intro p hp
          rcases List.mem_cons.mp hp with rfl | hp
          · exact ⟨t, rfl⟩
          · exact ih.mp ⟨fs, hr⟩ p hp
      · intro h
        obtain ⟨fs, hfs⟩ := ih.mpr (fun p hp => h p (List.mem_cons_of_mem _ hp))
        exact ⟨(k, t) :: fs, by simp [hfs]⟩

theorem encodableFields_iff (kvs : List (String × GoValue)) :
    encodableFields kvs = true ↔ ∀ p ∈ kvs, p.2.encodable = true := by
  induction kvs with
  | nil => simp [encodableFields]
  | cons p rest ih =>
    obtain ⟨k, v⟩ := p
    simp [encodableFields, ih]

mutual
/-- The function `json.Marshal` succeeds exactly on the values with nothing
inside that `encoding/json` refuses. -/
theorem jsonMarshal_isOk_iff (fmtFloat : ℚ → String) :
    ∀ (v : GoValue), (∃ txt, jsonMarshal fmtFloat v = .ok txt) ↔ v.encodable = true
  | .null => by simp [jsonMarshal, GoValue.encodable]
  | .bool b => by simp [jsonMarshal, GoValue.encodable]
  | .number f => by simp [jsonMarshal, GoValue.encodable]
  | .nonFinite f => by simp [jsonMarshal, GoValue.encodable]
  | .str s => by simp [jsonMarshal, GoValue.encodable]
  | .unsupported t => by simp [jsonMarshal, GoValue.encodable]
  | .array xs => by
    have ih := jsonMarshalList_isOk_iff fmtFloat xs
    rw [GoValue.encodable, ← ih, jsonMarshal]
    cases hparts : jsonMarshalList fmtFloat xs with
    | error e => simp
    | ok parts => simp
  | .object kvs => by
    have ih := jsonMarshalFields_isOk_iff fmtFloat kvs
    rw [GoValue.encodable, encodableFields_iff, jsonMarshal]
    have hc := collectFields_isOk_iff (sortFields (jsonMarshalFields fmtFloat kvs))
    have hperm := sortFields_perm (jsonMarshalFields fmtFloat kvs)
    have hall : (∀ p ∈ sortFields (jsonMarshalFields fmtFloat kvs), ∃ t, p.2 = Except.ok t)
        ↔ ∀ p ∈ kvs, p.2.encodable = true := by
      rw [← ih]
      constructor
      · intro h p hp; exact h p (hperm.mem_iff.mpr hp)
      · intro h p hp; exact h p (hperm.mem_iff.mp hp)
    rw [← hall, ← hc]
    cases hf : collectFields (sortFields (jsonMarshalFields fmtFloat kvs)) with
    | error e => simp
    | ok fields => simp
termination_by structural v => v
theorem jsonMarshalList_isOk_iff (fmtFloat : ℚ → String) :
    ∀ (xs : List GoValue),
      (∃ parts, jsonMarshalList fmtFloat xs = .ok parts) ↔ encodableList xs = true
  | [] => by simp [jsonMarshalList, encodableList]
  | x :: rest => by
    have ih1 := jsonMarshal_isOk_iff fmtFloat x
    have ih2 := jsonMarshalList_isOk_iff fmtFloat rest
    rw [encodableList, Bool.and_eq_true, ← ih1, ← ih2, jsonMarshalList]
    cases hx : jsonMarshal fmtFloat x with
    | error e => simp
    | ok t =>
      cases hr : jsonMarshalList fmtFloat rest with
      | error e => simp
      | ok ts => simp
termination_by structural xs => xs
theorem jsonMarshalFields_isOk_iff (fmtFloat : ℚ → String) :
    ∀ (kvs : List (String × GoValue)),
      (∀ p ∈ jsonMarshalFields fmtFloat kvs, ∃ t, p.2 = Except.ok t)
        ↔ ∀ p ∈ kvs, p.2.encodable = true
  | [] => by simp [jsonMarshalFields]
  | (k, v) :: rest => by
    have ih1 := jsonMarshal_isOk_iff fmtFloat v
    have ih2 := jsonMarshalFields_isOk_iff fmtFloat rest
    simp only [jsonMarshalFields, List.mem_cons, forall_eq_or_imp, ih2, ← ih1]
termination_by structural kvs => kvs
end

/-- The decoder applied to the whole text that `json.Marshal` writes for a
value gives the value back, in canonical form. -/
theorem jsonUnmarshal_jsonMarshal (fmtFloat : ℚ → String) (parseFloat : List Char → Option ℚ)
    (v : GoValue) (txt : List Char) (hk : v.keysDistinct = true)
    (hf : v.floatsReadBack fmtFloat parseFloat = true)
    (htxt : jsonMarshal fmtFloat v = .ok txt) :
    jsonUnmarshal parseFloat txt = some v.canon := by
  have h := (readsBack_value fmtFloat parseFloat v hk hf txt htxt).2 txt.length (le_refl _) []
    (by simp)
  rw [List.append_nil] at h
  simp only [jsonUnmarshal, h]

/-- C18, counterexample. The structured result `k: NaN`: `json.Marshal` refuses
the value, and `writeResult` returns the error `failed to marshal structured
tool result: json: unsupported value: NaN` and writes no envelope. The same
holds for a value of an unsupported type such as a channel. -/
theorem writeResult_structured_nan_fails :
    writeResult intFloat (NewResponseWriter 1)
        (.tool (.structured (some [("k", GoValue.nonFinite NonFinite.nan)])))
        = .error "failed to marshal structured tool result: json: unsupported value: NaN"
      ∧ writeResult intFloat (NewResponseWriter 1)
        (.tool (.structured (some [("k", GoValue.array [GoValue.unsupported "chan int"])])))
        = .error "failed to marshal structured tool result: json: unsupported type: chan int" :=
  ⟨by rfl, by rfl⟩

/-- C18, amended. A structured result `m`. If `json.Marshal(m)` succeeds with
the text `J`, `writeResult` returns no error and writes one success envelope
whose result is `content: [text item], isError: false, structuredContent: m`,
where the text item has type `text` and the text `J`, and `structuredContent`
is `m` itself. If `json.Marshal(m)` fails, `writeResult` returns the error
`failed to marshal structured tool result: ` followed by the error of
`json.Marshal`, and writes nothing. Parsing `J` gives back `m`: for a map `m`
whose maps have distinct keys and whose numbers are written as texts that are
read back, the decoder returns `m` with the entries of every map in key order,
which is a reordering of the entries; for the nil map, `J` is `null` and the
decoder returns nil. `json.Marshal(m)` succeeds exactly when no value inside `m`
is a NaN or infinite number or of an unsupported type. For `m = {"k": "v"}` the
text is `{"k":"v"}`. -/
theorem writeResult_structured (fmtFloat : ℚ → String) (parseFloat : List Char → Option ℚ)
    (rw : ResponseWriter) (m : ToolResultStructured) :
    (∀ J, jsonMarshalStructured fmtFloat m = .ok J →
      writeResult fmtFloat rw (.tool (.structured m)) =
        .ok { Jsonrpc := "2.0", ID := rw.id,
              Result := some
                [("content", ResultValue.content
                    [ContentItem.text { Type_ := "text", Text := J }]),
                 ("isError", ResultValue.json (Value.bool false)),
                 ("structuredContent", ResultValue.structured m)],
              Error := none })
      ∧ (∀ err, jsonMarshalStructured fmtFloat m = .error err →
          writeResult fmtFloat rw (.tool (.structured m)) =
            .error ("failed to marshal structured tool result: " ++ err))
      ∧ (∀ kvs J, m = some kvs → jsonMarshalStructured fmtFloat m = .ok J →
          (GoValue.object kvs).keysDistinct = true →
          (GoValue.object kvs).floatsReadBack fmtFloat parseFloat = true →
          jsonUnmarshal parseFloat J.toList
              = some (GoValue.object (sortFields (canonFields kvs)))
            ∧ (sortFields (canonFields kvs)).Perm (canonFields kvs))
      ∧ (m = none → jsonMarshalStructured fmtFloat m = .ok "null"
          ∧ jsonUnmarshal parseFloat "null".toList = some GoValue.null)
      ∧ ((∃ J, jsonMarshalStructured fmtFloat m = .ok J)
          ↔ ∀ kvs, m = some kvs → (GoValue.object kvs).encodable = true)
      ∧ jsonMarshalStructured fmtFloat (some [("k", GoValue.str "v")])
          = .ok "\x7b\"k\":\"v\"\x7d" := by
  refine ⟨?_, ?_, ?_, ?_, ?_, by rfl⟩
  · intro J hJ
    simp only [writeResult, hJ]
    rfl
  · intro err herr
    simp only [writeResult, herr]
  · intro kvs J hm hJ hk hf
    subst hm
    refine ⟨?_, sortFields_perm _⟩
    simp only [jsonMarshalStructured] at hJ
    cases htxt : jsonMarshal fmtFloat (GoValue.object kvs) with
    | error e => simp [htxt] at hJ
    | ok txt =>
      simp only [htxt, Except.ok.injEq] at hJ
      subst hJ
      have := jsonUnmarshal_jsonMarshal fmtFloat parseFloat (GoValue.object kvs) txt hk hf htxt
      rw [GoValue.canon] at this
      exact this
  · intro hm
    subst hm
    exact ⟨rfl, by rfl⟩
  · cases m with
    | none => simp [jsonMarshalStructured]
    | some kvs =>
      have h := jsonMarshal_isOk_iff fmtFloat (GoValue.object kvs)
      simp only [Option.some.injEq, forall_eq', ← h, jsonMarshalStructured]
      cases htxt : jsonMarshal fmtFloat (GoValue.object kvs) with
      | error e => simp
      | ok txt => simp

theorem writeResult_structured_witness :
    jsonMarshalStructured intFloat (some sampleStructured)
        = .ok "\x7b\"a\":[true,null,\x7b\"b\":-7,\"z\":\"\\u003c\"\x7d],\"k\":\"v\",\"n\":2\x7d"
      ∧ jsonUnmarshal intParse
          "\x7b\"a\":[true,null,\x7b\"b\":-7,\"z\":\"\\u003c\"\x7d],\"k\":\"v\",\"n\":2\x7d".toList
        = some (GoValue.object
            [("a", GoValue.array [GoValue.bool true, GoValue.null,
                GoValue.object [("b", GoValue.number (-7)), ("z", GoValue.str "<")]]),
             ("k", GoValue.str "v"), ("n", GoValue.number 2)]) :=
  ⟨by rfl,
    ((writeResult_structured intFloat intParse (NewResponseWriter 1) (some sampleStructured)).2.2.1
      sampleStructured _ rfl (by rfl) (by decide) (by decide)).1⟩

end McpRobot
